import Mathlib

/-!
Shallow embedding of the cachemaster cache engine
(`src/backend/src/cache`): JSON-shaped values, the three replacement
policies (LRU, LFU, FIFO), the statistics tracker and the `CacheEngine`
itself, followed by theorems settling the specification claims.

JavaScript `Map`s are embedded as association lists in insertion order
(`Map.set` replaces in place or appends, `Map.delete` removes the unique
binding); doubly linked lists are embedded as Lean lists; `Date.now()`
becomes an explicit `now : Nat` argument on every operation that reads
the clock; thrown exceptions become `Except` results.
-/

set_option linter.unusedSectionVars false
set_option linter.unnecessarySimpa false

namespace CacheMaster

/-- JSON-shaped values stored by the cache (`null`, booleans, numbers,
strings, arrays, objects). Numbers are embedded as integers. -/
inductive Value where
  | vnull : Value
  | vbool (b : Bool) : Value
  | vnum (n : Int) : Value
  | vstr (s : String) : Value
  | varr (elems : List Value) : Value
  | vobj (fields : List (String × Value)) : Value

/-- JavaScript `value === null` test used by `getMultiple` and `increment`. -/
def Value.isNull : Value → Bool
  | Value.vnull => true
  | _ => false

/-- JavaScript `typeof value === 'number'` test used by `increment`. -/
def Value.isNum : Value → Bool
  | Value.vnum _ => true
  | _ => false

mutual

/-- `CacheEngine.estimateValueSize`: the recursive approximate byte-size walk
(null 8, boolean 1, number 8, string UTF-8 length, array 16 + elements,
object 16 + field names and values). -/
def estimateValueSize : Value → Nat
  | Value.vnull => 8
  | Value.vbool _ => 1
  | Value.vnum _ => 8
  | Value.vstr s => s.utf8ByteSize
  | Value.varr elems => 16 + estimateArrSize elems
  | Value.vobj fields => 16 + estimateObjSize fields

/-- Sum of element sizes of an array value. -/
def estimateArrSize : List Value → Nat
  | [] => 0
  | v :: vs => estimateValueSize v + estimateArrSize vs

/-- Sum of key byte lengths plus value sizes of an object value. -/
def estimateObjSize : List (String × Value) → Nat
  | [] => 0
  | (k, v) :: fs => k.utf8ByteSize + estimateValueSize v + estimateObjSize fs

end

/-- `CacheEngine.calculateEntrySize`: UTF-8 key bytes + estimated value
bytes + the fixed 64-byte overhead. -/
def calculateEntrySize (key : String) (value : Value) : Nat :=
  key.utf8ByteSize + estimateValueSize value + 64

section AssocList

variable {K : Type} {V : Type} [DecidableEq K]

/-- `Map.get`: find the binding of `k` in an insertion-ordered association
list. -/
def alookup (k : K) : List (K × V) → Option V
  | [] => none
  | (k', v) :: rest => if k' = k then some v else alookup k rest

/-- `Map.delete`: remove the binding of `k` (the first one, which is the only
one for a well-formed map). -/
def aerase (k : K) : List (K × V) → List (K × V)
  | [] => []
  | (k', v) :: rest => if k' = k then rest else (k', v) :: aerase k rest

/-- `Map.set`: replace the binding of `k` in place if present, otherwise
append it, preserving insertion order. -/
def aset (k : K) (v : V) : List (K × V) → List (K × V)
  | [] => [(k, v)]
  | (k', v') :: rest => if k' = k then (k, v) :: rest else (k', v') :: aset k v rest

/-- `Map.keys` in insertion order. -/
def akeys (l : List (K × V)) : List K := l.map Prod.fst

end AssocList

section Policies

variable {K : Type} {V : Type} [DecidableEq K]

/-- State of `LRUPolicy` from `eviction-policies/lru.ts`: the doubly linked
list plus its key-to-node index collapse to one recency-ordered list,
head = most recently used, last = least recently used. -/
structure LRUPolicy (K V : Type) where
  capacity : Nat
  order : List (K × V)

/-- `LRUPolicy.get`: on a hit, move the node to the head. -/
def LRUPolicy.get (s : LRUPolicy K V) (k : K) : Option V × LRUPolicy K V :=
  match alookup k s.order with
  | none => (none, s)
  | some v => (some v, { s with order := (k, v) :: aerase k s.order })

/-- `LRUPolicy.evictLRU`: remove and return the tail (least recently used)
key, or nothing when empty. -/
def LRUPolicy.evictLRU (s : LRUPolicy K V) : Option K × LRUPolicy K V :=
  match s.order.getLast? with
  | none => (none, s)
  | some (k, _) => (some k, { s with order := s.order.dropLast })

/-- `LRUPolicy.set`: update-and-promote an existing key, or insert at the
head after evicting the tail when at capacity; a capacity-0 policy stores
nothing. -/
def LRUPolicy.set (s : LRUPolicy K V) (k : K) (v : V) : Option K × LRUPolicy K V :=
  match alookup k s.order with
  | some _ => (none, { s with order := (k, v) :: aerase k s.order })
  | none =>
    let p := if 0 < s.capacity ∧ s.capacity ≤ s.order.length then s.evictLRU else (none, s)
    if s.capacity = 0 then (none, s)
    else (p.1, { s with order := (k, v) :: p.2.order })

/-- `LRUPolicy.delete`. -/
def LRUPolicy.del (s : LRUPolicy K V) (k : K) : Bool × LRUPolicy K V :=
  match alookup k s.order with
  | none => (false, s)
  | some _ => (true, { s with order := aerase k s.order })

/-- `LRUPolicy.clear`. -/
def LRUPolicy.clearAll (s : LRUPolicy K V) : LRUPolicy K V :=
  { s with order := [] }

/-- State of `FIFOPolicy` from `eviction-policies/fifo.ts`: one
insertion-ordered list, head = oldest (the victim), last = newest. -/
structure FIFOPolicy (K V : Type) where
  capacity : Nat
  order : List (K × V)

/-- `FIFOPolicy.get`: lookup without touching the order. -/
def FIFOPolicy.get (s : FIFOPolicy K V) (k : K) : Option V × FIFOPolicy K V :=
  (alookup k s.order, s)

/-- `FIFOPolicy.evictFIFO`: remove and return the head (oldest) key. -/
def FIFOPolicy.evictHead (s : FIFOPolicy K V) : Option K × FIFOPolicy K V :=
  match s.order with
  | [] => (none, s)
  | (k, _) :: rest => (some k, { s with order := rest })

/-- `FIFOPolicy.set`: update an existing key in place, or append at the tail
after evicting the head when at capacity; a capacity-0 policy stores
nothing. -/
def FIFOPolicy.set (s : FIFOPolicy K V) (k : K) (v : V) : Option K × FIFOPolicy K V :=
  match alookup k s.order with
  | some _ => (none, { s with order := aset k v s.order })
  | none =>
    let p := if 0 < s.capacity ∧ s.capacity ≤ s.order.length then s.evictHead else (none, s)
    if s.capacity = 0 then (none, s)
    else (p.1, { s with order := p.2.order ++ [(k, v)] })

/-- `FIFOPolicy.delete`. -/
def FIFOPolicy.del (s : FIFOPolicy K V) (k : K) : Bool × FIFOPolicy K V :=
  match alookup k s.order with
  | none => (false, s)
  | some _ => (true, { s with order := aerase k s.order })

/-- `FIFOPolicy.clear`. -/
def FIFOPolicy.clearAll (s : FIFOPolicy K V) : FIFOPolicy K V :=
  { s with order := [] }

/-- State of `LFUPolicy` from `eviction-policies/lfu.ts`: the key-to-node map
(each node carrying its value and frequency), the frequency-to-list map
(each list ordered least- to most-recently-touched at that frequency), and
the `minFrequency` scalar. -/
structure LFUPolicy (K V : Type) where
  capacity : Nat
  cache : List (K × V × Nat)
  freqMap : List (Nat × List K)
  minFreq : Nat

/-- `LFUPolicy.addToFrequencyList`: create the list for `f` if missing, then
append `k` at its tail. -/
def lfuAddToList (fm : List (Nat × List K)) (k : K) (f : Nat) : List (Nat × List K) :=
  match alookup f fm with
  | none => aset f [k] fm
  | some l => aset f (l ++ [k]) fm

/-- `LFUPolicy.removeFromFrequencyList`: unlink `k` from the list at `f`,
deleting the list from the map when it becomes empty. -/
def lfuRemoveFromList (fm : List (Nat × List K)) (k : K) (f : Nat) : List (Nat × List K) :=
  match alookup f fm with
  | none => fm
  | some l =>
    let l' := l.erase k
    if l' = [] then aerase f fm else aset f l' fm

/-- `LFUPolicy.increaseFrequency`: move the node for `k` (holding value `v`,
frequency `f`) one frequency level up, bumping `minFrequency` to the new
frequency when the old minimum level emptied. -/
def LFUPolicy.increaseFreq (s : LFUPolicy K V) (k : K) (v : V) (f : Nat) : LFUPolicy K V :=
  let newF := f + 1
  let fm1 := lfuRemoveFromList s.freqMap k f
  let fm2 := lfuAddToList fm1 k newF
  let min' := if f = s.minFreq ∧ (alookup f fm2).isNone then newF else s.minFreq
  { s with cache := aset k (v, newF) s.cache, freqMap := fm2, minFreq := min' }

/-- `LFUPolicy.get`: on a hit, increase the key's frequency. -/
def LFUPolicy.get (s : LFUPolicy K V) (k : K) : Option V × LFUPolicy K V :=
  match alookup k s.cache with
  | none => (none, s)
  | some (v, f) => (some v, s.increaseFreq k v f)

/-- `LFUPolicy.evictLFU`: remove and return the head of the list at
`minFrequency` (note: `minFrequency` itself is not updated here). -/
def LFUPolicy.evictLFU (s : LFUPolicy K V) : Option K × LFUPolicy K V :=
  if s.minFreq = 0 then (none, s)
  else
    match alookup s.minFreq s.freqMap with
    | none => (none, s)
    | some [] => (none, s)
    | some (k :: _) =>
      (some k, { s with cache := aerase k s.cache,
                        freqMap := lfuRemoveFromList s.freqMap k s.minFreq })

/-- `LFUPolicy.set`: bump an existing key's frequency after replacing its
value, or insert a fresh key at frequency 1 (evicting first when at
capacity, resetting `minFrequency` to 1); a capacity-0 policy stores
nothing. -/
def LFUPolicy.set (s : LFUPolicy K V) (k : K) (v : V) : Option K × LFUPolicy K V :=
  match alookup k s.cache with
  | some (_, f) => (none, s.increaseFreq k v f)
  | none =>
    let p := if 0 < s.capacity ∧ s.capacity ≤ s.cache.length then s.evictLFU else (none, s)
    if s.capacity = 0 then (none, s)
    else
      let s1 := p.2
      (p.1, { s1 with cache := aset k (v, 1) s1.cache,
                      freqMap := lfuAddToList s1.freqMap k 1,
                      minFreq := if s1.minFreq = 0 ∨ 1 < s1.minFreq then 1 else s1.minFreq })

/-- `LFUPolicy.delete`: unlink and remove the node; when the list at
`minFrequency` disappeared, bump `minFrequency` by exactly one. -/
def LFUPolicy.del (s : LFUPolicy K V) (k : K) : Bool × LFUPolicy K V :=
  match alookup k s.cache with
  | none => (false, s)
  | some (_, f) =>
    let fm' := lfuRemoveFromList s.freqMap k f
    (true, { s with cache := aerase k s.cache, freqMap := fm',
                    minFreq := if 0 < s.minFreq ∧ (alookup s.minFreq fm').isNone
                               then s.minFreq + 1 else s.minFreq })

/-- `LFUPolicy.clear`. -/
def LFUPolicy.clearAll (s : LFUPolicy K V) : LFUPolicy K V :=
  { s with cache := [], freqMap := [], minFreq := 0 }

end Policies

section Engine

/-- `CacheEntry` from `cache-engine.ts`: stored value, optional absolute
expiration instant, cached approximate byte size. -/
structure CacheEntry where
  value : Value
  expiresAt : Option Nat
  size : Nat

/-- `StatisticsTracker` state: the four counters and the rolling buffer of
hit/miss timestamps. -/
structure StatisticsTracker where
  hits : Nat
  misses : Nat
  evictions : Nat
  expirations : Nat
  operations : List Nat

/-- `StatisticsTracker.recordOperation`: append the timestamp, then drop
entries at or before `now - 10000` (the 10-second window). -/
def StatisticsTracker.recordOperation (st : StatisticsTracker) (now : Nat) : StatisticsTracker :=
  { st with operations :=
      (st.operations ++ [now]).filter (fun t => (now : Int) - 10000 < (t : Int)) }

/-- `StatisticsTracker.recordHit`. -/
def StatisticsTracker.recordHit (st : StatisticsTracker) (now : Nat) : StatisticsTracker :=
  recordOperation { st with hits := st.hits + 1 } now

/-- `StatisticsTracker.recordMiss`. -/
def StatisticsTracker.recordMiss (st : StatisticsTracker) (now : Nat) : StatisticsTracker :=
  recordOperation { st with misses := st.misses + 1 } now

/-- `StatisticsTracker.recordEviction`. -/
def StatisticsTracker.recordEviction (st : StatisticsTracker) : StatisticsTracker :=
  { st with evictions := st.evictions + 1 }

/-- `StatisticsTracker.recordExpiration`. -/
def StatisticsTracker.recordExpiration (st : StatisticsTracker) : StatisticsTracker :=
  { st with expirations := st.expirations + 1 }

/-- The three values of the `evictionPolicy` configuration switch. -/
inductive PolicyKind where
  | lruKind : PolicyKind
  | lfuKind : PolicyKind
  | fifoKind : PolicyKind
deriving DecidableEq

/-- The engine's `evictionPolicy` field: one of the three policy states,
instantiated at string keys and cache entries. -/
inductive PolicyState where
  | lru (s : LRUPolicy String CacheEntry) : PolicyState
  | lfu (s : LFUPolicy String CacheEntry) : PolicyState
  | fifo (s : FIFOPolicy String CacheEntry) : PolicyState

/-- Dispatch of `EvictionPolicy.get`. -/
def PolicyState.getP : PolicyState → String → Option CacheEntry × PolicyState
  | PolicyState.lru s, k => let p := s.get k; (p.1, PolicyState.lru p.2)
  | PolicyState.lfu s, k => let p := s.get k; (p.1, PolicyState.lfu p.2)
  | PolicyState.fifo s, k => let p := s.get k; (p.1, PolicyState.fifo p.2)

/-- Dispatch of `EvictionPolicy.set`. -/
def PolicyState.setP : PolicyState → String → CacheEntry → Option String × PolicyState
  | PolicyState.lru s, k, v => let p := s.set k v; (p.1, PolicyState.lru p.2)
  | PolicyState.lfu s, k, v => let p := s.set k v; (p.1, PolicyState.lfu p.2)
  | PolicyState.fifo s, k, v => let p := s.set k v; (p.1, PolicyState.fifo p.2)

/-- Dispatch of `EvictionPolicy.delete`. -/
def PolicyState.delP : PolicyState → String → Bool × PolicyState
  | PolicyState.lru s, k => let p := s.del k; (p.1, PolicyState.lru p.2)
  | PolicyState.lfu s, k => let p := s.del k; (p.1, PolicyState.lfu p.2)
  | PolicyState.fifo s, k => let p := s.del k; (p.1, PolicyState.fifo p.2)

/-- Dispatch of `EvictionPolicy.evict`. -/
def PolicyState.evictP : PolicyState → Option String × PolicyState
  | PolicyState.lru s => let p := s.evictLRU; (p.1, PolicyState.lru p.2)
  | PolicyState.lfu s => let p := s.evictLFU; (p.1, PolicyState.lfu p.2)
  | PolicyState.fifo s => let p := s.evictHead; (p.1, PolicyState.fifo p.2)

/-- Dispatch of `EvictionPolicy.clear`. -/
def PolicyState.clearP : PolicyState → PolicyState
  | PolicyState.lru s => PolicyState.lru s.clearAll
  | PolicyState.lfu s => PolicyState.lfu s.clearAll
  | PolicyState.fifo s => PolicyState.fifo s.clearAll

/-- The key set held by the policy structure, in its map's insertion order
(`EvictionPolicy.keys`); its length is `EvictionPolicy.size`. -/
def PolicyState.keysP : PolicyState → List String
  | PolicyState.lru s => akeys s.order
  | PolicyState.lfu s => akeys s.cache
  | PolicyState.fifo s => akeys s.order

/-- The policy's configured capacity. -/
def PolicyState.capacityP : PolicyState → Nat
  | PolicyState.lru s => s.capacity
  | PolicyState.lfu s => s.capacity
  | PolicyState.fifo s => s.capacity

/-- The `CacheConfig` fields the engine consumes. -/
structure CacheConfig where
  maxMemoryMB : Nat
  maxKeys : Nat
  evictionPolicy : PolicyKind

/-- `CacheEngine` state: primary map, policy, statistics and memory
accounting. `currentMemoryBytes` is an integer because the source tracks
it with plain JavaScript arithmetic. -/
structure CacheEngine where
  store : List (String × CacheEntry)
  policy : PolicyState
  stats : StatisticsTracker
  maxMemoryBytes : Nat
  currentMemoryBytes : Int
  memoryThreshold : Nat

/-- `CacheEngine.createEvictionPolicy`: a fresh policy of the configured
kind with capacity `maxKeys`. -/
def createEvictionPolicy (cfg : CacheConfig) : PolicyState :=
  match cfg.evictionPolicy with
  | PolicyKind.lruKind => PolicyState.lru { capacity := cfg.maxKeys, order := [] }
  | PolicyKind.lfuKind =>
      PolicyState.lfu { capacity := cfg.maxKeys, cache := [], freqMap := [], minFreq := 0 }
  | PolicyKind.fifoKind => PolicyState.fifo { capacity := cfg.maxKeys, order := [] }

/-- The `CacheEngine` constructor. `memoryThreshold` is
`Math.floor(maxMemoryBytes * 0.9)`; for every byte count reachable here the
double-precision product rounds to the exact value `maxBytes * 9 / 10`, so
the floor is the integer division. -/
def CacheEngine.init (cfg : CacheConfig) : CacheEngine :=
  { store := []
    policy := createEvictionPolicy cfg
    stats := { hits := 0, misses := 0, evictions := 0, expirations := 0, operations := [] }
    maxMemoryBytes := cfg.maxMemoryMB * 1024 * 1024
    currentMemoryBytes := 0
    memoryThreshold := cfg.maxMemoryMB * 1024 * 1024 * 9 / 10 }

/-- The expiry test `entry.expiresAt && Date.now() > entry.expiresAt`
(an `expiresAt` of 0 is falsy and never expires). -/
def isExpired (now : Nat) (e : CacheEntry) : Bool :=
  match e.expiresAt with
  | none => false
  | some t => decide (t ≠ 0) && decide (t < now)

/-- `CacheEngine.delete`: remove the entry, subtract its size, drop the key
from the policy. -/
def CacheEngine.del (e : CacheEngine) (k : String) : Bool × CacheEngine :=
  match alookup k e.store with
  | none => (false, e)
  | some entry =>
    (true, { e with currentMemoryBytes := e.currentMemoryBytes - entry.size,
                    store := aerase k e.store,
                    policy := (e.policy.delP k).2 })

/-- `CacheEngine.get`: miss on absent, lazily expire, otherwise promote in
the policy, record a hit, and return the stored value. A miss returns the
JavaScript `null` sentinel, embedded as `Value.vnull`. -/
def CacheEngine.get (e : CacheEngine) (now : Nat) (k : String) : Value × CacheEngine :=
  match alookup k e.store with
  | none => (Value.vnull, { e with stats := e.stats.recordMiss now })
  | some entry =>
    if isExpired now entry then
      let e1 := (e.del k).2
      (Value.vnull, { e1 with stats := (e1.stats.recordExpiration).recordMiss now })
    else
      (entry.value, { e with policy := (e.policy.getP k).2, stats := e.stats.recordHit now })

/-- `CacheEngine.evictOne`: ask the policy for a victim and remove it from
the store, or report failure. -/
def CacheEngine.evictOne (e : CacheEngine) : Option String × CacheEngine :=
  let pr := e.policy.evictP
  let e1 := { e with policy := pr.2 }
  match pr.1 with
  | none => (none, e1)
  | some k =>
    match alookup k e1.store with
    | some entry =>
      (some k, { e1 with currentMemoryBytes := e1.currentMemoryBytes - entry.size,
                         store := aerase k e1.store,
                         stats := e1.stats.recordEviction })
    | none => (none, e1)

/-- Fuelled unfolding of the `enforceMemoryLimit` while-loop; each
successful `evictOne` removes one resident entry, so the store size bounds
the iteration count. -/
def CacheEngine.enforceAux (required : Nat) : Nat → CacheEngine → CacheEngine
  | 0, e => e
  | fuel + 1, e =>
    if (e.memoryThreshold : Int) < e.currentMemoryBytes + required ∧ 0 < e.store.length then
      match e.evictOne with
      | (none, e1) => e1
      | (some _, e1) => enforceAux required fuel e1
    else e

/-- `CacheEngine.enforceMemoryLimit`: keep evicting until
`currentBytes + required ≤ threshold`, the store empties, or the policy
yields no victim. -/
def CacheEngine.enforceMemoryLimit (e : CacheEngine) (required : Nat) : CacheEngine :=
  CacheEngine.enforceAux required e.store.length e

/-- The `expiresAt` computation of `CacheEngine.set`:
`options.ttl ? now + options.ttl : undefined` (a 0 TTL is falsy). -/
def mkExpiresAt (now : Nat) (ttl : Option Nat) : Option Nat :=
  match ttl with
  | some t => if t = 0 then none else some (now + t)
  | none => none

/-- The tail of `CacheEngine.set` after the memory-pressure check: update the
existing entry in place, or insert the new entry and remove any key-count
victim the policy reports. -/
def CacheEngine.setAfterEnforce (e1 : CacheEngine) (k : String)
    (entry : CacheEntry) : Bool × CacheEngine :=
  match alookup k e1.store with
  | some existing =>
    (true, { e1 with
      currentMemoryBytes := e1.currentMemoryBytes - existing.size + entry.size,
      store := aset k entry e1.store,
      policy := (e1.policy.setP k entry).2 })
  | none =>
    let e2 := { e1 with store := e1.store ++ [(k, entry)],
                        currentMemoryBytes := e1.currentMemoryBytes + entry.size }
    let pr := e2.policy.setP k entry
    let e3 := { e2 with policy := pr.2 }
    match pr.1 with
    | none => (true, e3)
    | some evictedKey =>
      match alookup evictedKey e3.store with
      | none => (true, e3)
      | some evictedEntry =>
        (true, { e3 with
          currentMemoryBytes := e3.currentMemoryBytes - evictedEntry.size,
          store := aerase evictedKey e3.store,
          stats := e3.stats.recordEviction })

/-- `CacheEngine.set`: compute the entry size, pre-evict on memory pressure,
then update in place or insert (removing any key-count victim the policy
reports). Always returns `true`. -/
def CacheEngine.set (e : CacheEngine) (now : Nat) (k : String) (v : Value)
    (ttl : Option Nat) : Bool × CacheEngine :=
  let entrySize := calculateEntrySize k v
  let e1 := if (e.memoryThreshold : Int) < e.currentMemoryBytes + entrySize
            then e.enforceMemoryLimit entrySize else e
  e1.setAfterEnforce k { value := v, expiresAt := mkExpiresAt now ttl, size := entrySize }

/-- `CacheEngine.exists`: presence test with lazy expiration and no hit/miss
accounting. -/
def CacheEngine.existsKey (e : CacheEngine) (now : Nat) (k : String) : Bool × CacheEngine :=
  match alookup k e.store with
  | none => (false, e)
  | some entry =>
    if isExpired now entry then
      let e1 := (e.del k).2
      (false, { e1 with stats := e1.stats.recordExpiration })
    else (true, e)

/-- `CacheEngine.increment`: read through `get`; a `null` result (absent,
expired, or a stored `null` value) is treated as missing and overwritten
with the amount; a non-numeric value throws, embedded as `Except.error`. -/
def CacheEngine.increment (e : CacheEngine) (now : Nat) (k : String)
    (amount : Int) : Except Unit Int × CacheEngine :=
  let p := e.get now k
  match p.1 with
  | Value.vnull => (Except.ok amount, (p.2.set now k (Value.vnum amount) none).2)
  | Value.vnum n => (Except.ok (n + amount), (p.2.set now k (Value.vnum (n + amount)) none).2)
  | _ => (Except.error (), p.2)

/-- `CacheEngine.updateTTL`: rewrite `expiresAt` of a resident entry to
`now + ttl` without any expiry check, policy update, or size change. -/
def CacheEngine.updateTTL (e : CacheEngine) (now : Nat) (k : String)
    (ttl : Nat) : Bool × CacheEngine :=
  match alookup k e.store with
  | none => (false, e)
  | some entry =>
    (true, { e with store := aset k { entry with expiresAt := some (now + ttl) } e.store })

/-- `CacheEngine.clear`. -/
def CacheEngine.clearAll (e : CacheEngine) : CacheEngine :=
  { e with store := [], policy := e.policy.clearP, currentMemoryBytes := 0 }

/-- `CacheEngine.keys`: a snapshot of the primary map's keys, with no expiry
filtering. -/
def CacheEngine.keysList (e : CacheEngine) : List String :=
  akeys e.store

/-- Accumulator loop of `CacheEngine.getMultiple`, building the result
object by property assignment in iteration order. -/
def CacheEngine.getMultipleGo (now : Nat) :
    List String → List (String × Value) → CacheEngine → List (String × Value) × CacheEngine
  | [], acc, e => (acc, e)
  | k :: rest, acc, e =>
    let p := e.get now k
    CacheEngine.getMultipleGo now rest (if p.1.isNull then acc else aset k p.1 acc) p.2

/-- `CacheEngine.getMultiple`: one `get` per requested key, collecting the
non-`null` results into an object. -/
def CacheEngine.getMultiple (e : CacheEngine) (now : Nat) (ks : List String) :
    List (String × Value) × CacheEngine :=
  CacheEngine.getMultipleGo now ks [] e

/-- `CacheEngine.setMultiple`: one `set` per batch entry, in order; always
returns `true`. -/
def CacheEngine.setMultiple (e : CacheEngine) (now : Nat) :
    List (String × Value × Option Nat) → Bool × CacheEngine
  | [] => (true, e)
  | (k, v, ttl) :: rest => ((e.set now k v ttl).2).setMultiple now rest

/-- `CacheEngine.deleteMultiple`: one `delete` per key, returning the keys
actually removed. -/
def CacheEngine.deleteMultiple (e : CacheEngine) :
    List String → List String × CacheEngine
  | [] => ([], e)
  | k :: rest =>
    let p := e.del k
    let q := p.2.deleteMultiple rest
    (if p.1 then k :: q.1 else q.1, q.2)

/-- One step of the `CacheEngine.cleanup` loop over a snapshot of the
entries: delete each expired one and record an expiration. -/
def CacheEngine.cleanupGo (now : Nat) :
    List (String × CacheEntry) → Nat → CacheEngine → Nat × CacheEngine
  | [], n, e => (n, e)
  | (k, entry) :: rest, n, e =>
    if isExpired now entry then
      let e1 := (e.del k).2
      CacheEngine.cleanupGo now rest (n + 1) { e1 with stats := e1.stats.recordExpiration }
    else CacheEngine.cleanupGo now rest n e

/-- `CacheEngine.cleanup`: sweep all resident entries, removing the expired
ones. -/
def CacheEngine.cleanup (e : CacheEngine) (now : Nat) : Nat × CacheEngine :=
  CacheEngine.cleanupGo now e.store 0 e

end Engine

section Operations

/-- One public engine operation, with the `Date.now()` readings it performs
made explicit. -/
inductive Op where
  | opSet (now : Nat) (k : String) (v : Value) (ttl : Option Nat) : Op
  | opGet (now : Nat) (k : String) : Op
  | opDel (k : String) : Op
  | opHas (now : Nat) (k : String) : Op
  | opIncrement (now : Nat) (k : String) (amount : Int) : Op
  | opUpdateTTL (now : Nat) (k : String) (ttl : Nat) : Op
  | opClear : Op
  | opCleanup (now : Nat) : Op
  | opGetMultiple (now : Nat) (ks : List String) : Op
  | opSetMultiple (now : Nat) (entries : List (String × Value × Option Nat)) : Op
  | opDeleteMultiple (ks : List String) : Op

/-- The state transition of one public operation (results discarded). -/
def Op.step (e : CacheEngine) : Op → CacheEngine
  | Op.opSet now k v ttl => (e.set now k v ttl).2
  | Op.opGet now k => (e.get now k).2
  | Op.opDel k => (e.del k).2
  | Op.opHas now k => (e.existsKey now k).2
  | Op.opIncrement now k amount => (e.increment now k amount).2
  | Op.opUpdateTTL now k ttl => (e.updateTTL now k ttl).2
  | Op.opClear => e.clearAll
  | Op.opCleanup now => (e.cleanup now).2
  | Op.opGetMultiple now ks => (e.getMultiple now ks).2
  | Op.opSetMultiple now entries => (e.setMultiple now entries).2
  | Op.opDeleteMultiple ks => (e.deleteMultiple ks).2

/-- Run a sequence of public operations from a state. -/
def runOps (e : CacheEngine) (ops : List Op) : CacheEngine :=
  ops.foldl Op.step e

end Operations

section InvariantDefs

variable {K : Type} {V : Type} [DecidableEq K]

/-- Sum of `f` over the values of an association list. -/
def asum (f : V → Int) (l : List (K × V)) : Int :=
  (l.map (fun p => f p.2)).sum

/-- The bytes the store's entries account for: `Σ entry.size`. -/
def storeBytes (e : CacheEngine) : Int :=
  asum (fun en => (en.size : Int)) e.store

/-- Internal well-formedness of an LFU policy state: unique keys and
frequencies, non-empty duplicate-free frequency lists, every listed key's
recorded frequency names its list, and every cached key sits in the list
its frequency names. (`minFrequency` is deliberately unconstrained: the
source does not maintain any property of it, see claims C3/C4.) -/
def LFUInv (s : LFUPolicy K V) : Prop :=
  (s.cache.map Prod.fst).Nodup ∧
  (akeys s.freqMap).Nodup ∧
  (∀ p ∈ s.freqMap, p.2 ≠ [] ∧ p.2.Nodup) ∧
  (∀ p ∈ s.freqMap, ∀ k ∈ p.2, (alookup k s.cache).map (fun vf => vf.2) = some p.1) ∧
  (∀ q ∈ s.cache, q.1 ∈ ((alookup q.2.2 s.freqMap).getD []))

/-- Decidability of `LFUInv`, for evaluating it on concrete states. -/
instance (s : LFUPolicy K V) : Decidable (LFUInv s) := by
  unfold LFUInv; infer_instance

/-- Internal invariant of whichever policy the engine holds (trivial for the
purely list-backed LRU and FIFO). -/
def PolicyState.polInv : PolicyState → Prop
  | PolicyState.lru _ => True
  | PolicyState.lfu s => LFUInv s
  | PolicyState.fifo _ => True

/-- Decidability of `PolicyState.polInv`. -/
instance : (p : PolicyState) → Decidable p.polInv
  | PolicyState.lru _ => inferInstanceAs (Decidable True)
  | PolicyState.lfu s => inferInstanceAs (Decidable (LFUInv s))
  | PolicyState.fifo _ => inferInstanceAs (Decidable True)

/-- The reachable-state invariant of the engine for configurations with
`maxKeys ≥ 1`: duplicate-free key lists, the primary map and the policy
holding the same key set, `currentBytes = Σ entry.size`, a well-formed
policy, and a positive capacity. -/
def EngineInv (e : CacheEngine) : Prop :=
  (akeys e.store).Nodup ∧
  e.policy.keysP.Nodup ∧
  (∀ m ∈ akeys e.store, m ∈ e.policy.keysP) ∧
  (∀ m ∈ e.policy.keysP, m ∈ akeys e.store) ∧
  e.currentMemoryBytes = storeBytes e ∧
  e.policy.polInv ∧
  1 ≤ e.policy.capacityP

/-- Decidability of `EngineInv`, for evaluating it on concrete states. -/
instance (e : CacheEngine) : Decidable (EngineInv e) := by
  unfold EngineInv; infer_instance

/-- Whether the engine's policy is one of the two list-backed ones whose
`evict()` always produces a victim on a non-empty structure. -/
def PolicyState.isListBacked : PolicyState → Prop
  | PolicyState.lru _ => True
  | PolicyState.lfu _ => False
  | PolicyState.fifo _ => True

/-- Decidability of `PolicyState.isListBacked`. -/
instance : (p : PolicyState) → Decidable p.isListBacked
  | PolicyState.lru _ => inferInstanceAs (Decidable True)
  | PolicyState.lfu _ => inferInstanceAs (Decidable False)
  | PolicyState.fifo _ => inferInstanceAs (Decidable True)

/-- Frame facts every public operation preserves: the memory limits are
immutable after construction and the policy kind never changes. -/
def FrameOK (e e' : CacheEngine) : Prop :=
  e'.memoryThreshold = e.memoryThreshold ∧
  e'.maxMemoryBytes = e.maxMemoryBytes ∧
  (e'.policy.isListBacked ↔ e.policy.isListBacked)

/-- The per-operation entry-size side condition of the amended claim C1:
every entry the operation can insert fits under the memory threshold.
(`INCREMENT` writes numbers, whose estimated size is 8 regardless of the
amount.) -/
def opSizesOK (thr : Nat) : Op → Prop
  | Op.opSet _ k v _ => calculateEntrySize k v ≤ thr
  | Op.opIncrement _ k _ => calculateEntrySize k (Value.vnum 0) ≤ thr
  | Op.opSetMultiple _ entries => ∀ ent ∈ entries, calculateEntrySize ent.1 ent.2.1 ≤ thr
  | _ => True

/-- Decidability of `opSizesOK`. -/
instance (thr : Nat) : (op : Op) → Decidable (opSizesOK thr op)
  | Op.opSet _ k v _ => inferInstanceAs (Decidable (calculateEntrySize k v ≤ thr))
  | Op.opGet _ _ => inferInstanceAs (Decidable True)
  | Op.opDel _ => inferInstanceAs (Decidable True)
  | Op.opHas _ _ => inferInstanceAs (Decidable True)
  | Op.opIncrement _ k _ =>
      inferInstanceAs (Decidable (calculateEntrySize k (Value.vnum 0) ≤ thr))
  | Op.opUpdateTTL _ _ _ => inferInstanceAs (Decidable True)
  | Op.opClear => inferInstanceAs (Decidable True)
  | Op.opCleanup _ => inferInstanceAs (Decidable True)
  | Op.opGetMultiple _ _ => inferInstanceAs (Decidable True)
  | Op.opSetMultiple _ entries =>
      inferInstanceAs (Decidable (∀ ent ∈ entries, calculateEntrySize ent.1 ent.2.1 ≤ thr))
  | Op.opDeleteMultiple _ => inferInstanceAs (Decidable True)

end InvariantDefs

section LRUStampedRun

variable {K : Type} {V : Type} [DecidableEq K]

/-- One operation of a standalone LRU-policy run (claim C8). -/
inductive LRUOp (K V : Type) where
  | get (k : K) : LRUOp K V
  | set (k : K) (v : V) : LRUOp K V
  | del (k : K) : LRUOp K V

/-- An LRU policy state together with the bookkeeping that interprets the
claim: `stamp m` is the time of the last operation that touched `m`
(a hit `get`, a `set` of an existing key, or the inserting `set`), and
`time` is the next timestamp. -/
structure LRURun (K V : Type) where
  state : LRUPolicy K V
  stamp : K → Nat
  time : Nat

/-- Step of the stamped LRU run: the policy evolves exactly by
`LRUPolicy.get/set/del`, and the stamp of `k` is refreshed precisely when
the source moves or inserts `k`'s node. -/
def lruStep (r : LRURun K V) : LRUOp K V → LRURun K V
  | LRUOp.get k =>
    { state := (r.state.get k).2,
      stamp := if (alookup k r.state.order).isSome
               then Function.update r.stamp k r.time else r.stamp,
      time := r.time + 1 }
  | LRUOp.set k v =>
    { state := (r.state.set k v).2,
      stamp := if (alookup k r.state.order).isSome ∨ r.state.capacity ≠ 0
               then Function.update r.stamp k r.time else r.stamp,
      time := r.time + 1 }
  | LRUOp.del k =>
    { state := (r.state.del k).2, stamp := r.stamp, time := r.time + 1 }

/-- Run a sequence of operations against a fresh LRU policy of the given
capacity, starting at time 1 with all stamps 0. -/
def lruRun (cap : Nat) (ops : List (LRUOp K V)) : LRURun K V :=
  ops.foldl lruStep
    { state := { capacity := cap, order := [] }, stamp := fun _ => 0, time := 1 }

/-- Invariant of the stamped run: resident keys are distinct, all stamped
below the clock, and the recency list is strictly ordered by decreasing
stamp (head = most recently touched). -/
def LRUStampInv (r : LRURun K V) : Prop :=
  (akeys r.state.order).Nodup ∧
  (∀ m ∈ akeys r.state.order, r.stamp m < r.time) ∧
  (akeys r.state.order).Pairwise (fun a b => r.stamp b < r.stamp a)

end LRUStampedRun

section ScenarioDefs

/-- A fresh LFU policy of capacity 3 over string keys and numeric payloads,
as in the repository's LFU unit tests. -/
def lfuTest0 : LFUPolicy String Nat :=
  { capacity := 3, cache := [], freqMap := [], minFreq := 0 }

/-- The "should increase frequency on access" unit-test state. -/
def lfuFreqState : LFUPolicy String Nat :=
  let s := (lfuTest0.set "key1" 1).2
  let s := (s.set "key2" 2).2
  let s := (s.set "key3" 3).2
  let s := (s.get "key1").2
  let s := (s.get "key1").2
  let s := (s.get "key1").2
  (s.get "key2").2

/-- The "deletion and re-insertion" unit-test state. -/
def lfuReinsertState : LFUPolicy String Nat :=
  let s := (lfuTest0.set "key1" 1).2
  let s := (s.set "key2" 2).2
  let s := (s.get "key1").2
  let s := (s.del "key1").2
  let s := (s.set "key1" 10).2
  (s.set "key3" 3).2

/-- The LRU eviction-ordering scenario: capacity 3, SET a b c, GET a,
SET d evicts b. -/
def lruScenario : LRUPolicy String Nat :=
  let s : LRUPolicy String Nat := { capacity := 3, order := [] }
  let s := (s.set "a" 1).2
  let s := (s.set "b" 2).2
  let s := (s.set "c" 3).2
  (s.get "a").2

/-- The FIFO scenario: capacity 3, SET a b c, GET a twice, SET d evicts a. -/
def fifoScenario : FIFOPolicy String Nat :=
  let s : FIFOPolicy String Nat := { capacity := 3, order := [] }
  let s := (s.set "a" 1).2
  let s := (s.set "b" 2).2
  let s := (s.set "c" 3).2
  let s := (s.get "a").2
  (s.get "a").2


end ScenarioDefs

section ConcreteStates

/-- LFU state after SET a, SET b, GET b, GET b, DELETE a: key `b` sits alone
at frequency 3, yet `delete` advanced `minFrequency` only from 1 to 2. -/
def lfuGapState : LFUPolicy String Nat :=
  let s := (lfuTest0.set "a" 1).2
  let s := (s.set "b" 2).2
  let s := (s.get "b").2
  let s := (s.get "b").2
  (s.del "a").2

/-- Engine configured with `maxKeys = 0` (LRU, 100 MB). -/
def disabledCfg : CacheConfig :=
  { maxMemoryMB := 100, maxKeys := 0, evictionPolicy := PolicyKind.lruKind }

/-- The `maxKeys = 0` engine after `SET "a" = 1`. -/
def disabledEngine : CacheEngine :=
  ((CacheEngine.init disabledCfg).set 5 "a" (Value.vnum 1) none).2

/-- Engine configured with `maxMemoryMB = 0` (LRU, 10 keys). -/
def zeroMemCfg : CacheConfig :=
  { maxMemoryMB := 0, maxKeys := 10, evictionPolicy := PolicyKind.lruKind }

/-- The `maxMemoryMB = 0` engine after one `SET "a" = 1` (73 entry bytes). -/
def zeroMemEngine : CacheEngine :=
  ((CacheEngine.init zeroMemCfg).set 0 "a" (Value.vnum 1) none).2

/-- An ordinary configuration: LRU, 100 MB, 10 keys. -/
def plainCfg : CacheConfig :=
  { maxMemoryMB := 100, maxKeys := 10, evictionPolicy := PolicyKind.lruKind }

/-- A plain engine holding `"a" = null`. -/
def nullValueEngine : CacheEngine :=
  ((CacheEngine.init plainCfg).set 0 "a" Value.vnull none).2

/-- A plain engine holding `"a" = 1` with `expiresAt = 5` (set at time 0
with a 5 ms TTL), observed at time 100 — long expired. -/
def expiredEngine : CacheEngine :=
  ((CacheEngine.init plainCfg).set 0 "a" (Value.vnum 1) (some 5)).2

end ConcreteStates

section SanityChecks

example : (lfuFreqState.set "key4" 4).1 = some "key3" := by decide

example : (lfuReinsertState.set "key4" 4).1 = some "key2" := by decide

example : (lruScenario.set "d" 4).1 = some "b" := by decide

example : (fifoScenario.set "d" 4).1 = some "a" := by decide

end SanityChecks

section FalsifyingTheorems

/-- Claim C3, failing input: after the operation sequence
SET a, SET b, GET b, GET b, DELETE a on an LFU policy, the only non-empty
frequency list is at frequency 3 and the policy still holds key `b`, yet
`minFrequency` is 2 — `delete` bumped it by exactly one instead of
advancing it to the next non-empty level, so it is neither the minimum
over non-empty frequency lists nor 0. -/
theorem c3_minFrequency_not_minimum :
    lfuGapState.minFreq = 2 ∧
    lfuGapState.freqMap = [(3, ["b"])] ∧
    lfuGapState.cache.map Prod.fst = ["b"] := by
  decide

/-- Claim C4, failing input: in the same reachable LFU state (obtained with
get/set/delete only), one key is resident but `evict()` returns no victim
at all, because `minFrequency` names an empty level. -/
theorem c4_evict_returns_none_with_resident_key :
    lfuGapState.evictLFU.1 = none ∧ lfuGapState.cache.length = 1 := by
  decide

/-- Claim C5, failing input: with `maxKeys = 0` the engine-level SET still
stores the entry in the primary map and accounts its 73 bytes, and a
subsequent GET returns the stored value recording a hit — not a miss. -/
theorem c5_zero_capacity_engine_still_stores :
    disabledEngine.store.length = 1 ∧
    disabledEngine.currentMemoryBytes = 73 ∧
    (disabledEngine.get 6 "a").1 = Value.vnum 1 ∧
    (disabledEngine.get 6 "a").2.stats.hits = 1 := by
  exact ⟨rfl, rfl, rfl, rfl⟩

/-- Claim C1 is false as stated: in the configuration
`maxMemoryMB = 0, maxKeys = 10, LRU`, a single SET of `"a" = 1` leaves
`currentBytes = 73 > 0 = maxBytes`, so `currentBytes ≤ maxBytes` fails in
an observable state. -/
theorem c1_memory_bound_counterexample :
    zeroMemEngine.maxMemoryBytes = 0 ∧
    zeroMemEngine.currentMemoryBytes = 73 ∧
    ¬ zeroMemEngine.currentMemoryBytes ≤ (zeroMemEngine.maxMemoryBytes : Int) := by
  decide

/-- Claim C2 is false as stated: with `maxKeys = 0` a SET leaves the entry
in the primary map but not in the policy, so the two key sets differ and
`|primary map| = 1 ≠ 0 = policy.size()`. -/
theorem c2_key_set_counterexample :
    disabledEngine.store.length = 1 ∧
    disabledEngine.policy.keysP = [] ∧
    ("a" ∈ akeys disabledEngine.store ∧ "a" ∉ disabledEngine.policy.keysP) := by
  decide

/-- Claim C6 is false as stated: UPDATE-TTL reads an entry whose
`expiresAt = 5` is long past at `now = 100`, yet returns `true` and leaves
the key resident (with a fresh expiration) instead of removing it; KEYS
likewise lists the expired key. -/
theorem c6_updateTTL_keeps_expired_entry :
    (alookup "a" expiredEngine.store).map (isExpired 100) = some true ∧
    (expiredEngine.updateTTL 100 "a" 50).1 = true ∧
    (alookup "a" ((expiredEngine.updateTTL 100 "a" 50).2).store).isSome = true ∧
    expiredEngine.keysList = ["a"] := by
  exact ⟨rfl, rfl, rfl, rfl⟩

/-- Claim C7 is false as stated: `"a"` holds the present non-numeric value
`null`, yet INCREMENT("a", 5) does not fail with a type error — it returns
5 and overwrites the entry with the number 5. -/
theorem c7_increment_on_null_counterexample :
    (alookup "a" nullValueEngine.store).map (fun en => en.value.isNull) = some true ∧
    (nullValueEngine.increment 1 "a" 5).1 = Except.ok 5 ∧
    (alookup "a" ((nullValueEngine.increment 1 "a" 5).2).store).map (fun en => en.value) =
      some (Value.vnum 5) := by
  exact ⟨rfl, rfl, rfl⟩

end FalsifyingTheorems

section AssocLemmas

variable {K : Type} {V : Type} [DecidableEq K]

@[simp]
theorem akeys_nil : akeys ([] : List (K × V)) = [] := rfl

@[simp]
theorem akeys_cons {p : K × V} {l : List (K × V)} : akeys (p :: l) = p.1 :: akeys l := rfl

@[simp]
theorem akeys_append {l1 l2 : List (K × V)} : akeys (l1 ++ l2) = akeys l1 ++ akeys l2 := by
  simp [akeys]

theorem alookup_eq_none_iff {k : K} {l : List (K × V)} :
    alookup k l = none ↔ k ∉ akeys l := by
  induction l with
  | nil => simp [alookup]
  | cons p rest ih =>
    obtain ⟨k', v⟩ := p
    by_cases h : k' = k
    · subst h; simp [alookup]
    · simp [alookup, h, ih, Ne.symm h]

theorem alookup_isSome_iff {k : K} {l : List (K × V)} :
    (alookup k l).isSome ↔ k ∈ akeys l := by
  cases h : alookup k l with
  | none => simpa [h] using alookup_eq_none_iff.mp h
  | some v =>
    simp only [Option.isSome_some, true_iff]
    by_contra hk
    rw [alookup_eq_none_iff.mpr hk] at h
    exact Option.noConfusion h

theorem mem_akeys_of_alookup {k : K} {v : V} {l : List (K × V)}
    (h : alookup k l = some v) : k ∈ akeys l := by
  have := alookup_isSome_iff (k := k) (l := l)
  rw [h] at this
  exact this.mp rfl

theorem alookup_mem {k : K} {v : V} {l : List (K × V)}
    (h : alookup k l = some v) : (k, v) ∈ l := by
  induction l with
  | nil => simp [alookup] at h
  | cons p rest ih =>
    obtain ⟨k', v'⟩ := p
    by_cases hk : k' = k
    · subst hk
      simp [alookup] at h
      simp [h]
    · simp [alookup, hk] at h
      exact List.mem_cons_of_mem _ (ih h)

@[simp]
theorem alookup_aset_self {k : K} {v : V} {l : List (K × V)} :
    alookup k (aset k v l) = some v := by
  induction l with
  | nil => simp [aset, alookup]
  | cons p rest ih =>
    obtain ⟨k', v'⟩ := p
    by_cases h : k' = k
    · subst h; simp [aset, alookup]
    · simp [aset, alookup, h, ih]

theorem alookup_aset_ne {k m : K} {v : V} {l : List (K × V)} (h : m ≠ k) :
    alookup m (aset k v l) = alookup m l := by
  induction l with
  | nil => simp [aset, alookup, Ne.symm h]
  | cons p rest ih =>
    obtain ⟨k', v'⟩ := p
    by_cases hk : k' = k
    · subst hk
      simp [aset, alookup, Ne.symm h]
    · simp only [aset, if_neg hk]
      by_cases hm : k' = m
      · subst hm; simp [alookup]
      · simp [alookup, hm, ih]

theorem alookup_aerase_ne {k m : K} {l : List (K × V)} (h : m ≠ k) :
    alookup m (aerase k l) = alookup m l := by
  induction l with
  | nil => simp [aerase]
  | cons p rest ih =>
    obtain ⟨k', v'⟩ := p
    by_cases hk : k' = k
    · subst hk
      simp [aerase, alookup, Ne.symm h]
    · simp only [aerase, if_neg hk]
      by_cases hm : k' = m
      · subst hm; simp [alookup]
      · simp [alookup, hm, ih]

theorem akeys_aerase {k : K} {l : List (K × V)} :
    akeys (aerase k l) = (akeys l).erase k := by
  induction l with
  | nil => simp [aerase]
  | cons p rest ih =>
    obtain ⟨k', v'⟩ := p
    by_cases hk : k' = k
    · subst hk; simp [aerase, List.erase_cons_head]
    · simp [aerase, hk, List.erase_cons_tail, ih]

theorem aerase_of_not_mem {k : K} {l : List (K × V)} (h : k ∉ akeys l) :
    aerase k l = l := by
  induction l with
  | nil => rfl
  | cons p rest ih =>
    obtain ⟨k', v'⟩ := p
    simp only [akeys_cons, List.mem_cons, not_or] at h
    have hk : ¬ k' = k := fun hh => h.1 hh.symm
    simp [aerase, hk, ih h.2]

theorem alookup_aerase_self {k : K} {l : List (K × V)} (h : (akeys l).Nodup) :
    alookup k (aerase k l) = none := by
  rw [alookup_eq_none_iff, akeys_aerase]
  exact h.not_mem_erase

theorem akeys_aset_of_mem {k : K} {v : V} {l : List (K × V)} (h : k ∈ akeys l) :
    akeys (aset k v l) = akeys l := by
  induction l with
  | nil => simp at h
  | cons p rest ih =>
    obtain ⟨k', v'⟩ := p
    by_cases hk : k' = k
    · subst hk; simp [aset]
    · simp only [akeys_cons, List.mem_cons] at h
      rcases h with h | h
      · exact absurd h.symm hk
      · simp [aset, hk, ih h]

theorem akeys_aset_of_not_mem {k : K} {v : V} {l : List (K × V)} (h : k ∉ akeys l) :
    akeys (aset k v l) = akeys l ++ [k] := by
  induction l with
  | nil => simp [aset]
  | cons p rest ih =>
    obtain ⟨k', v'⟩ := p
    simp only [akeys_cons, List.mem_cons, not_or] at h
    have hk : ¬ k' = k := fun hh => h.1 hh.symm
    simp [aset, hk, ih h.2]

theorem nodup_akeys_aerase {k : K} {l : List (K × V)} (h : (akeys l).Nodup) :
    (akeys (aerase k l)).Nodup := by
  rw [akeys_aerase]; exact h.erase k

theorem nodup_akeys_aset {k : K} {v : V} {l : List (K × V)} (h : (akeys l).Nodup) :
    (akeys (aset k v l)).Nodup := by
  by_cases hm : k ∈ akeys l
  · rw [akeys_aset_of_mem hm]; exact h
  · rw [akeys_aset_of_not_mem hm]
    simpa [List.nodup_append] using ⟨h, hm⟩

theorem length_aerase_of_mem {k : K} {l : List (K × V)} (h : k ∈ akeys l) :
    (aerase k l).length + 1 = l.length := by
  induction l with
  | nil => simp at h
  | cons p rest ih =>
    obtain ⟨k', v'⟩ := p
    by_cases hk : k' = k
    · subst hk; simp [aerase]
    · simp only [akeys_cons, List.mem_cons] at h
      rcases h with h | h
      · exact absurd h.symm hk
      · simp only [aerase, if_neg hk, List.length_cons]
        rw [← ih h]

theorem mem_aerase_of_mem {q : K × V} {k : K} {l : List (K × V)}
    (hq : q ∈ l) (hne : q.1 ≠ k) : q ∈ aerase k l := by
  induction l with
  | nil => simp at hq
  | cons p rest ih =>
    by_cases hk : p.1 = k
    · obtain ⟨k', v'⟩ := p
      subst hk
      rcases List.mem_cons.mp hq with h | h
      · exact absurd (congrArg Prod.fst h) hne
      · simpa [aerase] using h
    · obtain ⟨k', v'⟩ := p
      rcases List.mem_cons.mp hq with h | h
      · simp [aerase, hk, h]
      · simp [aerase, hk, ih h]

theorem mem_of_mem_aerase {q : K × V} {k : K} {l : List (K × V)}
    (hq : q ∈ aerase k l) : q ∈ l := by
  induction l with
  | nil => simpa [aerase] using hq
  | cons p rest ih =>
    by_cases hk : p.1 = k
    · obtain ⟨k', v'⟩ := p
      subst hk
      simp only [aerase, if_pos rfl] at hq
      exact List.mem_cons_of_mem _ hq
    · obtain ⟨k', v'⟩ := p
      simp only [aerase, if_neg hk] at hq
      rcases List.mem_cons.mp hq with h | h
      · simp [h]
      · exact List.mem_cons_of_mem _ (ih h)

theorem mem_aset_of_mem_ne {q : K × V} {k : K} {v : V} {l : List (K × V)}
    (hq : q ∈ l) (hne : q.1 ≠ k) : q ∈ aset k v l := by
  induction l with
  | nil => simp at hq
  | cons p rest ih =>
    by_cases hk : p.1 = k
    · obtain ⟨k', v'⟩ := p
      subst hk
      rcases List.mem_cons.mp hq with h | h
      · exact absurd (congrArg Prod.fst h) hne
      · simp [aset, List.mem_cons_of_mem, h]
    · obtain ⟨k', v'⟩ := p
      rcases List.mem_cons.mp hq with h | h
      · simp [aset, hk, h]
      · simp [aset, hk, ih h]

theorem mem_of_mem_aset {q : K × V} {k : K} {v : V} {l : List (K × V)}
    (hq : q ∈ aset k v l) : q = (k, v) ∨ q ∈ l := by
  induction l with
  | nil => simpa [aset] using hq
  | cons p rest ih =>
    by_cases hk : p.1 = k
    · obtain ⟨k', v'⟩ := p
      subst hk
      simp only [aset, if_pos rfl] at hq
      rcases List.mem_cons.mp hq with h | h
      · exact Or.inl h
      · exact Or.inr (List.mem_cons_of_mem _ h)
    · obtain ⟨k', v'⟩ := p
      simp only [aset, if_neg hk] at hq
      rcases List.mem_cons.mp hq with h | h
      · exact Or.inr (by simp [h])
      · rcases ih h with h' | h'
        · exact Or.inl h'
        · exact Or.inr (List.mem_cons_of_mem _ h')

theorem mem_aset_self_of_lookup {k : K} {v : V} {l : List (K × V)} :
    (k, v) ∈ aset k v l := by
  induction l with
  | nil => simp [aset]
  | cons p rest ih =>
    by_cases hk : p.1 = k
    · obtain ⟨k', v'⟩ := p; subst hk; simp [aset]
    · obtain ⟨k', v'⟩ := p; simp [aset, hk, ih]

theorem alookup_append {m : K} {l1 l2 : List (K × V)} :
    alookup m (l1 ++ l2) =
      match alookup m l1 with
      | some v => some v
      | none => alookup m l2 := by
  induction l1 with
  | nil => simp [alookup]
  | cons p rest ih =>
    obtain ⟨k', v'⟩ := p
    by_cases h : k' = m
    · subst h; simp [alookup]
    · simp [alookup, h, ih]

@[simp]
theorem asum_nil {f : V → Int} : asum f ([] : List (K × V)) = 0 := rfl

@[simp]
theorem asum_cons {f : V → Int} {p : K × V} {l : List (K × V)} :
    asum f (p :: l) = f p.2 + asum f l := by
  simp [asum]

@[simp]
theorem asum_append {f : V → Int} {l1 l2 : List (K × V)} :
    asum f (l1 ++ l2) = asum f l1 + asum f l2 := by
  simp [asum]

theorem asum_aerase {f : V → Int} {k : K} {v : V} {l : List (K × V)}
    (h : alookup k l = some v) : asum f (aerase k l) = asum f l - f v := by
  induction l with
  | nil => simp [alookup] at h
  | cons p rest ih =>
    obtain ⟨k', v'⟩ := p
    by_cases hk : k' = k
    · subst hk
      have hv : v' = v := by simpa [alookup] using h
      have he : aerase k' ((k', v') :: rest) = rest := by simp [aerase]
      rw [he]
      simp only [asum_cons, hv]
      omega
    · simp only [alookup, if_neg hk] at h
      have he : aerase k ((k', v') :: rest) = (k', v') :: aerase k rest := by
        simp [aerase, hk]
      rw [he]
      simp only [asum_cons, ih h]
      omega

theorem asum_aset_of_lookup {f : V → Int} {k : K} {v w : V} {l : List (K × V)}
    (h : alookup k l = some v) : asum f (aset k w l) = asum f l - f v + f w := by
  induction l with
  | nil => simp [alookup] at h
  | cons p rest ih =>
    obtain ⟨k', v'⟩ := p
    by_cases hk : k' = k
    · subst hk
      have hv : v' = v := by simpa [alookup] using h
      have he : aset k' w ((k', v') :: rest) = (k', w) :: rest := by simp [aset]
      rw [he]
      simp only [asum_cons, hv]
      omega
    · simp only [alookup, if_neg hk] at h
      have he : aset k w ((k', v') :: rest) = (k', v') :: aset k w rest := by
        simp [aset, hk]
      rw [he]
      simp only [asum_cons, ih h]
      omega

theorem asum_aset_of_none {f : V → Int} {k : K} {w : V} {l : List (K × V)}
    (h : alookup k l = none) : asum f (aset k w l) = asum f l + f w := by
  induction l with
  | nil => simp [aset]
  | cons p rest ih =>
    obtain ⟨k', v'⟩ := p
    by_cases hk : k' = k
    · subst hk; simp [alookup] at h
    · simp only [alookup, if_neg hk] at h
      have he : aset k w ((k', v') :: rest) = (k', v') :: aset k w rest := by
        simp [aset, hk]
      rw [he]
      simp only [asum_cons, ih h]
      omega

theorem alookup_of_mem_nodup {p : K × V} {l : List (K × V)}
    (hnd : (akeys l).Nodup) (hp : p ∈ l) : alookup p.1 l = some p.2 := by
  induction l with
  | nil => simp at hp
  | cons q rest ih =>
    obtain ⟨k', v'⟩ := q
    simp only [akeys_cons, List.nodup_cons] at hnd
    rcases List.mem_cons.mp hp with h | h
    · subst h; simp [alookup]
    · have hne : k' ≠ p.1 := by
        intro hh
        exact hnd.1 (hh ▸ List.mem_map_of_mem Prod.fst h)
      simp [alookup, hne, ih hnd.2 h]

theorem mem_iff_alookup {p : K × V} {l : List (K × V)} (hnd : (akeys l).Nodup) :
    p ∈ l ↔ alookup p.1 l = some p.2 :=
  ⟨alookup_of_mem_nodup hnd, alookup_mem⟩

theorem nodup_length_eq_of_mem_iff {l1 l2 : List K} (h1 : l1.Nodup) (h2 : l2.Nodup)
    (h : ∀ m, m ∈ l1 ↔ m ∈ l2) : l1.length = l2.length :=
  le_antisymm
    (List.subperm_of_subset h1 fun a ha => (h a).mp ha).length_le
    (List.subperm_of_subset h2 fun a ha => (h a).mpr ha).length_le

end AssocLemmas

section LFULemmas

variable {K : Type} {V : Type} [DecidableEq K]

theorem alookup_lfuAdd_self {fm : List (Nat × List K)} {k : K} {f : Nat} :
    alookup f (lfuAddToList fm k f) = some ((alookup f fm).getD [] ++ [k]) := by
  unfold lfuAddToList
  cases h : alookup f fm <;> simp [h]

theorem alookup_lfuAdd_ne {fm : List (Nat × List K)} {k : K} {f f' : Nat} (h : f' ≠ f) :
    alookup f' (lfuAddToList fm k f) = alookup f' fm := by
  unfold lfuAddToList
  cases hh : alookup f fm <;> simp [alookup_aset_ne h]

theorem nodup_keys_lfuAdd {fm : List (Nat × List K)} {k : K} {f : Nat}
    (h : (akeys fm).Nodup) : (akeys (lfuAddToList fm k f)).Nodup := by
  unfold lfuAddToList
  cases hh : alookup f fm <;> exact nodup_akeys_aset h

theorem alookup_lfuRemove_self {fm : List (Nat × List K)} {k : K} {f : Nat}
    (hnd : (akeys fm).Nodup) :
    alookup f (lfuRemoveFromList fm k f) =
      match alookup f fm with
      | none => none
      | some l => if l.erase k = [] then none else some (l.erase k) := by
  unfold lfuRemoveFromList
  cases h : alookup f fm with
  | none => simp [h]
  | some l =>
    by_cases he : l.erase k = []
    · simp [he, alookup_aerase_self hnd]
    · simp [he]

theorem alookup_lfuRemove_ne {fm : List (Nat × List K)} {k : K} {f f' : Nat} (h : f' ≠ f) :
    alookup f' (lfuRemoveFromList fm k f) = alookup f' fm := by
  unfold lfuRemoveFromList
  cases hh : alookup f fm with
  | none => rfl
  | some l =>
    by_cases he : l.erase k = []
    · simp [he, alookup_aerase_ne h]
    · simp [he, alookup_aset_ne h]

theorem nodup_keys_lfuRemove {fm : List (Nat × List K)} {k : K} {f : Nat}
    (h : (akeys fm).Nodup) : (akeys (lfuRemoveFromList fm k f)).Nodup := by
  unfold lfuRemoveFromList
  cases hh : alookup f fm with
  | none => exact h
  | some l =>
    by_cases he : l.erase k = []
    · simpa [he] using nodup_akeys_aerase (k := f) h
    · simpa [he] using nodup_akeys_aset (k := f) (v := l.erase k) h

theorem LFUInv.list_spec {s : LFUPolicy K V} (hinv : LFUInv s) {f : Nat} {l : List K}
    (hl : alookup f s.freqMap = some l) :
    l ≠ [] ∧ l.Nodup ∧ ∀ k ∈ l, (alookup k s.cache).map (fun vf => vf.2) = some f := by
  have hm : (f, l) ∈ s.freqMap := alookup_mem hl
  exact ⟨(hinv.2.2.1 _ hm).1, (hinv.2.2.1 _ hm).2, fun k hk => hinv.2.2.2.1 _ hm k hk⟩

theorem LFUInv.cache_spec {s : LFUPolicy K V} (hinv : LFUInv s) {k : K} {v : V} {f : Nat}
    (hc : alookup k s.cache = some (v, f)) :
    ∃ l, alookup f s.freqMap = some l ∧ k ∈ l := by
  have hm : (k, (v, f)) ∈ s.cache := alookup_mem hc
  have h5 := hinv.2.2.2.2 _ hm
  dsimp only at h5
  cases hl : alookup f s.freqMap with
  | none => rw [hl] at h5; simp at h5
  | some l => rw [hl] at h5; exact ⟨l, rfl, by simpa using h5⟩

theorem LFUInv.freq_unique {s : LFUPolicy K V} (hinv : LFUInv s) {f : Nat} {l : List K}
    {k : K} {v : V} {g : Nat} (hl : alookup f s.freqMap = some l) (hkl : k ∈ l)
    (hc : alookup k s.cache = some (v, g)) : g = f := by
  have := (hinv.list_spec hl).2.2 k hkl
  rw [hc] at this
  simpa using this

theorem lfu_increaseFreq_spec {s : LFUPolicy K V} {k : K} {v0 v : V} {f : Nat}
    (hinv : LFUInv s) (hm : alookup k s.cache = some (v0, f)) :
    LFUInv (s.increaseFreq k v f) ∧
    akeys (s.increaseFreq k v f).cache = akeys s.cache ∧
    (s.increaseFreq k v f).capacity = s.capacity := by
  obtain ⟨l, hl, hkl⟩ := hinv.cache_spec hm
  obtain ⟨hlne, hlnd, hlfreq⟩ := hinv.list_spec hl
  have h1 := hinv.1
  have h2 := hinv.2.1
  have hkmem : k ∈ akeys s.cache := mem_akeys_of_alookup hm
  have hfm1_self : alookup f (lfuRemoveFromList s.freqMap k f) =
      if l.erase k = [] then none else some (l.erase k) := by
    rw [alookup_lfuRemove_self h2, hl]
  have hfm1_ne : ∀ g, g ≠ f →
      alookup g (lfuRemoveFromList s.freqMap k f) = alookup g s.freqMap :=
    fun g hg => alookup_lfuRemove_ne hg
  have hnd1 : (akeys (lfuRemoveFromList s.freqMap k f)).Nodup := nodup_keys_lfuRemove h2
  -- the state after the move, unpacked
  set fm1 := lfuRemoveFromList s.freqMap k f with hfm1def
  set fm2 := lfuAddToList fm1 k (f + 1) with hfm2def
  set cache' := aset k (v, f + 1) s.cache with hcdef
  have hstate : (s.increaseFreq k v f).cache = cache' ∧
      (s.increaseFreq k v f).freqMap = fm2 ∧
      (s.increaseFreq k v f).capacity = s.capacity := by
    refine ⟨rfl, rfl, rfl⟩
  have hnd2 : (akeys fm2).Nodup := nodup_keys_lfuAdd hnd1
  have hkeys : akeys cache' = akeys s.cache := akeys_aset_of_mem hkmem
  have hndc : (akeys cache').Nodup := by rw [hkeys]; exact h1
  -- the list appended at f+1, and the fact that k is not in it
  have hfm2_self : alookup (f + 1) fm2 = some ((alookup (f + 1) fm1).getD [] ++ [k]) :=
    alookup_lfuAdd_self
  have hfm2_f : alookup f fm2 = alookup f fm1 := alookup_lfuAdd_ne (by omega)
  have hfm2_ne : ∀ g, g ≠ f + 1 → alookup g fm2 = alookup g fm1 :=
    fun g hg => alookup_lfuAdd_ne hg
  have hfm1_succ : alookup (f + 1) fm1 = alookup (f + 1) s.freqMap :=
    hfm1_ne _ (by omega)
  have hknot : ∀ l', alookup (f + 1) s.freqMap = some l' → k ∉ l' := by
    intro l' hl' hk'
    have := (hinv.list_spec hl').2.2 k hk'
    rw [hm] at this
    simp at this
  -- lookup description of cache'
  have hc_self : alookup k cache' = some (v, f + 1) := alookup_aset_self
  have hc_ne : ∀ m, m ≠ k → alookup m cache' = alookup m s.cache :=
    fun m hmk => alookup_aset_ne hmk
  refine ⟨⟨?_, ?_, ?_, ?_, ?_⟩, hstate.1 ▸ hkeys, hstate.2.2⟩
  · rw [hstate.1]; exact hndc
  · rw [hstate.2.1]; exact hnd2
  · rw [hstate.2.1]
    intro p hp
    have hlp := alookup_of_mem_nodup hnd2 hp
    by_cases hp1 : p.1 = f + 1
    · rw [hp1, hfm2_self] at hlp
      have hp2 : p.2 = (alookup (f + 1) fm1).getD [] ++ [k] := by
        injection hlp with hh; exact hh.symm
      constructor
      · rw [hp2]; simp
      · rw [hp2, hfm1_succ]
        cases hsucc : alookup (f + 1) s.freqMap with
        | none => simp
        | some l' =>
          have hnd' := (hinv.list_spec hsucc).2.1
          have hkn := hknot l' hsucc
          simp [List.nodup_append, hnd', hkn]
    · by_cases hpf : p.1 = f
      · rw [hpf, hfm2_f, hfm1_self] at hlp
        by_cases he : l.erase k = []
        · rw [if_pos he] at hlp; exact Option.noConfusion hlp
        · rw [if_neg he] at hlp
          have hp2 : p.2 = l.erase k := by injection hlp with hh; exact hh.symm
          exact ⟨hp2 ▸ he, hp2 ▸ hlnd.erase k⟩
      · rw [hfm2_ne _ hp1, hfm1_ne _ hpf] at hlp
        have : (p.1, p.2) ∈ s.freqMap := alookup_mem hlp
        exact hinv.2.2.1 _ this
  · rw [hstate.1, hstate.2.1]
    intro p hp m hmp
    have hlp := alookup_of_mem_nodup hnd2 hp
    by_cases hp1 : p.1 = f + 1
    · rw [hp1, hfm2_self] at hlp
      have hp2 : p.2 = (alookup (f + 1) fm1).getD [] ++ [k] := by
        injection hlp with hh; exact hh.symm
      rw [hp2] at hmp
      rcases List.mem_append.mp hmp with hml | hmk
      · rw [hfm1_succ] at hml
        cases hsucc : alookup (f + 1) s.freqMap with
        | none => rw [hsucc] at hml; simp at hml
        | some l' =>
          rw [hsucc] at hml
          simp only [Option.getD_some] at hml
          have hmne : m ≠ k := fun hh => hknot l' hsucc (hh ▸ hml)
          rw [hc_ne m hmne, hp1]
          exact (hinv.list_spec hsucc).2.2 m hml
      · have hmk' : m = k := by simpa using hmk
        rw [hmk', hc_self, hp1]
        rfl
    · by_cases hpf : p.1 = f
      · rw [hpf, hfm2_f, hfm1_self] at hlp
        by_cases he : l.erase k = []
        · rw [if_pos he] at hlp; exact Option.noConfusion hlp
        · rw [if_neg he] at hlp
          have hp2 : p.2 = l.erase k := by injection hlp with hh; exact hh.symm
          rw [hp2] at hmp
          have hmem := (hlnd.mem_erase_iff).mp hmp
          rw [hc_ne m hmem.1, hpf]
          exact hlfreq m hmem.2
      · rw [hfm2_ne _ hp1, hfm1_ne _ hpf] at hlp
        have hpmem : (p.1, p.2) ∈ s.freqMap := alookup_mem hlp
        have hfreq := hinv.2.2.2.1 _ hpmem m hmp
        have hmne : m ≠ k := by
          intro hh
          rw [hh, hm] at hfreq
          simp at hfreq
          exact hpf hfreq.symm
        rw [hc_ne m hmne]
        exact hfreq
  · rw [hstate.1, hstate.2.1]
    intro q hq
    have hlq := alookup_of_mem_nodup hndc hq
    by_cases hqk : q.1 = k
    · rw [hqk, hc_self] at hlq
      have hq2 : q.2 = (v, f + 1) := by injection hlq with hh; exact hh.symm
      rw [hq2]
      dsimp only
      rw [hfm2_self]
      simp [hqk]
    · rw [hc_ne _ hqk] at hlq
      have hqmem : (q.1, q.2) ∈ s.cache := alookup_mem hlq
      have h5 := hinv.2.2.2.2 _ hqmem
      dsimp only at h5 ⊢
      by_cases hg1 : q.2.2 = f + 1
      · rw [hg1] at h5 ⊢
        rw [hfm2_self, hfm1_succ]
        simp only [Option.getD_some]
        exact List.mem_append.mpr (Or.inl h5)
      · by_cases hgf : q.2.2 = f
        · rw [hgf] at h5 ⊢
          rw [hl] at h5
          simp only [Option.getD_some] at h5
          have hqne : q.1 ≠ k := hqk
          have hmem' : q.1 ∈ l.erase k := (List.mem_erase_of_ne hqne).mpr h5
          have hne : l.erase k ≠ [] := by
            intro hh; rw [hh] at hmem'; simp at hmem'
          rw [hfm2_f, hfm1_self, if_neg hne]
          simpa using hmem'
        · rw [hfm2_ne _ hg1, hfm1_ne _ hgf]
          exact h5

theorem lfu_remove_core {s : LFUPolicy K V} {k : K} {v : V} {f : Nat}
    (hinv : LFUInv s) (hm : alookup k s.cache = some (v, f)) (c min' : Nat) :
    LFUInv ⟨c, aerase k s.cache, lfuRemoveFromList s.freqMap k f, min'⟩ ∧
    akeys (aerase k s.cache) = (akeys s.cache).erase k := by
  obtain ⟨l, hl, hkl⟩ := hinv.cache_spec hm
  obtain ⟨hlne, hlnd, hlfreq⟩ := hinv.list_spec hl
  have h1 := hinv.1
  have h2 := hinv.2.1
  have hfm_self : alookup f (lfuRemoveFromList s.freqMap k f) =
      if l.erase k = [] then none else some (l.erase k) := by
    rw [alookup_lfuRemove_self h2, hl]
  have hfm_ne : ∀ g, g ≠ f →
      alookup g (lfuRemoveFromList s.freqMap k f) = alookup g s.freqMap :=
    fun g hg => alookup_lfuRemove_ne hg
  set fm' := lfuRemoveFromList s.freqMap k f with hfmdef
  set cache' := aerase k s.cache with hcdef
  have hnd' : (akeys fm').Nodup := nodup_keys_lfuRemove h2
  have hkeys : akeys cache' = (akeys s.cache).erase k := akeys_aerase
  have hndc : (akeys cache').Nodup := nodup_akeys_aerase h1
  have hc_self : alookup k cache' = none := alookup_aerase_self h1
  have hc_ne : ∀ m, m ≠ k → alookup m cache' = alookup m s.cache :=
    fun m hmk => alookup_aerase_ne hmk
  refine ⟨⟨hndc, hnd', ?_, ?_, ?_⟩, hkeys⟩
  · intro p hp
    have hlp := alookup_of_mem_nodup hnd' hp
    by_cases hpf : p.1 = f
    · rw [hpf, hfm_self] at hlp
      by_cases he : l.erase k = []
      · rw [if_pos he] at hlp; exact Option.noConfusion hlp
      · rw [if_neg he] at hlp
        have hp2 : p.2 = l.erase k := by injection hlp with hh; exact hh.symm
        exact ⟨hp2 ▸ he, hp2 ▸ hlnd.erase k⟩
    · rw [hfm_ne _ hpf] at hlp
      exact hinv.2.2.1 _ (alookup_mem hlp)
  · intro p hp m hmp
    have hlp := alookup_of_mem_nodup hnd' hp
    by_cases hpf : p.1 = f
    · rw [hpf, hfm_self] at hlp
      by_cases he : l.erase k = []
      · rw [if_pos he] at hlp; exact Option.noConfusion hlp
      · rw [if_neg he] at hlp
        have hp2 : p.2 = l.erase k := by injection hlp with hh; exact hh.symm
        rw [hp2] at hmp
        have hmem := (hlnd.mem_erase_iff).mp hmp
        rw [hc_ne m hmem.1, hpf]
        exact hlfreq m hmem.2
    · rw [hfm_ne _ hpf] at hlp
      have hpmem := alookup_mem hlp
      have hfreq := hinv.2.2.2.1 _ hpmem m hmp
      have hmne : m ≠ k := by
        intro hh
        rw [hh, hm] at hfreq
        simp at hfreq
        exact hpf hfreq.symm
      rw [hc_ne m hmne]
      exact hfreq
  · intro q hq
    have hlq := alookup_of_mem_nodup hndc hq
    have hqk : q.1 ≠ k := by
      intro hh
      rw [hh, hc_self] at hlq
      exact Option.noConfusion hlq
    rw [hc_ne _ hqk] at hlq
    have hqmem := alookup_mem hlq
    have h5 := hinv.2.2.2.2 _ hqmem
    dsimp only at h5 ⊢
    by_cases hgf : q.2.2 = f
    · rw [hgf] at h5 ⊢
      rw [hl] at h5
      simp only [Option.getD_some] at h5
      have hmem' : q.1 ∈ l.erase k := (List.mem_erase_of_ne hqk).mpr h5
      have hne : l.erase k ≠ [] := by
        intro hh; rw [hh] at hmem'; simp at hmem'
      rw [hfm_self, if_neg hne]
      simpa using hmem'
    · rw [hfm_ne _ hgf]
      exact h5

theorem lfu_insert_core {s : LFUPolicy K V} {k : K} {v : V}
    (hinv : LFUInv s) (hk : k ∉ akeys s.cache) (c min' : Nat) :
    LFUInv ⟨c, aset k (v, 1) s.cache, lfuAddToList s.freqMap k 1, min'⟩ ∧
    akeys (aset k (v, 1) s.cache) = akeys s.cache ++ [k] := by
  have h1 := hinv.1
  have h2 := hinv.2.1
  set fm' := lfuAddToList s.freqMap k 1 with hfmdef
  set cache' := aset k (v, 1) s.cache with hcdef
  have hkeys : akeys cache' = akeys s.cache ++ [k] := akeys_aset_of_not_mem hk
  have hndc : (akeys cache').Nodup := nodup_akeys_aset h1
  have hnd' : (akeys fm').Nodup := nodup_keys_lfuAdd h2
  have hfm_self : alookup 1 fm' = some ((alookup 1 s.freqMap).getD [] ++ [k]) :=
    alookup_lfuAdd_self
  have hfm_ne : ∀ g, g ≠ 1 → alookup g fm' = alookup g s.freqMap :=
    fun g hg => alookup_lfuAdd_ne hg
  have hc_self : alookup k cache' = some (v, 1) := alookup_aset_self
  have hc_ne : ∀ m, m ≠ k → alookup m cache' = alookup m s.cache :=
    fun m hmk => alookup_aset_ne hmk
  have hknot : ∀ l', alookup 1 s.freqMap = some l' → k ∉ l' := by
    intro l' hl' hk'
    have := (hinv.list_spec hl').2.2 k hk'
    rw [alookup_eq_none_iff.mpr hk] at this
    simp at this
  refine ⟨⟨hndc, hnd', ?_, ?_, ?_⟩, hkeys⟩
  · intro p hp
    have hlp := alookup_of_mem_nodup hnd' hp
    by_cases hp1 : p.1 = 1
    · rw [hp1, hfm_self] at hlp
      have hp2 : p.2 = (alookup 1 s.freqMap).getD [] ++ [k] := by
        injection hlp with hh; exact hh.symm
      constructor
      · rw [hp2]; simp
      · rw [hp2]
        cases hone : alookup 1 s.freqMap with
        | none => simp
        | some l' =>
          have hnd'' := (hinv.list_spec hone).2.1
          have hkn := hknot l' hone
          simp [List.nodup_append, hnd'', hkn]
    · rw [hfm_ne _ hp1] at hlp
      exact hinv.2.2.1 _ (alookup_mem hlp)
  · intro p hp m hmp
    have hlp := alookup_of_mem_nodup hnd' hp
    by_cases hp1 : p.1 = 1
    · rw [hp1, hfm_self] at hlp
      have hp2 : p.2 = (alookup 1 s.freqMap).getD [] ++ [k] := by
        injection hlp with hh; exact hh.symm
      rw [hp2] at hmp
      rcases List.mem_append.mp hmp with hml | hmk
      · cases hone : alookup 1 s.freqMap with
        | none => rw [hone] at hml; simp at hml
        | some l' =>
          rw [hone] at hml
          simp only [Option.getD_some] at hml
          have hmne : m ≠ k := fun hh => hknot l' hone (hh ▸ hml)
          rw [hc_ne m hmne, hp1]
          exact (hinv.list_spec hone).2.2 m hml
      · have hmk' : m = k := by simpa using hmk
        rw [hmk', hc_self, hp1]
        rfl
    · rw [hfm_ne _ hp1] at hlp
      have hpmem := alookup_mem hlp
      have hfreq := hinv.2.2.2.1 _ hpmem m hmp
      have hmne : m ≠ k := by
        intro hh
        rw [hh, alookup_eq_none_iff.mpr hk] at hfreq
        simp at hfreq
      rw [hc_ne m hmne]
      exact hfreq
  · intro q hq
    have hlq := alookup_of_mem_nodup hndc hq
    by_cases hqk : q.1 = k
    · rw [hqk, hc_self] at hlq
      have hq2 : q.2 = (v, 1) := by injection hlq with hh; exact hh.symm
      rw [hq2]
      dsimp only
      rw [hfm_self]
      simp [hqk]
    · rw [hc_ne _ hqk] at hlq
      have hqmem := alookup_mem hlq
      have h5 := hinv.2.2.2.2 _ hqmem
      dsimp only at h5 ⊢
      by_cases hg1 : q.2.2 = 1
      · rw [hg1] at h5 ⊢
        rw [hfm_self]
        simp only [Option.getD_some]
        exact List.mem_append.mpr (Or.inl h5)
      · rw [hfm_ne _ hg1]
        exact h5

theorem lfu_del_spec {s : LFUPolicy K V} {k : K} (hinv : LFUInv s) :
    LFUInv (s.del k).2 ∧ (s.del k).2.capacity = s.capacity ∧
    ∀ m, m ∈ akeys (s.del k).2.cache ↔ (m ∈ akeys s.cache ∧ m ≠ k) := by
  cases hm : alookup k s.cache with
  | none =>
    have hk : k ∉ akeys s.cache := alookup_eq_none_iff.mp hm
    have hred : s.del k = (false, s) := by simp only [LFUPolicy.del, hm]
    rw [hred]
    refine ⟨hinv, rfl, ?_⟩
    intro m
    constructor
    · intro hmm
      exact ⟨hmm, fun hh => hk (hh ▸ hmm)⟩
    · exact fun hh => hh.1
  | some vf =>
    obtain ⟨v, f⟩ := vf
    have hred : s.del k = (true,
        ⟨s.capacity, aerase k s.cache, lfuRemoveFromList s.freqMap k f,
         if 0 < s.minFreq ∧ (alookup s.minFreq (lfuRemoveFromList s.freqMap k f)).isNone
         then s.minFreq + 1 else s.minFreq⟩) := by
      simp only [LFUPolicy.del, hm]
    have hcore := lfu_remove_core hinv hm s.capacity
      (if 0 < s.minFreq ∧ (alookup s.minFreq (lfuRemoveFromList s.freqMap k f)).isNone
       then s.minFreq + 1 else s.minFreq)
    rw [hred]
    refine ⟨hcore.1, rfl, ?_⟩
    intro m
    dsimp only
    rw [hcore.2]
    exact hinv.1.mem_erase_iff.trans (by tauto)

theorem lfu_get_spec {s : LFUPolicy K V} {k : K} (hinv : LFUInv s) :
    LFUInv (s.get k).2 ∧ (s.get k).2.capacity = s.capacity ∧
    ∀ m, m ∈ akeys (s.get k).2.cache ↔ m ∈ akeys s.cache := by
  cases hm : alookup k s.cache with
  | none =>
    have hred : (s.get k).2 = s := by simp only [LFUPolicy.get, hm]
    rw [hred]
    exact ⟨hinv, rfl, fun m => Iff.rfl⟩
  | some vf =>
    obtain ⟨v, f⟩ := vf
    have hred : (s.get k).2 = s.increaseFreq k v f := by simp only [LFUPolicy.get, hm]
    have hspec := lfu_increaseFreq_spec (v := v) hinv hm
    rw [hred]
    exact ⟨hspec.1, hspec.2.2, fun m => by rw [hspec.2.1]⟩

theorem lfu_evict_spec {s : LFUPolicy K V} (hinv : LFUInv s) :
    LFUInv (s.evictLFU).2 ∧ (s.evictLFU).2.capacity = s.capacity ∧
    ((s.evictLFU).1 = none → (s.evictLFU).2 = s) ∧
    ∀ w, (s.evictLFU).1 = some w → w ∈ akeys s.cache ∧
      ∀ m, m ∈ akeys (s.evictLFU).2.cache ↔ (m ∈ akeys s.cache ∧ m ≠ w) := by
  by_cases hz : s.minFreq = 0
  · have hred : s.evictLFU = (none, s) := by simp only [LFUPolicy.evictLFU, if_pos hz]
    rw [hred]
    exact ⟨hinv, rfl, fun _ => rfl, fun w hw => Option.noConfusion hw⟩
  · cases hl : alookup s.minFreq s.freqMap with
    | none =>
      have hred : s.evictLFU = (none, s) := by
        simp only [LFUPolicy.evictLFU, if_neg hz, hl]
      rw [hred]
      exact ⟨hinv, rfl, fun _ => rfl, fun w hw => Option.noConfusion hw⟩
    | some l =>
      cases l with
      | nil =>
        have hred : s.evictLFU = (none, s) := by
          simp only [LFUPolicy.evictLFU, if_neg hz, hl]
        rw [hred]
        exact ⟨hinv, rfl, fun _ => rfl, fun w hw => Option.noConfusion hw⟩
      | cons w rest =>
        have hred : s.evictLFU = (some w,
            ⟨s.capacity, aerase w s.cache, lfuRemoveFromList s.freqMap w s.minFreq,
             s.minFreq⟩) := by
          simp only [LFUPolicy.evictLFU, if_neg hz, hl]
        have hwl : w ∈ (w :: rest) := List.mem_cons_self w rest
        have hfreq := (hinv.list_spec hl).2.2 w hwl
        cases hc : alookup w s.cache with
        | none => rw [hc] at hfreq; simp at hfreq
        | some vf =>
          obtain ⟨vw, fw⟩ := vf
          have hfw : fw = s.minFreq := by
            rw [hc] at hfreq; simpa using hfreq
          have hcore := lfu_remove_core hinv hc s.capacity s.minFreq
          have hwk : w ∈ akeys s.cache := mem_akeys_of_alookup hc
          rw [hred]
          refine ⟨?_, rfl, fun hnone => Option.noConfusion hnone, ?_⟩
          · have hco := hcore.1
            rw [hfw] at hco
            exact hco
          · intro w' hw'
            have hww : w' = w := by injection hw' with hh; exact hh.symm
            subst hww
            refine ⟨hwk, ?_⟩
            intro m
            dsimp only
            rw [hcore.2]
            exact hinv.1.mem_erase_iff.trans (by tauto)

theorem lfu_set_spec {s : LFUPolicy K V} {k : K} {v : V}
    (hinv : LFUInv s) (hcap : 1 ≤ s.capacity) :
    LFUInv (s.set k v).2 ∧ (s.set k v).2.capacity = s.capacity ∧
    (k ∈ akeys s.cache →
      (s.set k v).1 = none ∧ ∀ m, m ∈ akeys (s.set k v).2.cache ↔ m ∈ akeys s.cache) ∧
    (k ∉ akeys s.cache →
      ((s.set k v).1 = none →
        ∀ m, m ∈ akeys (s.set k v).2.cache ↔ (m = k ∨ m ∈ akeys s.cache)) ∧
      (∀ w, (s.set k v).1 = some w → w ∈ akeys s.cache ∧
        ∀ m, m ∈ akeys (s.set k v).2.cache ↔ (m = k ∨ (m ∈ akeys s.cache ∧ m ≠ w)))) := by
  have hcapnz : ¬ s.capacity = 0 := by omega
  cases hm : alookup k s.cache with
  | some vf =>
    obtain ⟨v0, f⟩ := vf
    have hred : s.set k v = (none, s.increaseFreq k v f) := by
      simp only [LFUPolicy.set, hm]
    have hspec := lfu_increaseFreq_spec (v := v) hinv hm
    have hkk : k ∈ akeys s.cache := mem_akeys_of_alookup hm
    rw [hred]
    refine ⟨hspec.1, hspec.2.2, ?_, ?_⟩
    · exact fun _ => ⟨rfl, fun m => by rw [hspec.2.1]⟩
    · intro hk; exact absurd hkk hk
  | none =>
    have hk : k ∉ akeys s.cache := alookup_eq_none_iff.mp hm
    have hev := lfu_evict_spec hinv
    by_cases hfull : 0 < s.capacity ∧ s.capacity ≤ s.cache.length
    · have hred : s.set k v = ((s.evictLFU).1,
          ⟨(s.evictLFU).2.capacity, aset k (v, 1) (s.evictLFU).2.cache,
           lfuAddToList (s.evictLFU).2.freqMap k 1,
           if (s.evictLFU).2.minFreq = 0 ∨ 1 < (s.evictLFU).2.minFreq
           then 1 else (s.evictLFU).2.minFreq⟩) := by
        simp only [LFUPolicy.set, hm, if_pos hfull, if_neg hcapnz]
      cases hevr : (s.evictLFU).1 with
      | none =>
        have hsame := hev.2.2.1 hevr
        have hinv' : LFUInv (s.evictLFU).2 := by rw [hsame]; exact hinv
        have hk' : k ∉ akeys (s.evictLFU).2.cache := by rw [hsame]; exact hk
        have hins := lfu_insert_core (v := v) hinv' hk' (s.evictLFU).2.capacity
          (if (s.evictLFU).2.minFreq = 0 ∨ 1 < (s.evictLFU).2.minFreq
           then 1 else (s.evictLFU).2.minFreq)
        rw [hred, hevr]
        refine ⟨hins.1, by rw [hsame], ?_, ?_⟩
        · intro hkk; exact absurd hkk hk
        · intro _
          refine ⟨?_, ?_⟩
          · intro _ m
            dsimp only
            rw [hins.2, hsame]
            simp [or_comm]
          · intro w hw; exact Option.noConfusion hw
      | some w =>
        obtain ⟨hwk, hwkeys⟩ := hev.2.2.2 w hevr
        have hinv1 : LFUInv (s.evictLFU).2 := hev.1
        have hk1 : k ∉ akeys (s.evictLFU).2.cache := by
          intro hh
          exact hk ((hwkeys k).mp hh).1
        have hins := lfu_insert_core (v := v) hinv1 hk1 (s.evictLFU).2.capacity
          (if (s.evictLFU).2.minFreq = 0 ∨ 1 < (s.evictLFU).2.minFreq
           then 1 else (s.evictLFU).2.minFreq)
        rw [hred, hevr]
        refine ⟨hins.1, hev.2.1, ?_, ?_⟩
        · intro hkk; exact absurd hkk hk
        · intro _
          refine ⟨fun hnone => Option.noConfusion hnone, ?_⟩
          intro w' hw'
          have hww : w' = w := by injection hw' with hh; exact hh.symm
          subst hww
          refine ⟨hwk, ?_⟩
          intro m
          dsimp only
          rw [hins.2]
          simp only [List.mem_append, List.mem_singleton, hwkeys m]
          tauto
    · have hred : s.set k v = (none,
          ⟨s.capacity, aset k (v, 1) s.cache, lfuAddToList s.freqMap k 1,
           if s.minFreq = 0 ∨ 1 < s.minFreq then 1 else s.minFreq⟩) := by
        simp only [LFUPolicy.set, hm, if_neg hfull, if_neg hcapnz]
      have hins := lfu_insert_core (v := v) hinv hk s.capacity
        (if s.minFreq = 0 ∨ 1 < s.minFreq then 1 else s.minFreq)
      rw [hred]
      refine ⟨hins.1, rfl, ?_, ?_⟩
      · intro hkk; exact absurd hkk hk
      · intro _
        refine ⟨?_, fun w hw => Option.noConfusion hw⟩
        intro _ m
        dsimp only
        rw [hins.2]
        simp [or_comm]

end LFULemmas

section ListPolicyLemmas

variable {K : Type} {V : Type} [DecidableEq K]

theorem lru_get_spec {s : LRUPolicy K V} {k : K} (hnd : (akeys s.order).Nodup) :
    (s.get k).2.capacity = s.capacity ∧ (akeys (s.get k).2.order).Nodup ∧
    ∀ m, m ∈ akeys (s.get k).2.order ↔ m ∈ akeys s.order := by
  cases hm : alookup k s.order with
  | none =>
    have hred : (s.get k).2 = s := by simp only [LRUPolicy.get, hm]
    rw [hred]; exact ⟨rfl, hnd, fun m => Iff.rfl⟩
  | some v =>
    have hred : (s.get k).2 = { s with order := (k, v) :: aerase k s.order } := by
      simp only [LRUPolicy.get, hm]
    have hkm : k ∈ akeys s.order := mem_akeys_of_alookup hm
    rw [hred]
    refine ⟨rfl, ?_, ?_⟩
    · dsimp only
      rw [akeys_cons, akeys_aerase]
      exact List.nodup_cons.mpr ⟨hnd.not_mem_erase, hnd.erase k⟩
    · intro m
      dsimp only
      simp only [akeys_cons, List.mem_cons, akeys_aerase]
      constructor
      · rintro (rfl | hm2)
        · exact hkm
        · exact List.mem_of_mem_erase hm2
      · intro hm2
        by_cases hmk : m = k
        · exact Or.inl hmk
        · exact Or.inr ((List.mem_erase_of_ne hmk).mpr hm2)

theorem lru_del_spec {s : LRUPolicy K V} {k : K} (hnd : (akeys s.order).Nodup) :
    (s.del k).2.capacity = s.capacity ∧ (akeys (s.del k).2.order).Nodup ∧
    ∀ m, m ∈ akeys (s.del k).2.order ↔ (m ∈ akeys s.order ∧ m ≠ k) := by
  cases hm : alookup k s.order with
  | none =>
    have hred : (s.del k).2 = s := by simp only [LRUPolicy.del, hm]
    have hk : k ∉ akeys s.order := alookup_eq_none_iff.mp hm
    rw [hred]
    exact ⟨rfl, hnd, fun m =>
      ⟨fun hh => ⟨hh, fun he => hk (he ▸ hh)⟩, fun hh => hh.1⟩⟩
  | some v =>
    have hred : (s.del k).2 = { s with order := aerase k s.order } := by
      simp only [LRUPolicy.del, hm]
    rw [hred]
    refine ⟨rfl, ?_, ?_⟩
    · dsimp only; exact nodup_akeys_aerase hnd
    · intro m
      dsimp only
      rw [akeys_aerase]
      exact hnd.mem_erase_iff.trans (by tauto)

theorem lru_evict_spec {s : LRUPolicy K V} (hnd : (akeys s.order).Nodup) :
    (s.evictLRU).2.capacity = s.capacity ∧ (akeys (s.evictLRU).2.order).Nodup ∧
    ((s.evictLRU).1 = none → (s.evictLRU).2 = s) ∧
    ((s.evictLRU).1 = none → s.order = []) ∧
    ∀ w, (s.evictLRU).1 = some w → w ∈ akeys s.order ∧
      ∀ m, m ∈ akeys (s.evictLRU).2.order ↔ (m ∈ akeys s.order ∧ m ≠ w) := by
  cases hm : s.order.getLast? with
  | none =>
    have hred : s.evictLRU = (none, s) := by simp only [LRUPolicy.evictLRU, hm]
    have hnil : s.order = [] := List.getLast?_eq_none_iff.mp hm
    rw [hred]
    exact ⟨rfl, hnd, fun _ => rfl, fun _ => hnil, fun w hw => Option.noConfusion hw⟩
  | some p =>
    obtain ⟨w, v⟩ := p
    have hred : s.evictLRU = (some w, { s with order := s.order.dropLast }) := by
      simp only [LRUPolicy.evictLRU, hm]
    have hsplit : s.order.dropLast ++ [(w, v)] = s.order :=
      List.dropLast_append_getLast? _ hm
    have hkeys : akeys s.order = akeys s.order.dropLast ++ [w] := by
      conv_lhs => rw [← hsplit]
      simp
    have hnd' : (akeys s.order.dropLast).Nodup ∧ w ∉ akeys s.order.dropLast := by
      rw [hkeys] at hnd
      have := List.nodup_append.mp hnd
      exact ⟨this.1, fun hh => this.2.2 hh (List.mem_singleton_self w)⟩
    rw [hred]
    refine ⟨rfl, hnd'.1, fun hh => Option.noConfusion hh, fun hh => Option.noConfusion hh, ?_⟩
    intro w' hw'
    have hww : w' = w := by injection hw' with hh; exact hh.symm
    subst hww
    constructor
    · rw [hkeys]; simp
    · intro m
      dsimp only
      rw [hkeys]
      simp only [List.mem_append, List.mem_singleton]
      constructor
      · intro hh
        exact ⟨Or.inl hh, fun he => hnd'.2 (he ▸ hh)⟩
      · rintro ⟨hh | hh, hne⟩
        · exact hh
        · exact absurd hh hne

theorem lru_set_spec {s : LRUPolicy K V} {k : K} {v : V}
    (hnd : (akeys s.order).Nodup) (hcap : 1 ≤ s.capacity) :
    (s.set k v).2.capacity = s.capacity ∧ (akeys (s.set k v).2.order).Nodup ∧
    (k ∈ akeys s.order →
      (s.set k v).1 = none ∧ ∀ m, m ∈ akeys (s.set k v).2.order ↔ m ∈ akeys s.order) ∧
    (k ∉ akeys s.order →
      ((s.set k v).1 = none →
        ∀ m, m ∈ akeys (s.set k v).2.order ↔ (m = k ∨ m ∈ akeys s.order)) ∧
      (∀ w, (s.set k v).1 = some w → w ∈ akeys s.order ∧
        ∀ m, m ∈ akeys (s.set k v).2.order ↔ (m = k ∨ (m ∈ akeys s.order ∧ m ≠ w)))) := by
  have hcapnz : ¬ s.capacity = 0 := by omega
  cases hm : alookup k s.order with
  | some v0 =>
    have hred : s.set k v = (none, { s with order := (k, v) :: aerase k s.order }) := by
      simp only [LRUPolicy.set, hm]
    have hkm : k ∈ akeys s.order := mem_akeys_of_alookup hm
    rw [hred]
    refine ⟨rfl, ?_, ?_, ?_⟩
    · dsimp only
      rw [akeys_cons, akeys_aerase]
      exact List.nodup_cons.mpr ⟨hnd.not_mem_erase, hnd.erase k⟩
    · intro _
      refine ⟨rfl, ?_⟩
      intro m
      dsimp only
      simp only [akeys_cons, List.mem_cons, akeys_aerase]
      constructor
      · rintro (rfl | hm2)
        · exact hkm
        · exact List.mem_of_mem_erase hm2
      · intro hm2
        by_cases hmk : m = k
        · exact Or.inl hmk
        · exact Or.inr ((List.mem_erase_of_ne hmk).mpr hm2)
    · intro hk; exact absurd hkm hk
  | none =>
    have hk : k ∉ akeys s.order := alookup_eq_none_iff.mp hm
    have hev := lru_evict_spec hnd
    by_cases hfull : 0 < s.capacity ∧ s.capacity ≤ s.order.length
    · have hred : s.set k v =
          ((s.evictLRU).1, { s with order := (k, v) :: (s.evictLRU).2.order }) := by
        simp only [LRUPolicy.set, hm, if_pos hfull, if_neg hcapnz]
      cases hevr : (s.evictLRU).1 with
      | none =>
        have hsame := hev.2.2.1 hevr
        rw [hred, hevr]
        refine ⟨rfl, ?_, ?_, ?_⟩
        · dsimp only
          rw [hsame]
          rw [akeys_cons]
          exact List.nodup_cons.mpr ⟨hk, hnd⟩
        · intro hkk; exact absurd hkk hk
        · intro _
          refine ⟨?_, fun w hw => Option.noConfusion hw⟩
          intro _ m
          dsimp only
          rw [hsame]
          simp
      | some w =>
        obtain ⟨hwk, hwkeys⟩ := hev.2.2.2.2 w hevr
        rw [hred, hevr]
        refine ⟨rfl, ?_, ?_, ?_⟩
        · dsimp only
          rw [akeys_cons]
          refine List.nodup_cons.mpr ⟨?_, hev.2.1⟩
          intro hh
          exact hk ((hwkeys k).mp hh).1
        · intro hkk; exact absurd hkk hk
        · intro _
          refine ⟨fun hnone => Option.noConfusion hnone, ?_⟩
          intro w' hw'
          have hww : w' = w := by injection hw' with hh; exact hh.symm
          subst hww
          refine ⟨hwk, ?_⟩
          intro m
          dsimp only
          simp only [akeys_cons, List.mem_cons, hwkeys m]
    · have hred : s.set k v = (none, { s with order := (k, v) :: s.order }) := by
        simp only [LRUPolicy.set, hm, if_neg hfull, if_neg hcapnz]
      rw [hred]
      refine ⟨rfl, ?_, ?_, ?_⟩
      · dsimp only
        rw [akeys_cons]
        exact List.nodup_cons.mpr ⟨hk, hnd⟩
      · intro hkk; exact absurd hkk hk
      · intro _
        exact ⟨fun _ m => by simp, fun w hw => Option.noConfusion hw⟩

theorem fifo_get_spec {s : FIFOPolicy K V} {k : K} :
    (s.get k).2 = s := rfl

theorem fifo_del_spec {s : FIFOPolicy K V} {k : K} (hnd : (akeys s.order).Nodup) :
    (s.del k).2.capacity = s.capacity ∧ (akeys (s.del k).2.order).Nodup ∧
    ∀ m, m ∈ akeys (s.del k).2.order ↔ (m ∈ akeys s.order ∧ m ≠ k) := by
  cases hm : alookup k s.order with
  | none =>
    have hred : (s.del k).2 = s := by simp only [FIFOPolicy.del, hm]
    have hk : k ∉ akeys s.order := alookup_eq_none_iff.mp hm
    rw [hred]
    exact ⟨rfl, hnd, fun m =>
      ⟨fun hh => ⟨hh, fun he => hk (he ▸ hh)⟩, fun hh => hh.1⟩⟩
  | some v =>
    have hred : (s.del k).2 = { s with order := aerase k s.order } := by
      simp only [FIFOPolicy.del, hm]
    rw [hred]
    refine ⟨rfl, ?_, ?_⟩
    · dsimp only; exact nodup_akeys_aerase hnd
    · intro m
      dsimp only
      rw [akeys_aerase]
      exact hnd.mem_erase_iff.trans (by tauto)

theorem fifo_evict_spec {s : FIFOPolicy K V} (hnd : (akeys s.order).Nodup) :
    (s.evictHead).2.capacity = s.capacity ∧ (akeys (s.evictHead).2.order).Nodup ∧
    ((s.evictHead).1 = none → (s.evictHead).2 = s) ∧
    ((s.evictHead).1 = none → s.order = []) ∧
    ∀ w, (s.evictHead).1 = some w → w ∈ akeys s.order ∧
      ∀ m, m ∈ akeys (s.evictHead).2.order ↔ (m ∈ akeys s.order ∧ m ≠ w) := by
  cases horder : s.order with
  | nil =>
    have hred : s.evictHead = (none, s) := by simp only [FIFOPolicy.evictHead, horder]
    rw [hred]
    exact ⟨rfl, hnd, fun _ => rfl, fun _ => rfl, fun w hw => Option.noConfusion hw⟩
  | cons p rest =>
    obtain ⟨w, v⟩ := p
    have hred : s.evictHead = (some w, { s with order := rest }) := by
      simp only [FIFOPolicy.evictHead, horder]
    have hnd2 : (akeys ((w, v) :: rest)).Nodup := horder ▸ hnd
    simp only [akeys_cons, List.nodup_cons] at hnd2
    rw [hred]
    refine ⟨rfl, hnd2.2, fun hh => Option.noConfusion hh, fun hh => Option.noConfusion hh, ?_⟩
    intro w' hw'
    have hww : w' = w := by injection hw' with hh; exact hh.symm
    subst hww
    constructor
    · simp
    · intro m
      dsimp only
      simp only [akeys_cons, List.mem_cons]
      constructor
      · intro hh
        exact ⟨Or.inr hh, fun he => hnd2.1 (he ▸ hh)⟩
      · rintro ⟨hh | hh, hne⟩
        · exact absurd hh hne
        · exact hh

theorem fifo_set_spec {s : FIFOPolicy K V} {k : K} {v : V}
    (hnd : (akeys s.order).Nodup) (hcap : 1 ≤ s.capacity) :
    (s.set k v).2.capacity = s.capacity ∧ (akeys (s.set k v).2.order).Nodup ∧
    (k ∈ akeys s.order →
      (s.set k v).1 = none ∧ ∀ m, m ∈ akeys (s.set k v).2.order ↔ m ∈ akeys s.order) ∧
    (k ∉ akeys s.order →
      ((s.set k v).1 = none →
        ∀ m, m ∈ akeys (s.set k v).2.order ↔ (m = k ∨ m ∈ akeys s.order)) ∧
      (∀ w, (s.set k v).1 = some w → w ∈ akeys s.order ∧
        ∀ m, m ∈ akeys (s.set k v).2.order ↔ (m = k ∨ (m ∈ akeys s.order ∧ m ≠ w)))) := by
  have hcapnz : ¬ s.capacity = 0 := by omega
  cases hm : alookup k s.order with
  | some v0 =>
    have hred : s.set k v = (none, { s with order := aset k v s.order }) := by
      simp only [FIFOPolicy.set, hm]
    have hkm : k ∈ akeys s.order := mem_akeys_of_alookup hm
    rw [hred]
    refine ⟨rfl, ?_, ?_, ?_⟩
    · dsimp only
      rw [akeys_aset_of_mem hkm]
      exact hnd
    · intro _
      exact ⟨rfl, fun m => by dsimp only; rw [akeys_aset_of_mem hkm]⟩
    · intro hkk; exact absurd hkm hkk
  | none =>
    have hk : k ∉ akeys s.order := alookup_eq_none_iff.mp hm
    have hev := fifo_evict_spec hnd
    by_cases hfull : 0 < s.capacity ∧ s.capacity ≤ s.order.length
    · have hred : s.set k v =
          ((s.evictHead).1, { s with order := (s.evictHead).2.order ++ [(k, v)] }) := by
        simp only [FIFOPolicy.set, hm, if_pos hfull, if_neg hcapnz]
      cases hevr : (s.evictHead).1 with
      | none =>
        have hsame := hev.2.2.1 hevr
        rw [hred, hevr]
        refine ⟨rfl, ?_, ?_, ?_⟩
        · dsimp only
          rw [hsame, akeys_append]
          simpa [List.nodup_append] using ⟨hnd, hk⟩
        · intro hkk; exact absurd hkk hk
        · intro _
          refine ⟨?_, fun w hw => Option.noConfusion hw⟩
          intro _ m
          dsimp only
          rw [hsame, akeys_append]
          simp [or_comm]
      | some w =>
        obtain ⟨hwk, hwkeys⟩ := hev.2.2.2.2 w hevr
        rw [hred, hevr]
        refine ⟨rfl, ?_, ?_, ?_⟩
        · dsimp only
          rw [akeys_append]
          have hknot1 : k ∉ akeys (s.evictHead).2.order := by
            intro hh
            exact hk ((hwkeys k).mp hh).1
          simpa [List.nodup_append] using ⟨hev.2.1, hknot1⟩
        · intro hkk; exact absurd hkk hk
        · intro _
          refine ⟨fun hnone => Option.noConfusion hnone, ?_⟩
          intro w' hw'
          have hww : w' = w := by injection hw' with hh; exact hh.symm
          subst hww
          refine ⟨hwk, ?_⟩
          intro m
          dsimp only
          rw [akeys_append]
          simp only [akeys_cons, akeys_nil, List.mem_append, List.mem_cons,
            List.not_mem_nil, or_false, hwkeys m]
          tauto
    · have hred : s.set k v = (none, { s with order := s.order ++ [(k, v)] }) := by
        simp only [FIFOPolicy.set, hm, if_neg hfull, if_neg hcapnz]
      rw [hred]
      refine ⟨rfl, ?_, ?_, ?_⟩
      · dsimp only
        rw [akeys_append]
        simpa [List.nodup_append] using ⟨hnd, hk⟩
      · intro hkk; exact absurd hkk hk
      · intro _
        refine ⟨?_, fun w hw => Option.noConfusion hw⟩
        intro _ m
        dsimp only
        rw [akeys_append]
        simp [or_comm]

end ListPolicyLemmas

section PolicyDispatchLemmas

theorem polGet_spec (p : PolicyState) (k : String) (hnd : p.keysP.Nodup) (hinv : p.polInv) :
    (p.getP k).2.capacityP = p.capacityP ∧ (p.getP k).2.keysP.Nodup ∧
    (p.getP k).2.polInv ∧ ((p.getP k).2.isListBacked ↔ p.isListBacked) ∧
    ∀ m, m ∈ (p.getP k).2.keysP ↔ m ∈ p.keysP := by
  cases p with
  | lru s =>
    have h := lru_get_spec (s := s) (k := k) hnd
    exact ⟨h.1, h.2.1, trivial, Iff.rfl, h.2.2⟩
  | lfu s =>
    have h := lfu_get_spec (s := s) (k := k) hinv
    exact ⟨h.2.1, h.1.1, h.1, Iff.rfl, h.2.2⟩
  | fifo s =>
    exact ⟨rfl, hnd, trivial, Iff.rfl, fun m => Iff.rfl⟩

theorem polDel_spec (p : PolicyState) (k : String) (hnd : p.keysP.Nodup) (hinv : p.polInv) :
    (p.delP k).2.capacityP = p.capacityP ∧ (p.delP k).2.keysP.Nodup ∧
    (p.delP k).2.polInv ∧ ((p.delP k).2.isListBacked ↔ p.isListBacked) ∧
    ∀ m, m ∈ (p.delP k).2.keysP ↔ (m ∈ p.keysP ∧ m ≠ k) := by
  cases p with
  | lru s =>
    have h := lru_del_spec (s := s) (k := k) hnd
    exact ⟨h.1, h.2.1, trivial, Iff.rfl, h.2.2⟩
  | lfu s =>
    have h := lfu_del_spec (s := s) (k := k) hinv
    refine ⟨h.2.1, ?_, h.1, Iff.rfl, h.2.2⟩
    exact h.1.1
  | fifo s =>
    have h := fifo_del_spec (s := s) (k := k) hnd
    exact ⟨h.1, h.2.1, trivial, Iff.rfl, h.2.2⟩

theorem polEvict_spec (p : PolicyState) (hnd : p.keysP.Nodup) (hinv : p.polInv) :
    (p.evictP).2.capacityP = p.capacityP ∧ (p.evictP).2.keysP.Nodup ∧
    (p.evictP).2.polInv ∧ ((p.evictP).2.isListBacked ↔ p.isListBacked) ∧
    ((p.evictP).1 = none → (p.evictP).2 = p) ∧
    ((p.evictP).1 = none → p.isListBacked → p.keysP = []) ∧
    ∀ w, (p.evictP).1 = some w → w ∈ p.keysP ∧
      ∀ m, m ∈ (p.evictP).2.keysP ↔ (m ∈ p.keysP ∧ m ≠ w) := by
  cases p with
  | lru s =>
    have h := lru_evict_spec (s := s) hnd
    refine ⟨h.1, h.2.1, trivial, Iff.rfl, ?_, ?_, ?_⟩
    · intro hn
      have : (s.evictLRU).1 = none := hn
      exact congrArg PolicyState.lru (h.2.2.1 this)
    · intro hn _
      have : s.order = [] := h.2.2.2.1 hn
      simp [PolicyState.keysP, this]
    · intro w hw
      exact h.2.2.2.2 w hw
  | lfu s =>
    have h := lfu_evict_spec (s := s) hinv
    refine ⟨h.2.1, h.1.1, h.1, Iff.rfl, ?_, ?_, ?_⟩
    · intro hn
      have : (s.evictLFU).1 = none := hn
      exact congrArg PolicyState.lfu (h.2.2.1 this)
    · intro _ hlb
      exact absurd hlb (fun hh => hh)
    · intro w hw
      exact h.2.2.2 w hw
  | fifo s =>
    have h := fifo_evict_spec (s := s) hnd
    refine ⟨h.1, h.2.1, trivial, Iff.rfl, ?_, ?_, ?_⟩
    · intro hn
      have : (s.evictHead).1 = none := hn
      exact congrArg PolicyState.fifo (h.2.2.1 this)
    · intro hn _
      have : s.order = [] := h.2.2.2.1 hn
      simp [PolicyState.keysP, this]
    · intro w hw
      exact h.2.2.2.2 w hw

theorem polSet_spec (p : PolicyState) (k : String) (entry : CacheEntry)
    (hnd : p.keysP.Nodup) (hinv : p.polInv) (hcap : 1 ≤ p.capacityP) :
    (p.setP k entry).2.capacityP = p.capacityP ∧ (p.setP k entry).2.keysP.Nodup ∧
    (p.setP k entry).2.polInv ∧ ((p.setP k entry).2.isListBacked ↔ p.isListBacked) ∧
    (k ∈ p.keysP →
      (p.setP k entry).1 = none ∧ ∀ m, m ∈ (p.setP k entry).2.keysP ↔ m ∈ p.keysP) ∧
    (k ∉ p.keysP →
      ((p.setP k entry).1 = none →
        ∀ m, m ∈ (p.setP k entry).2.keysP ↔ (m = k ∨ m ∈ p.keysP)) ∧
      (∀ w, (p.setP k entry).1 = some w → w ∈ p.keysP ∧
        ∀ m, m ∈ (p.setP k entry).2.keysP ↔ (m = k ∨ (m ∈ p.keysP ∧ m ≠ w)))) := by
  cases p with
  | lru s =>
    have h := lru_set_spec (s := s) (k := k) (v := entry) hnd hcap
    exact ⟨h.1, h.2.1, trivial, Iff.rfl, h.2.2.1, h.2.2.2⟩
  | lfu s =>
    have h := lfu_set_spec (s := s) (k := k) (v := entry) hinv hcap
    exact ⟨h.2.1, h.1.1, h.1, Iff.rfl, h.2.2.1, h.2.2.2⟩
  | fifo s =>
    have h := fifo_set_spec (s := s) (k := k) (v := entry) hnd hcap
    exact ⟨h.1, h.2.1, trivial, Iff.rfl, h.2.2.1, h.2.2.2⟩

theorem polClear_spec (p : PolicyState) :
    p.clearP.capacityP = p.capacityP ∧ p.clearP.keysP = [] ∧ p.clearP.polInv ∧
    (p.clearP.isListBacked ↔ p.isListBacked) := by
  cases p with
  | lru s => exact ⟨rfl, rfl, trivial, Iff.rfl⟩
  | lfu s =>
    refine ⟨rfl, rfl, ?_, Iff.rfl⟩
    refine ⟨List.nodup_nil, List.nodup_nil, ?_, ?_, ?_⟩ <;> intro p hp <;>
      simp [LFUPolicy.clearAll] at hp
  | fifo s => exact ⟨rfl, rfl, trivial, Iff.rfl⟩

end PolicyDispatchLemmas

section EngineLemmas

theorem FrameOK.refl (e : CacheEngine) : FrameOK e e := ⟨rfl, rfl, Iff.rfl⟩

theorem FrameOK.trans {e1 e2 e3 : CacheEngine} (h1 : FrameOK e1 e2) (h2 : FrameOK e2 e3) :
    FrameOK e1 e3 :=
  ⟨h2.1.trans h1.1, h2.2.1.trans h1.2.1, h2.2.2.trans h1.2.2⟩

theorem engineDel_spec {e : CacheEngine} {k : String} (h : EngineInv e) :
    EngineInv (e.del k).2 ∧
    (∀ m, m ∈ akeys (e.del k).2.store ↔ (m ∈ akeys e.store ∧ m ≠ k)) ∧
    FrameOK e (e.del k).2 ∧
    (e.del k).2.currentMemoryBytes ≤ e.currentMemoryBytes := by
  obtain ⟨hnd, hndp, hsub1, hsub2, hsum, hpinv, hcap⟩ := h
  cases hm : alookup k e.store with
  | none =>
    have hred : (e.del k).2 = e := by simp only [CacheEngine.del, hm]
    rw [hred]
    have hk : k ∉ akeys e.store := alookup_eq_none_iff.mp hm
    exact ⟨⟨hnd, hndp, hsub1, hsub2, hsum, hpinv, hcap⟩,
      fun m => ⟨fun hh => ⟨hh, fun he => hk (he ▸ hh)⟩, fun hh => hh.1⟩,
      FrameOK.refl e, le_refl _⟩
  | some entry =>
    have hred : (e.del k).2 =
        { e with currentMemoryBytes := e.currentMemoryBytes - entry.size,
                 store := aerase k e.store,
                 policy := (e.policy.delP k).2 } := by
      simp only [CacheEngine.del, hm]
    have hdel := polDel_spec e.policy k hndp hpinv
    have hkeys : ∀ m, m ∈ akeys (aerase k e.store) ↔ (m ∈ akeys e.store ∧ m ≠ k) := by
      intro m
      rw [akeys_aerase]
      exact hnd.mem_erase_iff.trans (by tauto)
    rw [hred]
    refine ⟨⟨?_, ?_, ?_, ?_, ?_, ?_, ?_⟩, ?_, ?_, ?_⟩
    · exact nodup_akeys_aerase hnd
    · exact hdel.2.1
    · intro m hm2
      dsimp only at hm2 ⊢
      have := (hkeys m).mp hm2
      exact (hdel.2.2.2.2 m).mpr ⟨hsub1 m this.1, this.2⟩
    · intro m hm2
      dsimp only at hm2 ⊢
      have := (hdel.2.2.2.2 m).mp hm2
      exact (hkeys m).mpr ⟨hsub2 m this.1, this.2⟩
    · dsimp only
      show e.currentMemoryBytes - entry.size =
        asum (fun en => (en.size : Int)) (aerase k e.store)
      rw [asum_aerase hm, hsum]
      rfl
    · exact hdel.2.2.1
    · dsimp only
      rw [hdel.1]
      exact hcap
    · intro m
      dsimp only
      exact hkeys m
    · exact ⟨rfl, rfl, hdel.2.2.2.1⟩
    · dsimp only
      omega

theorem engineEvictOne_spec {e : CacheEngine} (h : EngineInv e) :
    EngineInv (e.evictOne).2 ∧
    FrameOK e (e.evictOne).2 ∧
    (e.evictOne).2.currentMemoryBytes ≤ e.currentMemoryBytes ∧
    ((e.evictOne).1 = none → (e.evictOne).2 = e ∧
      (e.policy.isListBacked → e.store = [])) ∧
    (∀ w, (e.evictOne).1 = some w →
      (e.evictOne).2.store.length + 1 = e.store.length) := by
  obtain ⟨hnd, hndp, hsub1, hsub2, hsum, hpinv, hcap⟩ := h
  have hev := polEvict_spec e.policy hndp hpinv
  cases hevr : (e.policy.evictP).1 with
  | none =>
    have hsame : (e.policy.evictP).2 = e.policy := hev.2.2.2.2.1 hevr
    have hred : e.evictOne = (none, { e with policy := (e.policy.evictP).2 }) := by
      simp only [CacheEngine.evictOne, hevr]
    have hstate : { e with policy := (e.policy.evictP).2 } = e := by
      rw [hsame]
    rw [hred, hstate]
    refine ⟨⟨hnd, hndp, hsub1, hsub2, hsum, hpinv, hcap⟩, FrameOK.refl e, le_refl _, ?_, ?_⟩
    · intro _
      refine ⟨rfl, ?_⟩
      intro hlb
      have hkeys : e.policy.keysP = [] := hev.2.2.2.2.2.1 hevr hlb
      cases hstore : e.store with
      | nil => rfl
      | cons p rest =>
        exfalso
        have : p.1 ∈ akeys e.store := by rw [hstore]; simp
        have := hsub1 p.1 this
        rw [hkeys] at this
        simp at this
    · intro w hw
      exact Option.noConfusion hw
  | some w =>
    obtain ⟨hwk, hwkeys⟩ := hev.2.2.2.2.2.2 w hevr
    have hwstore : w ∈ akeys e.store := hsub2 w hwk
    cases hlw : alookup w e.store with
    | none =>
      exfalso
      exact (alookup_eq_none_iff.mp hlw) hwstore
    | some entry =>
      have hred : e.evictOne = (some w,
          { e with policy := (e.policy.evictP).2,
                   currentMemoryBytes := e.currentMemoryBytes - entry.size,
                   store := aerase w e.store,
                   stats := e.stats.recordEviction }) := by
        simp only [CacheEngine.evictOne, hevr, hlw]
      have hkeys : ∀ m, m ∈ akeys (aerase w e.store) ↔ (m ∈ akeys e.store ∧ m ≠ w) := by
        intro m
        rw [akeys_aerase]
        exact hnd.mem_erase_iff.trans (by tauto)
      rw [hred]
      refine ⟨⟨?_, ?_, ?_, ?_, ?_, ?_, ?_⟩, ?_, ?_, ?_, ?_⟩
      · exact nodup_akeys_aerase hnd
      · exact hev.2.1
      · intro m hm2
        dsimp only at hm2 ⊢
        have := (hkeys m).mp hm2
        exact (hwkeys m).mpr ⟨hsub1 m this.1, this.2⟩
      · intro m hm2
        dsimp only at hm2 ⊢
        have := (hwkeys m).mp hm2
        exact (hkeys m).mpr ⟨hsub2 m this.1, this.2⟩
      · dsimp only
        show e.currentMemoryBytes - entry.size =
          asum (fun en => (en.size : Int)) (aerase w e.store)
        rw [asum_aerase hlw, hsum]
        rfl
      · exact hev.2.2.1
      · dsimp only
        rw [hev.1]
        exact hcap
      · exact ⟨rfl, rfl, hev.2.2.2.1⟩
      · dsimp only
        omega
      · intro hn
        exact Option.noConfusion hn
      · intro w' hw'
        dsimp only
        have : w ∈ akeys e.store := hwstore
        exact length_aerase_of_mem this

theorem enforceAux_spec (required : Nat) :
    ∀ (fuel : Nat) (e : CacheEngine), EngineInv e →
    EngineInv (CacheEngine.enforceAux required fuel e) ∧
    FrameOK e (CacheEngine.enforceAux required fuel e) ∧
    (CacheEngine.enforceAux required fuel e).currentMemoryBytes ≤ e.currentMemoryBytes := by
  intro fuel
  induction fuel with
  | zero =>
    intro e h
    exact ⟨h, FrameOK.refl e, le_refl _⟩
  | succ fuel ih =>
    intro e h
    by_cases hc : (e.memoryThreshold : Int) < e.currentMemoryBytes + required ∧
        0 < e.store.length
    · have hred : CacheEngine.enforceAux required (fuel + 1) e =
          match e.evictOne with
          | (none, e1) => e1
          | (some _, e1) => CacheEngine.enforceAux required fuel e1 := by
        simp only [CacheEngine.enforceAux, if_pos hc]
      have hev := engineEvictOne_spec h
      rcases hevr : e.evictOne with ⟨r, e1⟩
      cases r with
      | none =>
        rw [hred, hevr]
        have he1 : e1 = e := by
          have := (hev.2.2.2.1 (by rw [hevr])).1
          rw [hevr] at this
          exact this
        rw [he1]
        exact ⟨h, FrameOK.refl e, le_refl _⟩
      | some w =>
        rw [hred, hevr]
        have hinv1 : EngineInv e1 := by have := hev.1; rw [hevr] at this; exact this
        have hfr1 : FrameOK e e1 := by have := hev.2.1; rw [hevr] at this; exact this
        have hle1 : e1.currentMemoryBytes ≤ e.currentMemoryBytes := by
          have := hev.2.2.1; rw [hevr] at this; exact this
        obtain ⟨h1, h2, h3⟩ := ih e1 hinv1
        exact ⟨h1, hfr1.trans h2, le_trans h3 hle1⟩
    · have hred : CacheEngine.enforceAux required (fuel + 1) e = e := by
        simp only [CacheEngine.enforceAux, if_neg hc]
      rw [hred]
      exact ⟨h, FrameOK.refl e, le_refl _⟩

theorem enforceAux_post (required : Nat) :
    ∀ (fuel : Nat) (e : CacheEngine), EngineInv e → e.policy.isListBacked →
    e.store.length ≤ fuel →
    (CacheEngine.enforceAux required fuel e).currentMemoryBytes + required ≤
      ((CacheEngine.enforceAux required fuel e).memoryThreshold : Int) ∨
    (CacheEngine.enforceAux required fuel e).store = [] := by
  intro fuel
  induction fuel with
  | zero =>
    intro e h hlb hfuel
    right
    exact List.length_eq_zero.mp (Nat.le_zero.mp hfuel)
  | succ fuel ih =>
    intro e h hlb hfuel
    by_cases hc : (e.memoryThreshold : Int) < e.currentMemoryBytes + required ∧
        0 < e.store.length
    · have hred : CacheEngine.enforceAux required (fuel + 1) e =
          match e.evictOne with
          | (none, e1) => e1
          | (some _, e1) => CacheEngine.enforceAux required fuel e1 := by
        simp only [CacheEngine.enforceAux, if_pos hc]
      have hev := engineEvictOne_spec h
      rcases hevr : e.evictOne with ⟨r, e1⟩
      cases r with
      | none =>
        rw [hred, hevr]
        have hnone := hev.2.2.2.1 (by rw [hevr])
        rw [hevr] at hnone
        right
        show e1.store = []
        have he1 : e1 = e := hnone.1
        rw [he1]
        exact hnone.2 hlb
      | some w =>
        rw [hred, hevr]
        have hinv1 : EngineInv e1 := by have := hev.1; rw [hevr] at this; exact this
        have hfr1 : FrameOK e e1 := by have := hev.2.1; rw [hevr] at this; exact this
        have hlen : e1.store.length + 1 = e.store.length := by
          have := hev.2.2.2.2 w (by rw [hevr])
          rw [hevr] at this
          exact this
        have hlb1 : e1.policy.isListBacked := hfr1.2.2.mpr hlb
        exact ih e1 hinv1 hlb1 (by omega)
    · have hred : CacheEngine.enforceAux required (fuel + 1) e = e := by
        simp only [CacheEngine.enforceAux, if_neg hc]
      rw [hred]
      rw [Classical.not_and_iff_or_not_not] at hc
      rcases hc with hc | hc
      · left; omega
      · right
        have : e.store.length = 0 := by omega
        exact List.length_eq_zero.mp this

theorem enforce_spec {e : CacheEngine} {required : Nat} (h : EngineInv e) :
    EngineInv (e.enforceMemoryLimit required) ∧
    FrameOK e (e.enforceMemoryLimit required) ∧
    (e.enforceMemoryLimit required).currentMemoryBytes ≤ e.currentMemoryBytes :=
  enforceAux_spec required e.store.length e h

theorem enforce_post {e : CacheEngine} {required : Nat} (h : EngineInv e)
    (hlb : e.policy.isListBacked) :
    (e.enforceMemoryLimit required).currentMemoryBytes + required ≤
      ((e.enforceMemoryLimit required).memoryThreshold : Int) ∨
    (e.enforceMemoryLimit required).store = [] :=
  enforceAux_post required e.store.length e h hlb (le_refl _)

theorem setAfterEnforce_spec {e1 : CacheEngine} {k : String} {entry : CacheEntry}
    (h : EngineInv e1) :
    EngineInv (e1.setAfterEnforce k entry).2 ∧
    FrameOK e1 (e1.setAfterEnforce k entry).2 ∧
    alookup k (e1.setAfterEnforce k entry).2.store = some entry ∧
    (e1.setAfterEnforce k entry).2.currentMemoryBytes ≤
      e1.currentMemoryBytes + entry.size := by
  obtain ⟨hnd, hndp, hsub1, hsub2, hsum, hpinv, hcap⟩ := h
  cases hm : alookup k e1.store with
  | some existing =>
    have hred : (e1.setAfterEnforce k entry).2 =
        { e1 with currentMemoryBytes := e1.currentMemoryBytes - existing.size + entry.size,
                  store := aset k entry e1.store,
                  policy := (e1.policy.setP k entry).2 } := by
      simp only [CacheEngine.setAfterEnforce, hm]
    have hkm : k ∈ akeys e1.store := mem_akeys_of_alookup hm
    have hkp : k ∈ e1.policy.keysP := hsub1 k hkm
    have hset := polSet_spec e1.policy k entry hndp hpinv hcap
    have hkeys : akeys (aset k entry e1.store) = akeys e1.store := akeys_aset_of_mem hkm
    rw [hred]
    refine ⟨⟨?_, ?_, ?_, ?_, ?_, ?_, ?_⟩, ⟨rfl, rfl, hset.2.2.2.1⟩, ?_, ?_⟩
    · dsimp only; rw [hkeys]; exact hnd
    · exact hset.2.1
    · intro m hm2
      dsimp only at hm2 ⊢
      rw [hkeys] at hm2
      exact ((hset.2.2.2.2.1 hkp).2 m).mpr (hsub1 m hm2)
    · intro m hm2
      dsimp only at hm2 ⊢
      rw [hkeys]
      exact hsub2 m (((hset.2.2.2.2.1 hkp).2 m).mp hm2)
    · dsimp only
      show e1.currentMemoryBytes - existing.size + entry.size =
        asum (fun en => (en.size : Int)) (aset k entry e1.store)
      rw [asum_aset_of_lookup hm, hsum]
      rfl
    · exact hset.2.2.1
    · dsimp only; rw [hset.1]; exact hcap
    · dsimp only
      exact alookup_aset_self
    · dsimp only
      omega
  | none =>
    have hk : k ∉ akeys e1.store := alookup_eq_none_iff.mp hm
    have hkp : k ∉ e1.policy.keysP := fun hh => hk (hsub2 k hh)
    have hlk2 : alookup k (e1.store ++ [(k, entry)]) = some entry := by
      rw [alookup_append, hm]
      simp [alookup]
    have hkeys2 : akeys (e1.store ++ [(k, entry)]) = akeys e1.store ++ [k] := by
      simp
    have hnd2 : (akeys (e1.store ++ [(k, entry)])).Nodup := by
      rw [hkeys2]
      simpa [List.nodup_append] using ⟨hnd, hk⟩
    have hset := polSet_spec e1.policy k entry hndp hpinv hcap
    have hsum2 : e1.currentMemoryBytes + (entry.size : Int) =
        asum (fun en => (en.size : Int)) (e1.store ++ [(k, entry)]) := by
      rw [hsum]
      show storeBytes e1 + (entry.size : Int) =
        asum (fun en => (en.size : Int)) (e1.store ++ [(k, entry)])
      rw [asum_append]
      simp [storeBytes, asum]
    cases hpr : (e1.policy.setP k entry).1 with
    | none =>
      have hkeyiff := (hset.2.2.2.2.2 hkp).1 hpr
      have hred : (e1.setAfterEnforce k entry).2 =
          { e1 with store := e1.store ++ [(k, entry)],
                    currentMemoryBytes := e1.currentMemoryBytes + entry.size,
                    policy := (e1.policy.setP k entry).2 } := by
        simp only [CacheEngine.setAfterEnforce, hm, hpr]
      rw [hred]
      refine ⟨⟨?_, ?_, ?_, ?_, ?_, ?_, ?_⟩, ⟨rfl, rfl, hset.2.2.2.1⟩, ?_, ?_⟩
      · exact hnd2
      · exact hset.2.1
      · intro m hm2
        dsimp only at hm2 ⊢
        rw [hkeys2] at hm2
        rcases List.mem_append.mp hm2 with hh | hh
        · exact (hkeyiff m).mpr (Or.inr (hsub1 m hh))
        · have : m = k := by simpa using hh
          exact (hkeyiff m).mpr (Or.inl this)
      · intro m hm2
        dsimp only at hm2 ⊢
        rw [hkeys2]
        rcases (hkeyiff m).mp hm2 with hh | hh
        · subst hh; simp
        · exact List.mem_append.mpr (Or.inl (hsub2 m hh))
      · dsimp only
        exact hsum2
      · exact hset.2.2.1
      · dsimp only; rw [hset.1]; exact hcap
      · dsimp only
        exact hlk2
      · dsimp only
        omega
    | some w =>
      obtain ⟨hwp, hwkeys⟩ := (hset.2.2.2.2.2 hkp).2 w hpr
      have hwstore : w ∈ akeys e1.store := hsub2 w hwp
      have hwne : w ≠ k := fun hh => hk (hh ▸ hwstore)
      have hlw2 : alookup w (e1.store ++ [(k, entry)]) = alookup w e1.store := by
        rw [alookup_append]
        cases hx : alookup w e1.store with
        | none => exact absurd hwstore (alookup_eq_none_iff.mp hx)
        | some x => rfl
      cases hwl : alookup w e1.store with
      | none => exact absurd hwstore (alookup_eq_none_iff.mp hwl)
      | some evEntry =>
        have hlw2' : alookup w (e1.store ++ [(k, entry)]) = some evEntry := by
          rw [hlw2, hwl]
        have hred : (e1.setAfterEnforce k entry).2 =
            { e1 with
              store := aerase w (e1.store ++ [(k, entry)]),
              currentMemoryBytes := e1.currentMemoryBytes + entry.size - evEntry.size,
              policy := (e1.policy.setP k entry).2,
              stats := e1.stats.recordEviction } := by
          simp only [CacheEngine.setAfterEnforce, hm, hpr, hlw2']
        have hkeys3 : ∀ m, m ∈ akeys (aerase w (e1.store ++ [(k, entry)])) ↔
            (m ∈ akeys e1.store ++ [k] ∧ m ≠ w) := by
          intro m
          rw [akeys_aerase]
          have hme := hnd2.mem_erase_iff (a := m) (b := w)
          rw [hkeys2] at hme ⊢
          exact hme.trans and_comm
        rw [hred]
        refine ⟨⟨?_, ?_, ?_, ?_, ?_, ?_, ?_⟩, ⟨rfl, rfl, hset.2.2.2.1⟩, ?_, ?_⟩
        · dsimp only
          exact nodup_akeys_aerase hnd2
        · exact hset.2.1
        · intro m hm2
          dsimp only at hm2 ⊢
          have := (hkeys3 m).mp hm2
          rcases List.mem_append.mp this.1 with hh | hh
          · exact (hwkeys m).mpr (Or.inr ⟨hsub1 m hh, this.2⟩)
          · have : m = k := by simpa using hh
            exact (hwkeys m).mpr (Or.inl this)
        · intro m hm2
          dsimp only at hm2 ⊢
          rcases (hwkeys m).mp hm2 with hh | hh
          · subst hh
            exact (hkeys3 m).mpr ⟨List.mem_append.mpr (Or.inr (by simp)), Ne.symm hwne⟩
          · exact (hkeys3 m).mpr ⟨List.mem_append.mpr (Or.inl (hsub2 m hh.1)), hh.2⟩
        · dsimp only
          show e1.currentMemoryBytes + entry.size - evEntry.size =
            asum (fun en => (en.size : Int)) (aerase w (e1.store ++ [(k, entry)]))
          rw [asum_aerase hlw2', ← hsum2]
        · exact hset.2.2.1
        · dsimp only; rw [hset.1]; exact hcap
        · dsimp only
          rw [alookup_aerase_ne (Ne.symm hwne)]
          exact hlk2
        · dsimp only
          omega

theorem engineSet_spec {e : CacheEngine} {now : Nat} {k : String} {v : Value}
    {ttl : Option Nat} (h : EngineInv e) :
    EngineInv (e.set now k v ttl).2 ∧
    FrameOK e (e.set now k v ttl).2 ∧
    alookup k (e.set now k v ttl).2.store =
      some { value := v, expiresAt := mkExpiresAt now ttl, size := calculateEntrySize k v } := by
  by_cases hc : (e.memoryThreshold : Int) < e.currentMemoryBytes + calculateEntrySize k v
  · have hred : e.set now k v ttl =
        (e.enforceMemoryLimit (calculateEntrySize k v)).setAfterEnforce k
          { value := v, expiresAt := mkExpiresAt now ttl, size := calculateEntrySize k v } := by
      simp only [CacheEngine.set, if_pos hc]
    obtain ⟨henf1, henf2, _⟩ := @enforce_spec e (calculateEntrySize k v) h
    obtain ⟨hs1, hs2, hs3, _⟩ := @setAfterEnforce_spec
      (e.enforceMemoryLimit (calculateEntrySize k v)) k
      { value := v, expiresAt := mkExpiresAt now ttl,
        size := calculateEntrySize k v } henf1
    rw [hred]
    exact ⟨hs1, henf2.trans hs2, hs3⟩
  · have hred : e.set now k v ttl =
        e.setAfterEnforce k
          { value := v, expiresAt := mkExpiresAt now ttl, size := calculateEntrySize k v } := by
      simp only [CacheEngine.set, if_neg hc]
    obtain ⟨hs1, hs2, hs3, _⟩ := @setAfterEnforce_spec e k
      { value := v, expiresAt := mkExpiresAt now ttl,
        size := calculateEntrySize k v } h
    rw [hred]
    exact ⟨hs1, hs2, hs3⟩

theorem engineSet_bound {e : CacheEngine} {now : Nat} {k : String} {v : Value}
    {ttl : Option Nat} (h : EngineInv e) (hlb : e.policy.isListBacked)
    (hsize : calculateEntrySize k v ≤ e.memoryThreshold)
    (hb : e.currentMemoryBytes ≤ (e.memoryThreshold : Int)) :
    (e.set now k v ttl).2.currentMemoryBytes ≤ ((e.set now k v ttl).2.memoryThreshold : Int) := by
  have hentry : ({ value := v, expiresAt := mkExpiresAt now ttl, size := calculateEntrySize k v } : CacheEntry).size = calculateEntrySize k v := rfl
  by_cases hc : (e.memoryThreshold : Int) < e.currentMemoryBytes + calculateEntrySize k v
  · have hred : e.set now k v ttl =
        (e.enforceMemoryLimit (calculateEntrySize k v)).setAfterEnforce k
          { value := v, expiresAt := mkExpiresAt now ttl, size := calculateEntrySize k v } := by
      simp only [CacheEngine.set, if_pos hc]
    obtain ⟨henf1, henf2, _⟩ := @enforce_spec e (calculateEntrySize k v) h
    have hpost := @enforce_post e (calculateEntrySize k v) h hlb
    obtain ⟨hs1, hs2, _, hs4⟩ := @setAfterEnforce_spec
      (e.enforceMemoryLimit (calculateEntrySize k v)) k
      { value := v, expiresAt := mkExpiresAt now ttl,
        size := calculateEntrySize k v } henf1
    rw [hred]
    have hthr : (e.set now k v ttl).2.memoryThreshold = e.memoryThreshold := by
      rw [hred]
      rw [hs2.1, henf2.1]
    rcases hpost with hgood | hempty
    · have hthr2 : (e.enforceMemoryLimit (calculateEntrySize k v)).memoryThreshold =
          e.memoryThreshold := henf2.1
      rw [hs2.1]
      rw [hentry] at hs4
      omega
    · -- the store emptied: currentBytes there is the empty sum, 0
      have hcur0 : (e.enforceMemoryLimit (calculateEntrySize k v)).currentMemoryBytes = 0 := by
        have hsum := henf1.2.2.2.2.1
        simp only [storeBytes] at hsum
        rw [hempty] at hsum
        simpa using hsum
      rw [hs2.1]
      rw [hentry] at hs4
      rw [hcur0] at hs4
      have : (e.enforceMemoryLimit (calculateEntrySize k v)).memoryThreshold =
          e.memoryThreshold := henf2.1
      omega
  · have hred : e.set now k v ttl =
        e.setAfterEnforce k
          { value := v, expiresAt := mkExpiresAt now ttl, size := calculateEntrySize k v } := by
      simp only [CacheEngine.set, if_neg hc]
    obtain ⟨hs1, hs2, _, hs4⟩ := @setAfterEnforce_spec e k
      { value := v, expiresAt := mkExpiresAt now ttl,
        size := calculateEntrySize k v } h
    rw [hred]
    rw [hentry] at hs4
    rw [hs2.1]
    omega

theorem engineInv_stats {e : CacheEngine} (st : StatisticsTracker) (h : EngineInv e) :
    EngineInv { e with stats := st } := by
  obtain ⟨a, b, c, d, f, g, i⟩ := h
  exact ⟨a, b, c, d, f, g, i⟩

theorem frameOK_stats {e : CacheEngine} (st : StatisticsTracker) :
    FrameOK e { e with stats := st } := ⟨rfl, rfl, Iff.rfl⟩

theorem engineGet_spec {e : CacheEngine} {now : Nat} {k : String} (h : EngineInv e) :
    EngineInv (e.get now k).2 ∧ FrameOK e (e.get now k).2 ∧
    (e.get now k).2.currentMemoryBytes ≤ e.currentMemoryBytes := by
  cases hm : alookup k e.store with
  | none =>
    have hred : (e.get now k).2 = { e with stats := e.stats.recordMiss now } := by
      simp only [CacheEngine.get, hm]
    rw [hred]
    exact ⟨engineInv_stats _ h, frameOK_stats _, le_refl _⟩
  | some entry =>
    by_cases hex : isExpired now entry
    · have hred : (e.get now k).2 =
          { (e.del k).2 with
            stats := ((e.del k).2.stats.recordExpiration).recordMiss now } := by
        simp only [CacheEngine.get, hm, hex]
        rfl
      obtain ⟨hd1, _, hd3, hd4⟩ := engineDel_spec (k := k) h
      rw [hred]
      exact ⟨engineInv_stats _ hd1, hd3.trans (frameOK_stats _), hd4⟩
    · have hred : (e.get now k).2 =
          { e with policy := (e.policy.getP k).2, stats := e.stats.recordHit now } := by
        simp only [CacheEngine.get, hm, hex]
        rfl
      obtain ⟨hnd, hndp, hsub1, hsub2, hsum, hpinv, hcap⟩ := h
      have hg := polGet_spec e.policy k hndp hpinv
      rw [hred]
      refine ⟨⟨hnd, hg.2.1, ?_, ?_, hsum, hg.2.2.1, ?_⟩, ⟨rfl, rfl, hg.2.2.2.1⟩, le_refl _⟩
      · intro m hm2
        exact (hg.2.2.2.2 m).mpr (hsub1 m hm2)
      · intro m hm2
        exact hsub2 m ((hg.2.2.2.2 m).mp hm2)
      · dsimp only
        rw [hg.1]
        exact hcap

theorem engineGet_miss {e : CacheEngine} {now : Nat} {k : String}
    (hm : alookup k e.store = none) : (e.get now k).1 = Value.vnull := by
  simp only [CacheEngine.get, hm]

theorem engineGet_hit {e : CacheEngine} {now : Nat} {k : String} {entry : CacheEntry}
    (hm : alookup k e.store = some entry) (hex : isExpired now entry = false) :
    (e.get now k).1 = entry.value ∧ (e.get now k).2.store = e.store ∧
    (e.get now k).2.stats.hits = e.stats.hits + 1 ∧
    (e.get now k).2.currentMemoryBytes = e.currentMemoryBytes := by
  have hred : e.get now k =
      (entry.value,
       { e with policy := (e.policy.getP k).2, stats := e.stats.recordHit now }) := by
    simp only [CacheEngine.get, hm, hex]
    rfl
  rw [hred]
  exact ⟨rfl, rfl, rfl, rfl⟩

theorem engineGet_expired {e : CacheEngine} {now : Nat} {k : String} {entry : CacheEntry}
    (hnd : (akeys e.store).Nodup)
    (hm : alookup k e.store = some entry) (hex : isExpired now entry = true) :
    (e.get now k).1 = Value.vnull ∧ alookup k (e.get now k).2.store = none ∧
    (e.get now k).2.stats.expirations = e.stats.expirations + 1 := by
  have hred : e.get now k =
      (Value.vnull,
       { (e.del k).2 with
         stats := ((e.del k).2.stats.recordExpiration).recordMiss now }) := by
    simp only [CacheEngine.get, hm, hex]
    rfl
  have hdred : (e.del k).2 =
      { e with currentMemoryBytes := e.currentMemoryBytes - entry.size,
               store := aerase k e.store,
               policy := (e.policy.delP k).2 } := by
    simp only [CacheEngine.del, hm]
  rw [hred, hdred]
  refine ⟨rfl, ?_, rfl⟩
  dsimp only
  exact alookup_aerase_self hnd

theorem engineGet_other {e : CacheEngine} {now : Nat} {j k : String} (hjk : j ≠ k) :
    alookup k (e.get now j).2.store = alookup k e.store := by
  cases hm : alookup j e.store with
  | none => simp only [CacheEngine.get, hm]
  | some entry =>
    by_cases hex : isExpired now entry
    · have hred : (e.get now j).2.store = (e.del j).2.store := by
        simp only [CacheEngine.get, hm, hex]
        rfl
      have hdred : (e.del j).2.store = aerase j e.store := by
        simp only [CacheEngine.del, hm]
      rw [hred, hdred]
      exact alookup_aerase_ne (Ne.symm hjk)
    · have hred : (e.get now j).2.store = e.store := by
        simp only [CacheEngine.get, hm, hex]
        rfl
      rw [hred]

theorem engineExists_spec {e : CacheEngine} {now : Nat} {k : String} (h : EngineInv e) :
    EngineInv (e.existsKey now k).2 ∧ FrameOK e (e.existsKey now k).2 ∧
    (e.existsKey now k).2.currentMemoryBytes ≤ e.currentMemoryBytes := by
  cases hm : alookup k e.store with
  | none =>
    have hred : (e.existsKey now k).2 = e := by simp only [CacheEngine.existsKey, hm]
    rw [hred]
    exact ⟨h, FrameOK.refl e, le_refl _⟩
  | some entry =>
    by_cases hex : isExpired now entry
    · have hred : (e.existsKey now k).2 =
          { (e.del k).2 with stats := (e.del k).2.stats.recordExpiration } := by
        simp only [CacheEngine.existsKey, hm, hex]
        rfl
      obtain ⟨hd1, _, hd3, hd4⟩ := engineDel_spec (k := k) h
      rw [hred]
      exact ⟨engineInv_stats _ hd1, hd3.trans (frameOK_stats _), hd4⟩
    · have hred : (e.existsKey now k).2 = e := by
        simp only [CacheEngine.existsKey, hm, hex]
        rfl
      rw [hred]
      exact ⟨h, FrameOK.refl e, le_refl _⟩

theorem engineExists_expired {e : CacheEngine} {now : Nat} {k : String} {entry : CacheEntry}
    (hnd : (akeys e.store).Nodup)
    (hm : alookup k e.store = some entry) (hex : isExpired now entry = true) :
    (e.existsKey now k).1 = false ∧ alookup k (e.existsKey now k).2.store = none := by
  have hred : e.existsKey now k =
      (false, { (e.del k).2 with stats := (e.del k).2.stats.recordExpiration }) := by
    simp only [CacheEngine.existsKey, hm, hex]
    rfl
  have hdred : (e.del k).2.store = aerase k e.store := by
    simp only [CacheEngine.del, hm]
  rw [hred]
  refine ⟨rfl, ?_⟩
  show alookup k (e.del k).2.store = none
  rw [hdred]
  exact alookup_aerase_self hnd

theorem engineUpdateTTL_spec {e : CacheEngine} {now : Nat} {k : String} {ttl : Nat}
    (h : EngineInv e) :
    EngineInv (e.updateTTL now k ttl).2 ∧ FrameOK e (e.updateTTL now k ttl).2 ∧
    (e.updateTTL now k ttl).2.currentMemoryBytes ≤ e.currentMemoryBytes := by
  cases hm : alookup k e.store with
  | none =>
    have hred : (e.updateTTL now k ttl).2 = e := by simp only [CacheEngine.updateTTL, hm]
    rw [hred]
    exact ⟨h, FrameOK.refl e, le_refl _⟩
  | some entry =>
    have hred : (e.updateTTL now k ttl).2 =
        { e with store := aset k { entry with expiresAt := some (now + ttl) } e.store } := by
      simp only [CacheEngine.updateTTL, hm]
    obtain ⟨hnd, hndp, hsub1, hsub2, hsum, hpinv, hcap⟩ := h
    have hkm : k ∈ akeys e.store := mem_akeys_of_alookup hm
    have hkeys : akeys (aset k { entry with expiresAt := some (now + ttl) } e.store) =
        akeys e.store := akeys_aset_of_mem hkm
    rw [hred]
    refine ⟨⟨?_, hndp, ?_, ?_, ?_, hpinv, hcap⟩, ⟨rfl, rfl, Iff.rfl⟩, le_refl _⟩
    · dsimp only; rw [hkeys]; exact hnd
    · intro m hm2
      dsimp only at hm2
      rw [hkeys] at hm2
      exact hsub1 m hm2
    · intro m hm2
      dsimp only
      rw [hkeys]
      exact hsub2 m hm2
    · dsimp only
      show e.currentMemoryBytes =
        asum (fun en => (en.size : Int)) (aset k { entry with expiresAt := some (now + ttl) } e.store)
      rw [asum_aset_of_lookup hm, hsum]
      show storeBytes e = storeBytes e - (entry.size : Int) + (entry.size : Int)
      omega

theorem engineClear_spec {e : CacheEngine} (h : EngineInv e) :
    EngineInv e.clearAll ∧ FrameOK e e.clearAll ∧
    e.clearAll.currentMemoryBytes ≤ (e.clearAll.memoryThreshold : Int) := by
  obtain ⟨hnd, hndp, hsub1, hsub2, hsum, hpinv, hcap⟩ := h
  have hcl := polClear_spec e.policy
  refine ⟨⟨?_, ?_, ?_, ?_, ?_, ?_, ?_⟩, ⟨rfl, rfl, hcl.2.2.2⟩, ?_⟩
  · exact List.nodup_nil
  · show e.policy.clearP.keysP.Nodup
    rw [hcl.2.1]
    exact List.nodup_nil
  · intro m hm2
    simp [CacheEngine.clearAll, akeys] at hm2
  · intro m hm2
    show m ∈ akeys ([] : List (String × CacheEntry))
    have := hm2
    rw [show e.clearAll.policy = e.policy.clearP from rfl, hcl.2.1] at this
    simp at this
  · show (0 : Int) = asum (fun en => (en.size : Int)) ([] : List (String × CacheEntry))
    rfl
  · exact hcl.2.2.1
  · show 1 ≤ e.policy.clearP.capacityP
    rw [hcl.1]
    exact hcap
  · show (0 : Int) ≤ (e.memoryThreshold : Int)
    omega

theorem cleanupGo_spec {now : Nat} :
    ∀ (snapshot : List (String × CacheEntry)) (n : Nat) (e : CacheEngine), EngineInv e →
    EngineInv (CacheEngine.cleanupGo now snapshot n e).2 ∧
    FrameOK e (CacheEngine.cleanupGo now snapshot n e).2 ∧
    (CacheEngine.cleanupGo now snapshot n e).2.currentMemoryBytes ≤ e.currentMemoryBytes := by
  intro snapshot
  induction snapshot with
  | nil =>
    intro n e h
    exact ⟨h, FrameOK.refl e, le_refl _⟩
  | cons p rest ih =>
    intro n e h
    obtain ⟨k, entry⟩ := p
    by_cases hex : isExpired now entry
    · have hred : CacheEngine.cleanupGo now ((k, entry) :: rest) n e =
          CacheEngine.cleanupGo now rest (n + 1)
            { (e.del k).2 with stats := (e.del k).2.stats.recordExpiration } := by
        simp only [CacheEngine.cleanupGo, hex]
        rfl
      obtain ⟨hd1, _, hd3, hd4⟩ := engineDel_spec (k := k) h
      obtain ⟨hi1, hi2, hi3⟩ := ih (n + 1) _ (engineInv_stats _ hd1)
      rw [hred]
      exact ⟨hi1, (hd3.trans (frameOK_stats _)).trans hi2, le_trans hi3 hd4⟩
    · have hred : CacheEngine.cleanupGo now ((k, entry) :: rest) n e =
          CacheEngine.cleanupGo now rest n e := by
        simp only [CacheEngine.cleanupGo, hex]
        rfl
      rw [hred]
      exact ih n e h

theorem engineCleanup_spec {e : CacheEngine} {now : Nat} (h : EngineInv e) :
    EngineInv (e.cleanup now).2 ∧ FrameOK e (e.cleanup now).2 ∧
    (e.cleanup now).2.currentMemoryBytes ≤ e.currentMemoryBytes :=
  cleanupGo_spec e.store 0 e h

theorem getMultipleGo_spec {now : Nat} :
    ∀ (ks : List String) (acc : List (String × Value)) (e : CacheEngine), EngineInv e →
    EngineInv (CacheEngine.getMultipleGo now ks acc e).2 ∧
    FrameOK e (CacheEngine.getMultipleGo now ks acc e).2 ∧
    (CacheEngine.getMultipleGo now ks acc e).2.currentMemoryBytes ≤ e.currentMemoryBytes := by
  intro ks
  induction ks with
  | nil =>
    intro acc e h
    exact ⟨h, FrameOK.refl e, le_refl _⟩
  | cons k rest ih =>
    intro acc e h
    obtain ⟨hg1, hg2, hg3⟩ := @engineGet_spec e now k h
    have hred : CacheEngine.getMultipleGo now (k :: rest) acc e =
        CacheEngine.getMultipleGo now rest
          (if (e.get now k).1.isNull then acc else aset k (e.get now k).1 acc)
          (e.get now k).2 := rfl
    obtain ⟨hi1, hi2, hi3⟩ := ih _ _ hg1
    rw [hred]
    exact ⟨hi1, hg2.trans hi2, le_trans hi3 hg3⟩

theorem engineGetMultiple_spec {e : CacheEngine} {now : Nat} {ks : List String}
    (h : EngineInv e) :
    EngineInv (e.getMultiple now ks).2 ∧ FrameOK e (e.getMultiple now ks).2 ∧
    (e.getMultiple now ks).2.currentMemoryBytes ≤ e.currentMemoryBytes :=
  getMultipleGo_spec ks [] e h

theorem engineSetMultiple_inv {now : Nat} :
    ∀ (entries : List (String × Value × Option Nat)) (e : CacheEngine), EngineInv e →
    EngineInv (e.setMultiple now entries).2 ∧ FrameOK e (e.setMultiple now entries).2 := by
  intro entries
  induction entries with
  | nil =>
    intro e h
    exact ⟨h, FrameOK.refl e⟩
  | cons ent rest ih =>
    intro e h
    obtain ⟨k, v, ttl⟩ := ent
    obtain ⟨hs1, hs2, _⟩ := @engineSet_spec e now k v ttl h
    obtain ⟨hi1, hi2⟩ := ih _ hs1
    exact ⟨hi1, hs2.trans hi2⟩

theorem engineDeleteMultiple_spec :
    ∀ (ks : List String) (e : CacheEngine), EngineInv e →
    EngineInv (e.deleteMultiple ks).2 ∧ FrameOK e (e.deleteMultiple ks).2 ∧
    (e.deleteMultiple ks).2.currentMemoryBytes ≤ e.currentMemoryBytes := by
  intro ks
  induction ks with
  | nil =>
    intro e h
    exact ⟨h, FrameOK.refl e, le_refl _⟩
  | cons k rest ih =>
    intro e h
    obtain ⟨hd1, _, hd3, hd4⟩ := engineDel_spec (k := k) h
    obtain ⟨hi1, hi2, hi3⟩ := ih _ hd1
    have hred : (e.deleteMultiple (k :: rest)).2 = ((e.del k).2.deleteMultiple rest).2 := rfl
    rw [hred]
    exact ⟨hi1, hd3.trans hi2, le_trans hi3 hd4⟩

theorem engineIncrement_spec {e : CacheEngine} {now : Nat} {k : String} {a : Int}
    (h : EngineInv e) :
    EngineInv (e.increment now k a).2 ∧ FrameOK e (e.increment now k a).2 := by
  obtain ⟨hg1, hg2, _⟩ := @engineGet_spec e now k h
  cases hv : (e.get now k).1 with
  | vnull =>
    have hred : (e.increment now k a).2 =
        ((e.get now k).2.set now k (Value.vnum a) none).2 := by
      simp only [CacheEngine.increment, hv]
    obtain ⟨hs1, hs2, _⟩ := @engineSet_spec (e.get now k).2 now k
      (Value.vnum a) none hg1
    rw [hred]
    exact ⟨hs1, hg2.trans hs2⟩
  | vnum n =>
    have hred : (e.increment now k a).2 =
        ((e.get now k).2.set now k (Value.vnum (n + a)) none).2 := by
      simp only [CacheEngine.increment, hv]
    obtain ⟨hs1, hs2, _⟩ := @engineSet_spec (e.get now k).2 now k
      (Value.vnum (n + a)) none hg1
    rw [hred]
    exact ⟨hs1, hg2.trans hs2⟩
  | vbool b =>
    have hred : (e.increment now k a).2 = (e.get now k).2 := by
      simp only [CacheEngine.increment, hv]
    rw [hred]; exact ⟨hg1, hg2⟩
  | vstr s =>
    have hred : (e.increment now k a).2 = (e.get now k).2 := by
      simp only [CacheEngine.increment, hv]
    rw [hred]; exact ⟨hg1, hg2⟩
  | varr l =>
    have hred : (e.increment now k a).2 = (e.get now k).2 := by
      simp only [CacheEngine.increment, hv]
    rw [hred]; exact ⟨hg1, hg2⟩
  | vobj fs =>
    have hred : (e.increment now k a).2 = (e.get now k).2 := by
      simp only [CacheEngine.increment, hv]
    rw [hred]; exact ⟨hg1, hg2⟩

theorem step_inv {e : CacheEngine} (op : Op) (h : EngineInv e) :
    EngineInv (Op.step e op) ∧ FrameOK e (Op.step e op) := by
  cases op with
  | opSet now k v ttl =>
    obtain ⟨h1, h2, _⟩ := @engineSet_spec e now k v ttl h
    exact ⟨h1, h2⟩
  | opGet now k =>
    obtain ⟨h1, h2, _⟩ := @engineGet_spec e now k h
    exact ⟨h1, h2⟩
  | opDel k =>
    obtain ⟨h1, _, h3, _⟩ := engineDel_spec (k := k) h
    exact ⟨h1, h3⟩
  | opHas now k =>
    obtain ⟨h1, h2, _⟩ := @engineExists_spec e now k h
    exact ⟨h1, h2⟩
  | opIncrement now k a =>
    exact @engineIncrement_spec e now k a h
  | opUpdateTTL now k ttl =>
    obtain ⟨h1, h2, _⟩ := @engineUpdateTTL_spec e now k ttl h
    exact ⟨h1, h2⟩
  | opClear =>
    obtain ⟨h1, h2, _⟩ := engineClear_spec h
    exact ⟨h1, h2⟩
  | opCleanup now =>
    obtain ⟨h1, h2, _⟩ := @engineCleanup_spec e now h
    exact ⟨h1, h2⟩
  | opGetMultiple now ks =>
    obtain ⟨h1, h2, _⟩ := @engineGetMultiple_spec e now ks h
    exact ⟨h1, h2⟩
  | opSetMultiple now entries =>
    exact engineSetMultiple_inv entries e h
  | opDeleteMultiple ks =>
    obtain ⟨h1, h2, _⟩ := engineDeleteMultiple_spec ks e h
    exact ⟨h1, h2⟩

theorem runOps_inv_aux :
    ∀ (ops : List Op) (e : CacheEngine), EngineInv e →
    EngineInv (runOps e ops) ∧ FrameOK e (runOps e ops) := by
  intro ops
  induction ops with
  | nil => intro e h; exact ⟨h, FrameOK.refl e⟩
  | cons op rest ih =>
    intro e h
    obtain ⟨h1, h2⟩ := step_inv op h
    obtain ⟨h3, h4⟩ := ih (Op.step e op) h1
    exact ⟨h3, h2.trans h4⟩

theorem init_inv {cfg : CacheConfig} (hcap : 1 ≤ cfg.maxKeys) :
    EngineInv (CacheEngine.init cfg) := by
  cases hkind : cfg.evictionPolicy with
  | lruKind =>
    refine ⟨List.nodup_nil, ?_, ?_, ?_, rfl, ?_, ?_⟩ <;>
      simp [CacheEngine.init, createEvictionPolicy, hkind, PolicyState.keysP,
        PolicyState.polInv, PolicyState.capacityP, hcap]
  | lfuKind =>
    refine ⟨List.nodup_nil, ?_, ?_, ?_, rfl, ?_, ?_⟩ <;>
      simp [CacheEngine.init, createEvictionPolicy, hkind, PolicyState.keysP,
        PolicyState.polInv, PolicyState.capacityP, hcap, LFUInv, akeys]
  | fifoKind =>
    refine ⟨List.nodup_nil, ?_, ?_, ?_, rfl, ?_, ?_⟩ <;>
      simp [CacheEngine.init, createEvictionPolicy, hkind, PolicyState.keysP,
        PolicyState.polInv, PolicyState.capacityP, hcap]

theorem calculateEntrySize_vnum (k : String) (x : Int) :
    calculateEntrySize k (Value.vnum x) = calculateEntrySize k (Value.vnum 0) := rfl

theorem engineSetMultiple_bound {now : Nat} :
    ∀ (entries : List (String × Value × Option Nat)) (e : CacheEngine), EngineInv e →
    e.policy.isListBacked →
    (∀ ent ∈ entries, calculateEntrySize ent.1 ent.2.1 ≤ e.memoryThreshold) →
    e.currentMemoryBytes ≤ (e.memoryThreshold : Int) →
    (e.setMultiple now entries).2.currentMemoryBytes ≤
      ((e.setMultiple now entries).2.memoryThreshold : Int) := by
  intro entries
  induction entries with
  | nil =>
    intro e h hlb hsz hb
    exact hb
  | cons ent rest ih =>
    intro e h hlb hsz hb
    obtain ⟨k, v, ttl⟩ := ent
    obtain ⟨hs1, hs2, _⟩ := @engineSet_spec e now k v ttl h
    have hb' := @engineSet_bound e now k v ttl h hlb
      (hsz (k, v, ttl) (List.mem_cons_self _ _)) hb
    have hlb' : (e.set now k v ttl).2.policy.isListBacked := hs2.2.2.mpr hlb
    have hsz' : ∀ ent ∈ rest,
        calculateEntrySize ent.1 ent.2.1 ≤ (e.set now k v ttl).2.memoryThreshold := by
      intro ent hent
      rw [hs2.1]
      exact hsz ent (List.mem_cons_of_mem _ hent)
    exact ih _ hs1 hlb' hsz' hb'

theorem step_bound {e : CacheEngine} (op : Op) (h : EngineInv e)
    (hlb : e.policy.isListBacked)
    (hb : e.currentMemoryBytes ≤ (e.memoryThreshold : Int))
    (hs : opSizesOK e.memoryThreshold op) :
    (Op.step e op).currentMemoryBytes ≤ ((Op.step e op).memoryThreshold : Int) := by
  cases op with
  | opSet now k v ttl =>
    exact @engineSet_bound e now k v ttl h hlb hs hb
  | opGet now k =>
    obtain ⟨_, h2, h3⟩ := @engineGet_spec e now k h
    show (e.get now k).2.currentMemoryBytes ≤ ((e.get now k).2.memoryThreshold : Int)
    rw [h2.1]
    omega
  | opDel k =>
    obtain ⟨_, _, h2, h3⟩ := engineDel_spec (k := k) h
    show (e.del k).2.currentMemoryBytes ≤ ((e.del k).2.memoryThreshold : Int)
    rw [h2.1]
    omega
  | opHas now k =>
    obtain ⟨_, h2, h3⟩ := @engineExists_spec e now k h
    show (e.existsKey now k).2.currentMemoryBytes ≤
      ((e.existsKey now k).2.memoryThreshold : Int)
    rw [h2.1]
    omega
  | opIncrement now k a =>
    obtain ⟨hg1, hg2, hg3⟩ := @engineGet_spec e now k h
    have hlb1 : (e.get now k).2.policy.isListBacked := hg2.2.2.mpr hlb
    have hb1 : (e.get now k).2.currentMemoryBytes ≤
        ((e.get now k).2.memoryThreshold : Int) := by
      rw [hg2.1]; omega
    have hsz : calculateEntrySize k (Value.vnum 0) ≤ e.memoryThreshold := hs
    cases hv : (e.get now k).1 with
    | vnull =>
      have hred : (e.increment now k a).2 =
          ((e.get now k).2.set now k (Value.vnum a) none).2 := by
        simp only [CacheEngine.increment, hv]
      show (e.increment now k a).2.currentMemoryBytes ≤
        ((e.increment now k a).2.memoryThreshold : Int)
      rw [hred]
      refine engineSet_bound hg1 hlb1 ?_ hb1
      rw [calculateEntrySize_vnum, hg2.1]
      exact hsz
    | vnum n =>
      have hred : (e.increment now k a).2 =
          ((e.get now k).2.set now k (Value.vnum (n + a)) none).2 := by
        simp only [CacheEngine.increment, hv]
      show (e.increment now k a).2.currentMemoryBytes ≤
        ((e.increment now k a).2.memoryThreshold : Int)
      rw [hred]
      refine engineSet_bound hg1 hlb1 ?_ hb1
      rw [calculateEntrySize_vnum, hg2.1]
      exact hsz
    | vbool b =>
      have hred : (e.increment now k a).2 = (e.get now k).2 := by
        simp only [CacheEngine.increment, hv]
      show (e.increment now k a).2.currentMemoryBytes ≤
        ((e.increment now k a).2.memoryThreshold : Int)
      rw [hred, hg2.1]
      omega
    | vstr s =>
      have hred : (e.increment now k a).2 = (e.get now k).2 := by
        simp only [CacheEngine.increment, hv]
      show (e.increment now k a).2.currentMemoryBytes ≤
        ((e.increment now k a).2.memoryThreshold : Int)
      rw [hred, hg2.1]
      omega
    | varr l =>
      have hred : (e.increment now k a).2 = (e.get now k).2 := by
        simp only [CacheEngine.increment, hv]
      show (e.increment now k a).2.currentMemoryBytes ≤
        ((e.increment now k a).2.memoryThreshold : Int)
      rw [hred, hg2.1]
      omega
    | vobj fs =>
      have hred : (e.increment now k a).2 = (e.get now k).2 := by
        simp only [CacheEngine.increment, hv]
      show (e.increment now k a).2.currentMemoryBytes ≤
        ((e.increment now k a).2.memoryThreshold : Int)
      rw [hred, hg2.1]
      omega
  | opUpdateTTL now k ttl =>
    obtain ⟨_, h2, h3⟩ := @engineUpdateTTL_spec e now k ttl h
    show (e.updateTTL now k ttl).2.currentMemoryBytes ≤
      ((e.updateTTL now k ttl).2.memoryThreshold : Int)
    rw [h2.1]
    omega
  | opClear =>
    exact (engineClear_spec h).2.2
  | opCleanup now =>
    obtain ⟨_, h2, h3⟩ := @engineCleanup_spec e now h
    show (e.cleanup now).2.currentMemoryBytes ≤ ((e.cleanup now).2.memoryThreshold : Int)
    rw [h2.1]
    omega
  | opGetMultiple now ks =>
    obtain ⟨_, h2, h3⟩ := @engineGetMultiple_spec e now ks h
    show (e.getMultiple now ks).2.currentMemoryBytes ≤
      ((e.getMultiple now ks).2.memoryThreshold : Int)
    rw [h2.1]
    omega
  | opSetMultiple now entries =>
    exact engineSetMultiple_bound entries e h hlb hs hb
  | opDeleteMultiple ks =>
    obtain ⟨_, h2, h3⟩ := engineDeleteMultiple_spec ks e h
    show (e.deleteMultiple ks).2.currentMemoryBytes ≤
      ((e.deleteMultiple ks).2.memoryThreshold : Int)
    rw [h2.1]
    omega

theorem runOps_bound_aux :
    ∀ (ops : List Op) (e : CacheEngine), EngineInv e → e.policy.isListBacked →
    e.currentMemoryBytes ≤ (e.memoryThreshold : Int) →
    (∀ op ∈ ops, opSizesOK e.memoryThreshold op) →
    (runOps e ops).currentMemoryBytes ≤ ((runOps e ops).memoryThreshold : Int) := by
  intro ops
  induction ops with
  | nil => intro e _ _ hb _; exact hb
  | cons op rest ih =>
    intro e h hlb hb hsz
    obtain ⟨h1, h2⟩ := step_inv op h
    have hb' := step_bound op h hlb hb (hsz op (List.mem_cons_self _ _))
    have hlb' : (Op.step e op).policy.isListBacked := h2.2.2.mpr hlb
    have hsz' : ∀ o ∈ rest, opSizesOK (Op.step e op).memoryThreshold o := by
      intro o ho
      rw [h2.1]
      exact hsz o (List.mem_cons_of_mem _ ho)
    exact ih (Op.step e op) h1 hlb' hb' hsz'

theorem init_listBacked {cfg : CacheConfig}
    (hlb : cfg.evictionPolicy = PolicyKind.lruKind ∨
           cfg.evictionPolicy = PolicyKind.fifoKind) :
    (CacheEngine.init cfg).policy.isListBacked := by
  rcases hlb with hh | hh <;>
    simp [CacheEngine.init, createEvictionPolicy, hh, PolicyState.isListBacked]

theorem threshold_le_maxBytes (cfg : CacheConfig) :
    (CacheEngine.init cfg).memoryThreshold ≤ (CacheEngine.init cfg).maxMemoryBytes := by
  show cfg.maxMemoryMB * 1024 * 1024 * 9 / 10 ≤ cfg.maxMemoryMB * 1024 * 1024
  have h1 : cfg.maxMemoryMB * 1024 * 1024 * 9 ≤ cfg.maxMemoryMB * 1024 * 1024 * 10 := by
    omega
  calc cfg.maxMemoryMB * 1024 * 1024 * 9 / 10
      ≤ cfg.maxMemoryMB * 1024 * 1024 * 10 / 10 := Nat.div_le_div_right h1
    _ = cfg.maxMemoryMB * 1024 * 1024 := Nat.mul_div_cancel _ (by omega)

end EngineLemmas

section ClaimOneTwo

/-- Claim C2 (amended): for every configuration with `maxKeys ≥ 1` and every
sequence of public operations, the primary map and the replacement-policy
structure hold exactly the same key set (so `|primary map| = policy.size()`,
the length of the policy's key list), and `currentBytes` equals the sum of
the `size` fields of all resident entries. (As stated the claim also
covered `maxKeys = 0`, where a SET leaves the entry in the primary map but
not in the policy — see the counterexample.) -/
theorem c2_key_sync_amended (cfg : CacheConfig) (ops : List Op) (hcap : 1 ≤ cfg.maxKeys) :
    (∀ m, m ∈ akeys (runOps (CacheEngine.init cfg) ops).store ↔
        m ∈ (runOps (CacheEngine.init cfg) ops).policy.keysP) ∧
    (runOps (CacheEngine.init cfg) ops).store.length =
      (runOps (CacheEngine.init cfg) ops).policy.keysP.length ∧
    (runOps (CacheEngine.init cfg) ops).currentMemoryBytes =
      storeBytes (runOps (CacheEngine.init cfg) ops) := by
  obtain ⟨hnd, hndp, hsub1, hsub2, hsum, _, _⟩ := (runOps_inv_aux ops _ (init_inv hcap)).1
  refine ⟨fun m => ⟨hsub1 m, hsub2 m⟩, ?_, hsum⟩
  have hlen := nodup_length_eq_of_mem_iff hnd hndp (fun m => ⟨hsub1 m, hsub2 m⟩)
  simpa [akeys] using hlen

/-- Witness for the amended claim C2 at a concrete configuration and
operation sequence. -/
theorem c2_key_sync_amended_witness :
    (∀ m, m ∈ akeys (runOps (CacheEngine.init plainCfg)
        [Op.opSet 0 "a" (Value.vnum 1) none]).store ↔
        m ∈ (runOps (CacheEngine.init plainCfg)
        [Op.opSet 0 "a" (Value.vnum 1) none]).policy.keysP) ∧
    (runOps (CacheEngine.init plainCfg) [Op.opSet 0 "a" (Value.vnum 1) none]).store.length =
      (runOps (CacheEngine.init plainCfg)
        [Op.opSet 0 "a" (Value.vnum 1) none]).policy.keysP.length ∧
    (runOps (CacheEngine.init plainCfg)
        [Op.opSet 0 "a" (Value.vnum 1) none]).currentMemoryBytes =
      storeBytes (runOps (CacheEngine.init plainCfg) [Op.opSet 0 "a" (Value.vnum 1) none]) :=
  c2_key_sync_amended plainCfg [Op.opSet 0 "a" (Value.vnum 1) none] (by decide)

/-- Claim C1 (amended): for every configuration with `maxKeys ≥ 1` and an
LRU or FIFO policy, and every sequence of public operations in which each
inserted entry's computed size fits under the memory threshold,
`currentBytes ≤ maxBytes` holds in every observable state; and from every
reachable state, SET's eviction loop runs until
`currentBytes + incomingEntrySize ≤ threshold` or the primary map is empty.
(As stated the claim fails: a single oversized entry — or any entry when
`maxMemoryMB = 0` — is inserted after the loop empties the map and pushes
`currentBytes` past `maxBytes`; and under LFU the mis-maintained
`minFrequency` of C3/C4 can make `evict()` fail with resident keys, so the
loop can stop early.) -/
theorem c1_memory_bound_amended (cfg : CacheConfig) (ops : List Op)
    (hcap : 1 ≤ cfg.maxKeys)
    (hpol : cfg.evictionPolicy = PolicyKind.lruKind ∨
            cfg.evictionPolicy = PolicyKind.fifoKind)
    (hsizes : ∀ op ∈ ops, opSizesOK (CacheEngine.init cfg).memoryThreshold op) :
    (runOps (CacheEngine.init cfg) ops).currentMemoryBytes ≤
      ((runOps (CacheEngine.init cfg) ops).maxMemoryBytes : Int) ∧
    (∀ required : Nat,
      ((runOps (CacheEngine.init cfg) ops).enforceMemoryLimit required).currentMemoryBytes +
          (required : Int) ≤
        (((runOps (CacheEngine.init cfg) ops).enforceMemoryLimit
            required).memoryThreshold : Int) ∨
      ((runOps (CacheEngine.init cfg) ops).enforceMemoryLimit required).store = []) := by
  have hinv0 := init_inv hcap
  have hlb0 := init_listBacked hpol
  obtain ⟨hinvF, hfrF⟩ := runOps_inv_aux ops _ hinv0
  have hb0 : (CacheEngine.init cfg).currentMemoryBytes ≤
      ((CacheEngine.init cfg).memoryThreshold : Int) := by
    show (0 : Int) ≤ ((CacheEngine.init cfg).memoryThreshold : Int)
    omega
  have hbF := runOps_bound_aux ops _ hinv0 hlb0 hb0 hsizes
  have hlbF : (runOps (CacheEngine.init cfg) ops).policy.isListBacked := hfrF.2.2.mpr hlb0
  constructor
  · have h1 := hfrF.1
    have h2 := hfrF.2.1
    have h3 := threshold_le_maxBytes cfg
    omega
  · intro required
    exact enforce_post hinvF hlbF

/-- Witness for the amended claim C1 at a concrete configuration and
operation sequence. -/
theorem c1_memory_bound_amended_witness :
    (runOps (CacheEngine.init plainCfg)
        [Op.opSet 0 "b" (Value.vstr "xy") none]).currentMemoryBytes ≤
      ((runOps (CacheEngine.init plainCfg)
        [Op.opSet 0 "b" (Value.vstr "xy") none]).maxMemoryBytes : Int) ∧
    (∀ required : Nat,
      ((runOps (CacheEngine.init plainCfg)
          [Op.opSet 0 "b" (Value.vstr "xy") none]).enforceMemoryLimit
            required).currentMemoryBytes + (required : Int) ≤
        (((runOps (CacheEngine.init plainCfg)
          [Op.opSet 0 "b" (Value.vstr "xy") none]).enforceMemoryLimit
            required).memoryThreshold : Int) ∨
      ((runOps (CacheEngine.init plainCfg)
          [Op.opSet 0 "b" (Value.vstr "xy") none]).enforceMemoryLimit
            required).store = []) :=
  c1_memory_bound_amended plainCfg [Op.opSet 0 "b" (Value.vstr "xy") none]
    (by decide) (Or.inl rfl) (by decide)

end ClaimOneTwo

section ClaimNine

/-- Claim C9: for every list of 1 to 100 entries, BATCH-SET leaves the
engine in exactly the same state (store, memory accounting, policy and
statistics — the whole `CacheEngine` value) as the same number of
individual SETs of the same entries applied in the same order, and
reports success. -/
theorem c9_batch_set_equivalence (e : CacheEngine) (now : Nat)
    (entries : List (String × Value × Option Nat))
    (hlen : 1 ≤ entries.length ∧ entries.length ≤ 100) :
    (e.setMultiple now entries).1 = true ∧
    (e.setMultiple now entries).2 =
      List.foldl (fun s ent => (s.set now ent.1 ent.2.1 ent.2.2).2) e entries := by
  clear hlen
  induction entries generalizing e with
  | nil => exact ⟨rfl, rfl⟩
  | cons ent rest ih =>
    obtain ⟨k, v, ttl⟩ := ent
    exact ⟨(ih ((e.set now k v ttl).2)).1, (ih ((e.set now k v ttl).2)).2⟩

/-- Witness for claim C9 at a concrete engine and batch. -/
theorem c9_batch_set_equivalence_witness :
    ((CacheEngine.init plainCfg).setMultiple 0 [("a", Value.vnum 1, none)]).1 = true ∧
    ((CacheEngine.init plainCfg).setMultiple 0 [("a", Value.vnum 1, none)]).2 =
      List.foldl (fun s ent => (s.set 0 ent.1 ent.2.1 ent.2.2).2) (CacheEngine.init plainCfg)
        [("a", Value.vnum 1, none)] :=
  c9_batch_set_equivalence (CacheEngine.init plainCfg) 0 [("a", Value.vnum 1, none)]
    (by decide)

end ClaimNine

section ExpiryAndNullLemmas

theorem engineGet_store_nodup {e : CacheEngine} {now : Nat} {j : String}
    (hnd : (akeys e.store).Nodup) : (akeys (e.get now j).2.store).Nodup := by
  cases hm : alookup j e.store with
  | none =>
    have hred : (e.get now j).2.store = e.store := by
      simp only [CacheEngine.get, hm]
    rw [hred]; exact hnd
  | some entry =>
    by_cases hex : isExpired now entry
    · have hred : (e.get now j).2.store = aerase j e.store := by
        simp only [CacheEngine.get, hm, hex, CacheEngine.del]
        rfl
      rw [hred]
      exact nodup_akeys_aerase hnd
    · have hred : (e.get now j).2.store = e.store := by
        simp only [CacheEngine.get, hm, hex]
        rfl
      rw [hred]; exact hnd

theorem getMultipleGo_gone_aux {now : Nat} {k : String} :
    ∀ (ks : List String) (acc : List (String × Value)) (e : CacheEngine),
    (akeys e.store).Nodup →
    ((∃ entry, alookup k e.store = some entry ∧ isExpired now entry = true) ∨
      alookup k e.store = none) →
    k ∉ akeys acc →
    ((k ∈ ks ∨ alookup k e.store = none) →
      alookup k (CacheEngine.getMultipleGo now ks acc e).2.store = none) ∧
    k ∉ akeys (CacheEngine.getMultipleGo now ks acc e).1 := by
  intro ks
  induction ks with
  | nil =>
    intro acc e hnd hprop hacc
    refine ⟨?_, hacc⟩
    rintro (hk | hk)
    · simp at hk
    · exact hk
  | cons j rest ih =>
    intro acc e hnd hprop hacc
    have hnd' : (akeys (e.get now j).2.store).Nodup := engineGet_store_nodup hnd
    by_cases hjk : j = k
    · -- the step that touches `k` itself: it either expires it away or
      -- finds nothing; either way the value returned is null
      subst hjk
      have hgone : alookup j (e.get now j).2.store = none ∧ (e.get now j).1 = Value.vnull := by
        rcases hprop with ⟨entry, hm, hex⟩ | hm
        · have := engineGet_expired hnd hm hex
          exact ⟨this.2.1, this.1⟩
        · have hred : (e.get now j).2.store = e.store := by
            simp only [CacheEngine.get, hm]
          rw [hred]
          exact ⟨hm, engineGet_miss hm⟩
      have hred : CacheEngine.getMultipleGo now (j :: rest) acc e =
          CacheEngine.getMultipleGo now rest
            (if (e.get now j).1.isNull then acc else aset j (e.get now j).1 acc)
            (e.get now j).2 := rfl
      rw [hred, hgone.2]
      have hih := ih acc (e.get now j).2 hnd' (Or.inr hgone.1) hacc
      refine ⟨fun _ => hih.1 (Or.inr hgone.1), ?_⟩
      simpa [Value.isNull] using hih.2
    · have hbind : alookup k (e.get now j).2.store = alookup k e.store :=
        engineGet_other (Ne.symm (fun hh => hjk hh.symm))
      have hprop' : ((∃ entry, alookup k (e.get now j).2.store = some entry ∧
          isExpired now entry = true) ∨ alookup k (e.get now j).2.store = none) := by
        rw [hbind]; exact hprop
      have hacc' : k ∉ akeys (if (e.get now j).1.isNull then acc
          else aset j (e.get now j).1 acc) := by
        by_cases hn : (e.get now j).1.isNull
        · simpa [hn] using hacc
        · simp only [if_neg hn]
          intro hk2
          by_cases hja : j ∈ akeys acc
          · rw [akeys_aset_of_mem hja] at hk2
            exact hacc hk2
          · rw [akeys_aset_of_not_mem hja] at hk2
            rcases List.mem_append.mp hk2 with hh | hh
            · exact hacc hh
            · have hh' : k = j := by simpa using hh
              exact hjk hh'.symm
      have hred : CacheEngine.getMultipleGo now (j :: rest) acc e =
          CacheEngine.getMultipleGo now rest
            (if (e.get now j).1.isNull then acc else aset j (e.get now j).1 acc)
            (e.get now j).2 := rfl
      rw [hred]
      have hih := ih _ (e.get now j).2 hnd' hprop' hacc'
      refine ⟨?_, hih.2⟩
      rintro (hk | hk)
      · rcases List.mem_cons.mp hk with hh | hh
        · exact absurd hh.symm hjk
        · exact hih.1 (Or.inl hh)
      · have hk' : alookup k (e.get now j).2.store = none := by
          rw [hbind]; exact hk
        exact hih.1 (Or.inr hk')

theorem getMultipleGo_null_aux {now : Nat} {k : String} :
    ∀ (ks : List String) (acc : List (String × Value)) (e : CacheEngine),
    (∃ entry, alookup k e.store = some entry ∧ entry.value = Value.vnull ∧
      isExpired now entry = false) →
    k ∉ akeys acc →
    k ∉ akeys (CacheEngine.getMultipleGo now ks acc e).1 := by
  intro ks
  induction ks with
  | nil => intro acc e _ hacc; exact hacc
  | cons j rest ih =>
    intro acc e hprop hacc
    obtain ⟨entry, hm, hnull, hex⟩ := hprop
    have hred : CacheEngine.getMultipleGo now (j :: rest) acc e =
        CacheEngine.getMultipleGo now rest
          (if (e.get now j).1.isNull then acc else aset j (e.get now j).1 acc)
          (e.get now j).2 := rfl
    rw [hred]
    by_cases hjk : j = k
    · subst hjk
      have hhit := engineGet_hit hm (by simpa using hex)
      have hv : (e.get now j).1 = Value.vnull := by rw [hhit.1, hnull]
      have hstore : (e.get now j).2.store = e.store := hhit.2.1
      refine ih _ _ ⟨entry, ?_, hnull, hex⟩ ?_
      · rw [hstore]; exact hm
      · simpa [hv, Value.isNull] using hacc
    · have hbind : alookup k (e.get now j).2.store = alookup k e.store :=
        engineGet_other (Ne.symm (fun hh => hjk hh.symm))
      have hacc' : k ∉ akeys (if (e.get now j).1.isNull then acc
          else aset j (e.get now j).1 acc) := by
        by_cases hn : (e.get now j).1.isNull
        · simpa [hn] using hacc
        · simp only [if_neg hn]
          intro hk2
          by_cases hja : j ∈ akeys acc
          · rw [akeys_aset_of_mem hja] at hk2
            exact hacc hk2
          · rw [akeys_aset_of_not_mem hja] at hk2
            rcases List.mem_append.mp hk2 with hh | hh
            · exact hacc hh
            · have hh' : k = j := by simpa using hh
              exact hjk hh'.symm
      have hm' : alookup k (e.get now j).2.store = some entry := by
        rw [hbind]; exact hm
      exact ih _ _ ⟨entry, hm', hnull, hex⟩ hacc'

end ExpiryAndNullLemmas

section ClaimSixSevenTen

/-- Claim C6 (amended): GET, EXISTS, and batch GET do remove an expired
entry they encounter before returning — GET returns the null miss sentinel,
counts one expiration and leaves the key absent; EXISTS returns false and
leaves the key absent; batch GET leaves the key absent and omits it from
its result. UPDATE-TTL, however, rewrites the expiration of an expired
resident entry and returns true without removing it, and KEYS lists
expired resident keys — so the claim's "every public API operation that
reads an entry" is amended to exactly GET, EXISTS and batch GET (see the
counterexample). -/
theorem c6_lazy_expiry_amended (e : CacheEngine) (now : Nat) (k : String)
    (entry : CacheEntry) (hnd : (akeys e.store).Nodup)
    (hm : alookup k e.store = some entry) (hex : isExpired now entry = true) :
    ((e.get now k).1 = Value.vnull ∧ alookup k (e.get now k).2.store = none ∧
      (e.get now k).2.stats.expirations = e.stats.expirations + 1) ∧
    ((e.existsKey now k).1 = false ∧ alookup k (e.existsKey now k).2.store = none) ∧
    (∀ ks, k ∈ ks → alookup k (e.getMultiple now ks).2.store = none ∧
      k ∉ akeys (e.getMultiple now ks).1) := by
  obtain ⟨hg1, hg2, hg3⟩ := engineGet_expired hnd hm hex
  obtain ⟨he1, he2⟩ := engineExists_expired hnd hm hex
  refine ⟨⟨hg1, hg2, hg3⟩, ⟨he1, he2⟩, ?_⟩
  intro ks hk
  have haux := getMultipleGo_gone_aux ks [] e hnd (Or.inl ⟨entry, hm, hex⟩) (by simp)
  exact ⟨haux.1 (Or.inl hk), haux.2⟩

/-- Witness for the amended claim C6: a reachable engine holding
`"a" = 1` with `expiresAt = 5`, observed at time 100. -/
theorem c6_lazy_expiry_amended_witness :
    ((expiredEngine.get 100 "a").1 = Value.vnull ∧
      alookup "a" (expiredEngine.get 100 "a").2.store = none ∧
      (expiredEngine.get 100 "a").2.stats.expirations =
        expiredEngine.stats.expirations + 1) ∧
    ((expiredEngine.existsKey 100 "a").1 = false ∧
      alookup "a" (expiredEngine.existsKey 100 "a").2.store = none) ∧
    (∀ ks, "a" ∈ ks → alookup "a" (expiredEngine.getMultiple 100 ks).2.store = none ∧
      "a" ∉ akeys (expiredEngine.getMultiple 100 ks).1) :=
  c6_lazy_expiry_amended expiredEngine 100 "a"
    { value := Value.vnum 1, expiresAt := some 5, size := 73 } (by decide) rfl (by decide)

/-- Claim C7 (amended): INCREMENT(k, a) on a missing key sets `k = a` and
returns `a`; on a live numeric value `v` it sets `k = v + a` and returns
`v + a`; on a live non-null, non-numeric value it fails with a type error
and leaves the resident entries and memory accounting unchanged (the
failed read still records a hit and refreshes the key's policy position);
and on a key holding the JSON value `null` it behaves as if the key were
missing, overwriting it with `a` — the unamended "any present non-numeric
value fails" is refuted by the null case (see the counterexample). -/
theorem c7_increment_amended (e : CacheEngine) (now : Nat) (k : String) (a : Int)
    (hinv : EngineInv e) :
    (alookup k e.store = none →
      (e.increment now k a).1 = Except.ok a ∧
      (alookup k ((e.increment now k a).2).store).map (fun en => en.value) =
        some (Value.vnum a)) ∧
    (∀ entry n, alookup k e.store = some entry → entry.value = Value.vnum n →
      isExpired now entry = false →
      (e.increment now k a).1 = Except.ok (n + a) ∧
      (alookup k ((e.increment now k a).2).store).map (fun en => en.value) =
        some (Value.vnum (n + a))) ∧
    (∀ entry, alookup k e.store = some entry → isExpired now entry = false →
      entry.value.isNull = false → entry.value.isNum = false →
      (e.increment now k a).1 = Except.error () ∧
      (e.increment now k a).2.store = e.store ∧
      (e.increment now k a).2.currentMemoryBytes = e.currentMemoryBytes ∧
      (e.increment now k a).2.stats.hits = e.stats.hits + 1) ∧
    (∀ entry, alookup k e.store = some entry → entry.value = Value.vnull →
      isExpired now entry = false →
      (e.increment now k a).1 = Except.ok a ∧
      (alookup k ((e.increment now k a).2).store).map (fun en => en.value) =
        some (Value.vnum a)) := by
  have hginv := (@engineGet_spec e now k hinv).1
  refine ⟨?_, ?_, ?_, ?_⟩
  · intro hm
    have hv : (e.get now k).1 = Value.vnull := engineGet_miss hm
    have hred : e.increment now k a =
        (Except.ok a, ((e.get now k).2.set now k (Value.vnum a) none).2) := by
      simp only [CacheEngine.increment, hv]
    obtain ⟨_, _, hlook⟩ := @engineSet_spec (e.get now k).2 now k
      (Value.vnum a) none hginv
    rw [hred]
    exact ⟨rfl, by rw [hlook]; rfl⟩
  · intro entry n hm hval hex
    have hhit := engineGet_hit hm hex
    have hv : (e.get now k).1 = Value.vnum n := by rw [hhit.1, hval]
    have hred : e.increment now k a =
        (Except.ok (n + a), ((e.get now k).2.set now k (Value.vnum (n + a)) none).2) := by
      simp only [CacheEngine.increment, hv]
    obtain ⟨_, _, hlook⟩ := @engineSet_spec (e.get now k).2 now k
      (Value.vnum (n + a)) none hginv
    rw [hred]
    exact ⟨rfl, by rw [hlook]; rfl⟩
  · intro entry hm hex hnull hnum
    have hhit := engineGet_hit hm hex
    have herr : e.increment now k a = (Except.error (), (e.get now k).2) := by
      cases hval : entry.value with
      | vnull => rw [hval] at hnull; simp [Value.isNull] at hnull
      | vnum n => rw [hval] at hnum; simp [Value.isNum] at hnum
      | vbool b =>
        have hv : (e.get now k).1 = Value.vbool b := by rw [hhit.1, hval]
        simp only [CacheEngine.increment, hv]
      | vstr s =>
        have hv : (e.get now k).1 = Value.vstr s := by rw [hhit.1, hval]
        simp only [CacheEngine.increment, hv]
      | varr l =>
        have hv : (e.get now k).1 = Value.varr l := by rw [hhit.1, hval]
        simp only [CacheEngine.increment, hv]
      | vobj fs =>
        have hv : (e.get now k).1 = Value.vobj fs := by rw [hhit.1, hval]
        simp only [CacheEngine.increment, hv]
    rw [herr]
    exact ⟨rfl, hhit.2.1, hhit.2.2.2, hhit.2.2.1⟩
  · intro entry hm hval hex
    have hhit := engineGet_hit hm hex
    have hv : (e.get now k).1 = Value.vnull := by rw [hhit.1, hval]
    have hred : e.increment now k a =
        (Except.ok a, ((e.get now k).2.set now k (Value.vnum a) none).2) := by
      simp only [CacheEngine.increment, hv]
    obtain ⟨_, _, hlook⟩ := @engineSet_spec (e.get now k).2 now k
      (Value.vnum a) none hginv
    rw [hred]
    exact ⟨rfl, by rw [hlook]; rfl⟩

/-- Witness for the amended claim C7 at a concrete reachable engine. -/
theorem c7_increment_amended_witness :
    (alookup "b" nullValueEngine.store = none →
      (nullValueEngine.increment 1 "b" 5).1 = Except.ok 5 ∧
      (alookup "b" ((nullValueEngine.increment 1 "b" 5).2).store).map
          (fun en => en.value) = some (Value.vnum 5)) ∧
    (∀ entry n, alookup "b" nullValueEngine.store = some entry →
      entry.value = Value.vnum n → isExpired 1 entry = false →
      (nullValueEngine.increment 1 "b" 5).1 = Except.ok (n + 5) ∧
      (alookup "b" ((nullValueEngine.increment 1 "b" 5).2).store).map
          (fun en => en.value) = some (Value.vnum (n + 5))) ∧
    (∀ entry, alookup "b" nullValueEngine.store = some entry →
      isExpired 1 entry = false →
      entry.value.isNull = false → entry.value.isNum = false →
      (nullValueEngine.increment 1 "b" 5).1 = Except.error () ∧
      (nullValueEngine.increment 1 "b" 5).2.store = nullValueEngine.store ∧
      (nullValueEngine.increment 1 "b" 5).2.currentMemoryBytes =
        nullValueEngine.currentMemoryBytes ∧
      (nullValueEngine.increment 1 "b" 5).2.stats.hits =
        nullValueEngine.stats.hits + 1) ∧
    (∀ entry, alookup "b" nullValueEngine.store = some entry →
      entry.value = Value.vnull → isExpired 1 entry = false →
      (nullValueEngine.increment 1 "b" 5).1 = Except.ok 5 ∧
      (alookup "b" ((nullValueEngine.increment 1 "b" 5).2).store).map
          (fun en => en.value) = some (Value.vnum 5)) :=
  c7_increment_amended nullValueEngine 1 "b" 5 (by decide)

/-- Claim C10: a key holding the JSON value `null` is indistinguishable
from an absent key through GET's return value (the same `null` sentinel),
although the read records a hit and the key stays resident with its entry
untouched; consequently batch GET omits such keys from its result, and
INCREMENT on such a key behaves as if it were missing, overwriting it with
the amount instead of raising a type error. -/
theorem c10_null_value_sentinel (e : CacheEngine) (now : Nat) (k : String) (a : Int)
    (entry : CacheEntry) (hinv : EngineInv e)
    (hm : alookup k e.store = some entry) (hnull : entry.value = Value.vnull)
    (hex : isExpired now entry = false) :
    (e.get now k).1 = Value.vnull ∧
    (∀ j, alookup j e.store = none → (e.get now j).1 = Value.vnull) ∧
    (e.get now k).2.stats.hits = e.stats.hits + 1 ∧
    alookup k (e.get now k).2.store = some entry ∧
    (∀ ks, k ∉ akeys (e.getMultiple now ks).1) ∧
    (e.increment now k a).1 = Except.ok a ∧
    (alookup k ((e.increment now k a).2).store).map (fun en => en.value) =
      some (Value.vnum a) := by
  have hhit := engineGet_hit hm hex
  have hc7 := c7_increment_amended e now k a hinv
  refine ⟨by rw [hhit.1, hnull], fun j hj => engineGet_miss hj, hhit.2.2.1, ?_, ?_, ?_, ?_⟩
  · rw [hhit.2.1]
    exact hm
  · intro ks
    exact getMultipleGo_null_aux ks [] e ⟨entry, hm, hnull, hex⟩ (by simp)
  · exact (hc7.2.2.2 entry hm hnull hex).1
  · exact (hc7.2.2.2 entry hm hnull hex).2

/-- Witness for claim C10 at a concrete reachable engine holding
`"a" = null`. -/
theorem c10_null_value_sentinel_witness :
    (nullValueEngine.get 1 "a").1 = Value.vnull ∧
    (∀ j, alookup j nullValueEngine.store = none →
      (nullValueEngine.get 1 j).1 = Value.vnull) ∧
    (nullValueEngine.get 1 "a").2.stats.hits = nullValueEngine.stats.hits + 1 ∧
    alookup "a" (nullValueEngine.get 1 "a").2.store =
      some { value := Value.vnull, expiresAt := none, size := 73 } ∧
    (∀ ks, "a" ∉ akeys (nullValueEngine.getMultiple 1 ks).1) ∧
    (nullValueEngine.increment 1 "a" 5).1 = Except.ok 5 ∧
    (alookup "a" ((nullValueEngine.increment 1 "a" 5).2).store).map
        (fun en => en.value) = some (Value.vnum 5) :=
  c10_null_value_sentinel nullValueEngine 1 "a" 5
    { value := Value.vnull, expiresAt := none, size := 73 } (by decide) rfl rfl (by decide)

end ClaimSixSevenTen

section ClaimEight

variable {K : Type} {V : Type} [DecidableEq K]

theorem lruStampInv_step {r : LRURun K V} (op : LRUOp K V)
    (h : LRUStampInv r) : LRUStampInv (lruStep r op) := by
  obtain ⟨hnd, hbound, hpair⟩ := h
  cases op with
  | get k =>
    cases hm : alookup k r.state.order with
    | none =>
      have hred : lruStep r (LRUOp.get k) =
          { state := r.state, stamp := r.stamp, time := r.time + 1 } := by
        simp [lruStep, LRUPolicy.get, hm]
      rw [hred]
      exact ⟨hnd, fun m hm2 => Nat.lt_succ_of_lt (hbound m hm2), hpair⟩
    | some v =>
      have hred : lruStep r (LRUOp.get k) =
          { state := { r.state with order := (k, v) :: aerase k r.state.order },
            stamp := Function.update r.stamp k r.time,
            time := r.time + 1 } := by
        simp [lruStep, LRUPolicy.get, hm]
      have hkm : k ∈ akeys r.state.order := mem_akeys_of_alookup hm
      rw [hred]
      refine ⟨?_, ?_, ?_⟩
      · show (akeys ((k, v) :: aerase k r.state.order)).Nodup
        rw [akeys_cons, akeys_aerase]
        exact List.nodup_cons.mpr ⟨hnd.not_mem_erase, hnd.erase k⟩
      · intro m hm2
        show (Function.update r.stamp k r.time) m < r.time + 1
        rw [akeys_cons, akeys_aerase] at hm2
        rcases List.mem_cons.mp hm2 with hh | hh
        · subst hh
          rw [Function.update_same]
          omega
        · have hne : m ≠ k := (hnd.mem_erase_iff.mp hh).1
          rw [Function.update_noteq hne]
          have := hbound m (List.mem_of_mem_erase hh)
          omega
      · show (akeys ((k, v) :: aerase k r.state.order)).Pairwise
          (fun a b => (Function.update r.stamp k r.time) b <
            (Function.update r.stamp k r.time) a)
        rw [akeys_cons, akeys_aerase]
        refine List.pairwise_cons.mpr ⟨?_, ?_⟩
        · intro m hm2
          have hne : m ≠ k := (hnd.mem_erase_iff.mp hm2).1
          rw [Function.update_same, Function.update_noteq hne]
          exact hbound m (List.mem_of_mem_erase hm2)
        · have hsub := hpair.sublist (List.erase_sublist k (akeys r.state.order))
          refine hsub.imp_of_mem ?_
          intro a b ha hb hab
          have hnea : a ≠ k := (hnd.mem_erase_iff.mp ha).1
          have hneb : b ≠ k := (hnd.mem_erase_iff.mp hb).1
          rw [Function.update_noteq hnea, Function.update_noteq hneb]
          exact hab
  | set k v =>
    cases hm : alookup k r.state.order with
    | some v0 =>
      have hred : lruStep r (LRUOp.set k v) =
          { state := { r.state with order := (k, v) :: aerase k r.state.order },
            stamp := Function.update r.stamp k r.time,
            time := r.time + 1 } := by
        simp [lruStep, LRUPolicy.set, hm]
      have hkm : k ∈ akeys r.state.order := mem_akeys_of_alookup hm
      rw [hred]
      refine ⟨?_, ?_, ?_⟩
      · show (akeys ((k, v) :: aerase k r.state.order)).Nodup
        rw [akeys_cons, akeys_aerase]
        exact List.nodup_cons.mpr ⟨hnd.not_mem_erase, hnd.erase k⟩
      · intro m hm2
        show (Function.update r.stamp k r.time) m < r.time + 1
        rw [akeys_cons, akeys_aerase] at hm2
        rcases List.mem_cons.mp hm2 with hh | hh
        · subst hh
          rw [Function.update_same]
          omega
        · have hne : m ≠ k := (hnd.mem_erase_iff.mp hh).1
          rw [Function.update_noteq hne]
          have := hbound m (List.mem_of_mem_erase hh)
          omega
      · show (akeys ((k, v) :: aerase k r.state.order)).Pairwise
          (fun a b => (Function.update r.stamp k r.time) b <
            (Function.update r.stamp k r.time) a)
        rw [akeys_cons, akeys_aerase]
        refine List.pairwise_cons.mpr ⟨?_, ?_⟩
        · intro m hm2
          have hne : m ≠ k := (hnd.mem_erase_iff.mp hm2).1
          rw [Function.update_same, Function.update_noteq hne]
          exact hbound m (List.mem_of_mem_erase hm2)
        · have hsub := hpair.sublist (List.erase_sublist k (akeys r.state.order))
          refine hsub.imp_of_mem ?_
          intro a b ha hb hab
          have hnea : a ≠ k := (hnd.mem_erase_iff.mp ha).1
          have hneb : b ≠ k := (hnd.mem_erase_iff.mp hb).1
          rw [Function.update_noteq hnea, Function.update_noteq hneb]
          exact hab
    | none =>
      have hk : k ∉ akeys r.state.order := alookup_eq_none_iff.mp hm
      by_cases hcap : r.state.capacity = 0
      · have hred : lruStep r (LRUOp.set k v) =
            { state := r.state, stamp := r.stamp, time := r.time + 1 } := by
          simp [lruStep, LRUPolicy.set, hm, hcap]
        rw [hred]
        exact ⟨hnd, fun m hm2 => Nat.lt_succ_of_lt (hbound m hm2), hpair⟩
      · -- insertion path: the surviving suffix of the old order is a sublist
        have hmain : ∀ q : List (K × V), List.Sublist q r.state.order →
            ((akeys ((k, v) :: q)).Nodup ∧
             (∀ m ∈ akeys ((k, v) :: q), (Function.update r.stamp k r.time) m < r.time + 1) ∧
             (akeys ((k, v) :: q)).Pairwise
               (fun a b => (Function.update r.stamp k r.time) b <
                 (Function.update r.stamp k r.time) a)) := by
          intro q hsubq
          have hsubk := hsubq.map Prod.fst
          have hqsub : ∀ m ∈ akeys q, m ∈ akeys r.state.order :=
            fun m hm2 => hsubk.subset hm2
          have hknq : k ∉ akeys q := fun hh => hk (hqsub k hh)
          refine ⟨?_, ?_, ?_⟩
          · rw [akeys_cons]
            exact List.nodup_cons.mpr ⟨hknq, hnd.sublist hsubk⟩
          · intro m hm2
            rw [akeys_cons] at hm2
            rcases List.mem_cons.mp hm2 with hh | hh
            · subst hh
              rw [Function.update_same]
              omega
            · have hne : m ≠ k := fun he => hknq (he ▸ hh)
              rw [Function.update_noteq hne]
              have := hbound m (hqsub m hh)
              omega
          · rw [akeys_cons]
            refine List.pairwise_cons.mpr ⟨?_, ?_⟩
            · intro m hm2
              have hne : m ≠ k := fun he => hknq (he ▸ hm2)
              rw [Function.update_same, Function.update_noteq hne]
              exact hbound m (hqsub m hm2)
            · have hsubp := hpair.sublist hsubk
              refine hsubp.imp_of_mem ?_
              intro a b ha hb hab
              have hnea : a ≠ k := fun he => hknq (he ▸ ha)
              have hneb : b ≠ k := fun he => hknq (he ▸ hb)
              rw [Function.update_noteq hnea, Function.update_noteq hneb]
              exact hab
        by_cases hfull : 0 < r.state.capacity ∧ r.state.capacity ≤ r.state.order.length
        · have hred : lruStep r (LRUOp.set k v) =
              { state := { r.state with
                  order := (k, v) :: (r.state.evictLRU).2.order },
                stamp := Function.update r.stamp k r.time,
                time := r.time + 1 } := by
            simp [lruStep, LRUPolicy.set, hm, hcap, hfull]
          have hsubq : List.Sublist (r.state.evictLRU).2.order r.state.order := by
            cases hml : r.state.order.getLast? with
            | none =>
              have : (r.state.evictLRU).2 = r.state := by
                simp [LRUPolicy.evictLRU, hml]
              rw [this]
            | some p =>
              obtain ⟨w, vw⟩ := p
              have : (r.state.evictLRU).2.order = r.state.order.dropLast := by
                simp [LRUPolicy.evictLRU, hml]
              rw [this]
              exact List.dropLast_sublist _
          rw [hred]
          exact hmain _ hsubq
        · have hred : lruStep r (LRUOp.set k v) =
              { state := { r.state with order := (k, v) :: r.state.order },
                stamp := Function.update r.stamp k r.time,
                time := r.time + 1 } := by
            simp [lruStep, LRUPolicy.set, hm, hcap, hfull]
          rw [hred]
          exact hmain _ (List.Sublist.refl _)
  | del k =>
    cases hm : alookup k r.state.order with
    | none =>
      have hred : lruStep r (LRUOp.del k) =
          { state := r.state, stamp := r.stamp, time := r.time + 1 } := by
        simp [lruStep, LRUPolicy.del, hm]
      rw [hred]
      exact ⟨hnd, fun m hm2 => Nat.lt_succ_of_lt (hbound m hm2), hpair⟩
    | some v =>
      have hred : lruStep r (LRUOp.del k) =
          { state := { r.state with order := aerase k r.state.order },
            stamp := r.stamp, time := r.time + 1 } := by
        simp [lruStep, LRUPolicy.del, hm]
      rw [hred]
      refine ⟨?_, ?_, ?_⟩
      · show (akeys (aerase k r.state.order)).Nodup
        exact nodup_akeys_aerase hnd
      · intro m hm2
        show r.stamp m < r.time + 1
        rw [akeys_aerase] at hm2
        have := hbound m (List.mem_of_mem_erase hm2)
        omega
      · show (akeys (aerase k r.state.order)).Pairwise (fun a b => r.stamp b < r.stamp a)
        rw [akeys_aerase]
        exact hpair.sublist (List.erase_sublist k (akeys r.state.order))

theorem lruRun_inv (cap : Nat) (ops : List (LRUOp K V)) :
    LRUStampInv (lruRun cap ops) := by
  have hgen : ∀ (l : List (LRUOp K V)) (r : LRURun K V), LRUStampInv r →
      LRUStampInv (l.foldl lruStep r) := by
    intro l
    induction l with
    | nil => intro r h; exact h
    | cons op rest ih =>
      intro r h
      exact ih (lruStep r op) (lruStampInv_step op h)
  refine hgen ops _ ?_
  exact ⟨List.nodup_nil, fun m hm2 => by simp [akeys] at hm2, List.Pairwise.nil⟩

/-- Claim C8: after any sequence of get/set/delete operations against a
fresh LRU policy, if at least one key is resident then `evict()` returns
the key whose last touch — the stamped time of its last hit `get`, its
last `set`, or its insertion — is strictly earliest among all resident
keys (keys never accessed since insertion rank by their insertion
stamp). -/
theorem c8_lru_evicts_least_recently_used (cap : Nat) (ops : List (LRUOp K V))
    (hne : (lruRun cap ops).state.order ≠ []) :
    ∃ w, ((lruRun cap ops).state.evictLRU).1 = some w ∧
      w ∈ akeys (lruRun cap ops).state.order ∧
      ∀ m ∈ akeys (lruRun cap ops).state.order, m ≠ w →
        (lruRun cap ops).stamp w < (lruRun cap ops).stamp m := by
  obtain ⟨hnd, _, hpair⟩ := lruRun_inv (K := K) (V := V) cap ops
  cases hml : (lruRun cap ops).state.order.getLast? with
  | none => exact absurd (List.getLast?_eq_none_iff.mp hml) hne
  | some p =>
    obtain ⟨w, vw⟩ := p
    have hev : ((lruRun cap ops).state.evictLRU).1 = some w := by
      simp [LRUPolicy.evictLRU, hml]
    have hsplit : (lruRun cap ops).state.order.dropLast ++ [(w, vw)] =
        (lruRun cap ops).state.order :=
      List.dropLast_append_getLast? _ hml
    have hkeys : akeys (lruRun cap ops).state.order =
        akeys (lruRun cap ops).state.order.dropLast ++ [w] := by
      conv_lhs => rw [← hsplit]
      simp
    refine ⟨w, hev, ?_, ?_⟩
    · rw [hkeys]; simp
    · intro m hm2 hmw
      have hpair' := hpair
      rw [hkeys] at hpair' hm2
      rw [List.pairwise_append] at hpair'
      rcases List.mem_append.mp hm2 with hh | hh
      · exact hpair'.2.2 m hh w (List.mem_singleton_self w)
      · exact absurd (by simpa using hh) hmw

/-- Witness for claim C8: a concrete three-operation run whose eviction
victim is `"b"`, the least recently touched resident key. -/
theorem c8_lru_evicts_least_recently_used_witness :
    ∃ w, ((lruRun 3 [LRUOp.set "a" 1, LRUOp.set "b" 2,
        LRUOp.get "a"]).state.evictLRU).1 = some w ∧
      w ∈ akeys (lruRun 3 [LRUOp.set "a" 1, LRUOp.set "b" 2,
        LRUOp.get "a"]).state.order ∧
      ∀ m ∈ akeys (lruRun 3 [LRUOp.set "a" (1 : Nat), LRUOp.set "b" 2,
          LRUOp.get "a"]).state.order, m ≠ w →
        (lruRun 3 [LRUOp.set "a" 1, LRUOp.set "b" 2, LRUOp.get "a"]).stamp w <
          (lruRun 3 [LRUOp.set "a" 1, LRUOp.set "b" 2, LRUOp.get "a"]).stamp m :=
  c8_lru_evicts_least_recently_used 3
    [LRUOp.set "a" (1 : Nat), LRUOp.set "b" 2, LRUOp.get "a"] (by decide)

end ClaimEight

end CacheMaster
